import Mathlib

/-! liveMediaStreamer: ring buffer, frame queue and timing bookkeeping.

A shallow embedding of `src/AudioCircularBuffer.cpp`, `src/FrameQueue.cpp`, of the timing
bookkeeping, the GOP step and `configure0` of
`src/modules/videoEncoder/VideoEncoderX264or5.cpp` and of `decodeTime` and `segmentDuration`
of `src/modules/liveMediaOutput/DashSegmenterVideoSource.cpp`, followed by theorems about the
embedded functions.

Conventions of the embedding

* The class declarations (`*.hh`) are not part of the sources. The integer members of the
  buffer and of the queue are C `int`s in the code that uses them (`int bytesRequested`,
  `int firstCopiedBytes`, `for (int i ...; i < channels; ...)`); they are embedded as `Int`,
  that is, in the range in which the C arithmetic does not overflow. Values that the code
  declares `unsigned` are embedded as `Nat`, values it declares `uint32_t` are reduced
  modulo `2^32`, and an `unsigned int` that is stored in an `int` member is converted with
  `toInt32`.
* C `%` is truncated remainder (`Int.tmod`), C `/` on integers is truncated division
  (`Int.tdiv`). A remainder by a zero capacity in `pushBack` and `popFront` is undefined
  behaviour in C and is `none` in the embedding.
* Values of type `float` are numbers of the format binary32, embedded as the rational
  numbers they denote; every operation rounds to the nearest such number (`toFloat`).
* Memory blocks are lists of bytes. A `memcpy` that would leave a block (or has a negative
  length, which `size_t` turns into a huge one) is undefined behaviour in C and is `none`
  in the embedding; so is an access to a channel pointer that the caller did not supply.
-/

namespace LiveMedia

/-- One `unsigned char`. -/
abbrev Byte := Fin 256

/-- C remainder `a % b` (truncated). -/
def cMod (a b : Int) : Int := Int.tmod a b

/-- Conversion of an `unsigned int` below `2^32` to `int`. -/
def toInt32 (x : Int) : Int := if x < 2 ^ 31 then x else x - 2 ^ 32

/-- The call `memcpy(dst + dOff, src + sOff, n)` on blocks `dst` and `src`: the new content
of `dst`, or `none` when the copy would read or write outside a block. -/
def memcpy (dst : List Byte) (dOff : Int) (src : List Byte) (sOff : Int) (n : Int) :
    Option (List Byte) :=
  if 0 ≤ n ∧ 0 ≤ dOff ∧ dOff + n ≤ dst.length ∧ 0 ≤ sOff ∧ sOff + n ≤ src.length then
    some (dst.take dOff.toNat ++ (src.drop sOff.toNat).take n.toNat ++ dst.drop (dOff + n).toNat)
  else
    none

/-- The loop `for (int i = 0; i < n; i++) body(i)`, where iteration `i` only touches the
blocks of channel `i`: the list of the blocks the iterations produce, in channel order. -/
def forChannels {α : Type} (body : Nat → Option α) : Nat → Option (List α)
  | 0 => some []
  | n + 1 =>
    match forChannels body n, body n with
    | some xs, some x => some (xs ++ [x])
    | _, _ => none

/-- The bytes a buffer with front offset `f` and `c` buffered bytes holds in block `d`,
oldest first. -/
def window (d : List Byte) (f c : Int) : List Byte :=
  ((d ++ d).drop f.toNat).take c.toNat

/-- Block `d'` is block `d` after the `n` bytes at the start of `b` were written at offset
`r`, continuing at offset 0 when the end of the block is reached. -/
def WrittenFrom (d d' b : List Byte) (cap r n : Int) : Prop :=
  d'.length = d.length ∧
  ∀ k : Nat, (k : Int) < cap →
    d'[k]? = if (if r ≤ k then k - r else k + cap - r) < n
      then b[(if r ≤ (k : Int) then k - r else k + cap - r).toNat]? else d[k]?

/-! ## AudioCircularBuffer -/

/-- Members of `AudioCircularBuffer`; `data` holds the blocks `data[0] .. data[channels-1]`. -/
structure AudioCircularBuffer where
  byteCounter : Int
  front : Int
  rear : Int
  channels : Int
  chMaxSamples : Int
  bytesPerSample : Int
  channelMaxLength : Int
  data : List (List Byte)
deriving DecidableEq, Repr

namespace AudioCircularBuffer

/-- Constructor `AudioCircularBuffer(chNumber, chMaxSamples, bytesPerSmpl)`: the arguments are
`unsigned int`, so the product is taken modulo `2^32`, and the members that receive them are
`int`, so a value of `2^31` or more is stored as a negative number. Every channel gets a
zero-filled block of `channelMaxLength` bytes; for a negative `channelMaxLength` the
allocation fails in the code and the blocks are empty here. The number of channels is taken
as it is, without that conversion: the array `data` holds one pointer for each channel and
has no room for `2^31` of them. -/
def mk0 (chNumber chMaxSamples bytesPerSmpl : Nat) : AudioCircularBuffer :=
  let channelMaxLength : Int := toInt32 (((chMaxSamples * bytesPerSmpl) % 2 ^ 32 : Nat) : Int)
  { byteCounter := 0
    front := 0
    rear := 0
    channels := chNumber
    chMaxSamples := toInt32 ((chMaxSamples % 2 ^ 32 : Nat) : Int)
    bytesPerSample := toInt32 ((bytesPerSmpl % 2 ^ 32 : Nat) : Int)
    channelMaxLength := channelMaxLength
    data := List.replicate chNumber (List.replicate channelMaxLength.toNat 0) }

/-- Method `pushBack(buffer, samplesRequested)`: the returned flag and the buffer afterwards.
The remainder `% channelMaxLength` is undefined for a capacity of zero. -/
def pushBack (s : AudioCircularBuffer) (buffer : List (List Byte)) (samplesRequested : Int) :
    Option (Bool × AudioCircularBuffer) :=
  let bytesRequested := samplesRequested * s.bytesPerSample
  if bytesRequested > s.channelMaxLength - s.byteCounter then
    some (false, s)
  else if s.rear + bytesRequested < s.channelMaxLength then
    match forChannels (fun i =>
        match s.data[i]?, buffer[i]? with
        | some d, some b => memcpy d s.rear b 0 bytesRequested
        | _, _ => none) s.channels.toNat with
    | none => none
    | some data' =>
      if s.channelMaxLength = 0 then
        none
      else
        some (true, { s with
          data := data' ++ s.data.drop s.channels.toNat
          byteCounter := s.byteCounter + bytesRequested
          rear := cMod (s.rear + bytesRequested) s.channelMaxLength })
  else
    let firstCopiedBytes := s.channelMaxLength - s.rear
    match forChannels (fun i =>
        match s.data[i]?, buffer[i]? with
        | some d, some b =>
          match memcpy d s.rear b 0 firstCopiedBytes with
          | some d1 => memcpy d1 0 b firstCopiedBytes (bytesRequested - firstCopiedBytes)
          | none => none
        | _, _ => none) s.channels.toNat with
    | none => none
    | some data' =>
      if s.channelMaxLength = 0 then
        none
      else
        some (true, { s with
          data := data' ++ s.data.drop s.channels.toNat
          byteCounter := s.byteCounter + bytesRequested
          rear := cMod (s.rear + bytesRequested) s.channelMaxLength })

/-- Method `popFront(buffer, samplesRequested)`: the returned flag, the buffer afterwards and
the caller's output blocks `buffer[0] ..` afterwards. The remainder `% channelMaxLength` is
undefined for a capacity of zero. -/
def popFront (s : AudioCircularBuffer) (buffer : List (List Byte)) (samplesRequested : Int) :
    Option (Bool × AudioCircularBuffer × List (List Byte)) :=
  let bytesRequested := samplesRequested * s.bytesPerSample
  if bytesRequested > s.byteCounter then
    some (false, s, buffer)
  else if s.front + bytesRequested < s.channelMaxLength then
    match forChannels (fun i =>
        match buffer[i]?, s.data[i]? with
        | some b, some d => memcpy b 0 d s.front bytesRequested
        | _, _ => none) s.channels.toNat with
    | none => none
    | some buffer' =>
      if s.channelMaxLength = 0 then
        none
      else
        some (true, { s with
          byteCounter := s.byteCounter - bytesRequested
          front := cMod (s.front + bytesRequested) s.channelMaxLength },
          buffer' ++ buffer.drop s.channels.toNat)
  else
    let firstCopiedBytes := s.channelMaxLength - s.front
    match forChannels (fun i =>
        match buffer[i]?, s.data[i]? with
        | some b, some d =>
          match memcpy b 0 d s.front firstCopiedBytes with
          | some b1 => memcpy b1 firstCopiedBytes d 0 (bytesRequested - firstCopiedBytes)
          | none => none
        | _, _ => none) s.channels.toNat with
    | none => none
    | some buffer' =>
      if s.channelMaxLength = 0 then
        none
      else
        some (true, { s with
          byteCounter := s.byteCounter - bytesRequested
          front := cMod (s.front + bytesRequested) s.channelMaxLength },
          buffer' ++ buffer.drop s.channels.toNat)

/-- State invariant of the buffer. -/
structure Inv (s : AudioCircularBuffer) : Prop where
  cap_pos : 0 < s.channelMaxLength
  data_len : (s.data.length : Int) = s.channels
  block_len : ∀ (k : Nat) (d : List Byte), s.data[k]? = some d → (d.length : Int) = s.channelMaxLength
  front_lo : 0 ≤ s.front
  front_hi : s.front < s.channelMaxLength
  count_lo : 0 ≤ s.byteCounter
  count_hi : s.byteCounter ≤ s.channelMaxLength
  rear_eq : s.rear = cMod (s.front + s.byteCounter) s.channelMaxLength

/-- The relations between `front`, `rear`, `byteCounter` and `channelMaxLength` that hold
in a buffer that is used as intended. -/
def StateInv (s : AudioCircularBuffer) : Prop :=
  0 ≤ s.byteCounter ∧ s.byteCounter ≤ s.channelMaxLength ∧
  0 ≤ s.front ∧ s.front < s.channelMaxLength ∧
  0 ≤ s.rear ∧ s.rear < s.channelMaxLength ∧
  s.rear = (s.front + s.byteCounter) % s.channelMaxLength

/-- The bytes buffered for channel `i`, oldest first. -/
def contents (s : AudioCircularBuffer) (i : Nat) : List Byte :=
  window (s.data.getD i []) s.front s.byteCounter

/-- One call made by a client of the buffer, with its arguments. -/
inductive Call where
  | pushBack (buffer : List (List Byte)) (samplesRequested : Int)
  | popFront (buffer : List (List Byte)) (samplesRequested : Int)

/-- Runs a sequence of calls and records, for channel `i`, the bytes handed to the `pushBack`
calls that returned `true` and the bytes the `popFront` calls that returned `true` wrote to
the output block of the channel, both in call order. Calls that return `false` are part of
the run and record nothing. The result is the final buffer, the pushed bytes and the popped
bytes; it is `none` when a call has undefined behaviour. -/
def runCalls (i : Nat) :
    AudioCircularBuffer → List Call → Option (AudioCircularBuffer × List Byte × List Byte)
  | s, [] => some (s, [], [])
  | s, Call.pushBack buffer n :: cs =>
    match pushBack s buffer n with
    | none => none
    | some (ok, s') =>
      match runCalls i s' cs with
      | none => none
      | some (sf, pushed, popped) =>
        some (sf,
          (if ok then (buffer.getD i []).take (n * s.bytesPerSample).toNat else []) ++ pushed,
          popped)
  | s, Call.popFront buffer n :: cs =>
    match popFront s buffer n with
    | none => none
    | some (ok, s', buffer') =>
      match runCalls i s' cs with
      | none => none
      | some (sf, pushed, popped) =>
        some (sf, pushed,
          (if ok then (buffer'.getD i []).take (n * s.bytesPerSample).toNat else []) ++ popped)

end AudioCircularBuffer

/-! ## FrameQueue

A `Frame*` taken from the array `frames` is embedded as the index of its slot, `NULL` as
`none`. Time points are counts of ticks of `system_clock`; `ticksPerMs`, the number of clock
ticks in a millisecond, depends on the platform and is a parameter. The update times of the
frames are set by the producer and are a parameter as well. -/

/-- Members of `FrameQueue`. -/
structure FrameQueue where
  front : Int
  rear : Int
  elements : Int
  max : Int
  delay : Int
  currentTime : Int
  enlapsedTime : Int
deriving DecidableEq, Repr

namespace FrameQueue

/-- Method `getRear()`. -/
def getRear (q : FrameQueue) : Option Int :=
  if q.elements ≥ q.max then none else some q.rear

/-- Method `frameToRead()`. `now` is the value of `system_clock::now()`, `updatedTime k` the
update time of `frames[k]`; `duration_cast<milliseconds>` truncates to whole milliseconds. -/
def frameToRead (ticksPerMs now : Int) (updatedTime : Int → Int) (q : FrameQueue) :
    Bool × FrameQueue :=
  if q.elements ≤ 0 then
    (false, q)
  else
    let q1 := { q with currentTime := now }
    let q2 := { q1 with
      enlapsedTime := Int.tdiv (q1.currentTime - updatedTime q1.front) ticksPerMs }
    (decide (q2.enlapsedTime > q2.delay), q2)

/-- Method `getFront()`. -/
def getFront (ticksPerMs now : Int) (updatedTime : Int → Int) (q : FrameQueue) :
    Option Int × FrameQueue :=
  let r := frameToRead ticksPerMs now updatedTime q
  if r.1 then (some r.2.front, r.2) else (none, r.2)

/-- Method `addFrame()`. -/
def addFrame (q : FrameQueue) : FrameQueue :=
  { q with rear := cMod (q.rear + 1) q.max, elements := q.elements + 1 }

/-- Method `removeFrame()`. -/
def removeFrame (q : FrameQueue) : FrameQueue :=
  { q with front := cMod (q.front + 1) q.max, elements := q.elements - 1 }

/-- Method `flush()`. -/
def flush (q : FrameQueue) : FrameQueue :=
  if q.elements = q.max then
    { q with rear := cMod (q.rear + (q.max - 1)) q.max, elements := q.elements - 1 }
  else
    q

/-- Method `forceGetRear()`, with a bound `fuel` on the number of evaluations of the loop
condition: the slot returned, the queue afterwards and the number of calls to `flush`; `none`
when the loop has not ended within the bound. -/
def forceGetRear : Nat → FrameQueue → Option (Int × FrameQueue × Nat)
  | 0, _ => none
  | fuel + 1, q =>
    match getRear q with
    | some frame => some (frame, q, 0)
    | none =>
      match forceGetRear fuel (flush q) with
      | some (frame, q', flushes) => some (frame, q', flushes + 1)
      | none => none

/-- Method `getOldie()`. -/
def getOldie (q : FrameQueue) : Option Int :=
  some (cMod (q.front + (q.max - 1)) q.max)

/-- Method `forceGetFront()`. -/
def forceGetFront (ticksPerMs now : Int) (updatedTime : Int → Int) (q : FrameQueue) :
    Option Int × FrameQueue :=
  let r := getFront ticksPerMs now updatedTime q
  match r.1 with
  | none => (getOldie r.2, r.2)
  | some frame => (some frame, r.2)

/-- One call made by the producer or the consumer of the queue. -/
inductive Call where
  | getRear
  | addFrame
  | getFront (now : Int) (updatedTime : Int → Int)
  | removeFrame

/-- State of a run of producer and consumer calls: the queue, the slot the latest `getRear`
handed out and that is not committed yet, the slot the latest `getFront` handed out and that
is not released yet, the slots committed by `addFrame` and the slots released by
`removeFrame`, both in call order. -/
structure Run where
  queue : FrameQueue
  writeSlot : Option Int
  readSlot : Option Int
  written : List Int
  read : List Int
deriving DecidableEq, Repr

/-- Runs a sequence of calls in which `addFrame` is only called after `getRear` returned a
slot and `removeFrame` only after `getFront` returned a slot; `none` for any other
sequence. -/
def runCalls (ticksPerMs : Int) : Run → List Call → Option Run
  | r, [] => some r
  | r, Call.getRear :: cs =>
    runCalls ticksPerMs { r with writeSlot := getRear r.queue } cs
  | r, Call.addFrame :: cs =>
    match r.writeSlot with
    | none => none
    | some slot =>
      runCalls ticksPerMs { r with
        queue := addFrame r.queue, writeSlot := none, written := r.written ++ [slot] } cs
  | r, Call.getFront now updatedTime :: cs =>
    runCalls ticksPerMs { r with
      queue := (getFront ticksPerMs now updatedTime r.queue).2
      readSlot := (getFront ticksPerMs now updatedTime r.queue).1 } cs
  | r, Call.removeFrame :: cs =>
    match r.readSlot with
    | none => none
    | some slot =>
      runCalls ticksPerMs { r with
        queue := removeFrame r.queue, readSlot := none, read := r.read ++ [slot] } cs

/-- State invariant of the queue; `rear` is `front + elements` reduced modulo `max`. -/
structure Inv (q : FrameQueue) : Prop where
  max_pos : 1 ≤ q.max
  front_lo : 0 ≤ q.front
  front_hi : q.front < q.max
  elements_lo : 0 ≤ q.elements
  elements_hi : q.elements ≤ q.max
  rear_eq : q.rear = if q.front + q.elements < q.max then q.front + q.elements
    else q.front + q.elements - q.max

/-- The slots that hold committed frames not released yet, oldest first. -/
def slots (q : FrameQueue) : List Int :=
  (List.range q.elements.toNat).map
    (fun (j : Nat) =>
      if q.front + (j : Int) < q.max then q.front + (j : Int) else q.front + (j : Int) - q.max)

/-- Invariant of a run: the committed slots are the released slots followed by the slots
still in the queue, and a slot handed out and not yet committed or released is the one at
`rear` or `front`. -/
structure Run.Inv (r : Run) : Prop where
  queue_inv : FrameQueue.Inv r.queue
  stream : r.written = r.read ++ slots r.queue
  write_slot : ∀ slot, r.writeSlot = some slot →
    slot = r.queue.rear ∧ r.queue.elements < r.queue.max
  read_slot : ∀ slot, r.readSlot = some slot → slot = r.queue.front ∧ 0 < r.queue.elements

/-- A call that changes the window of committed frames. -/
inductive Op where
  | addFrame
  | removeFrame
  | flush
deriving DecidableEq, Repr

/-- Runs a history of `addFrame`, `removeFrame` and `flush` calls and keeps the slot of the
latest `addFrame`. `addFrame` is only called when `getRear` hands out a slot, `removeFrame`
only when the queue holds a frame; `none` for any other history. -/
def runOps : FrameQueue × Option Int → List Op → Option (FrameQueue × Option Int)
  | r, [] => some r
  | (q, _), Op.addFrame :: ops =>
    match getRear q with
    | none => none
    | some slot => runOps (addFrame q, some slot) ops
  | (q, last), Op.removeFrame :: ops =>
    if q.elements > 0 then runOps (removeFrame q, last) ops else none
  | (q, last), Op.flush :: ops => runOps (flush q, last) ops

end FrameQueue

/-! ## VideoEncoderX264or5: the timing records of the frames in flight

`qFTP` is a `std::map` from the index of a submitted frame to its timing record. The map is
embedded as a list of entries with distinct keys; the order of the list has no meaning, since
the code never iterates over the map. -/

/-- Modelled from the spec: the declaration of `FrameTimeParams` is not part of the sources;
it is the timing record {presentation time, origin time, sequence number} with the members
`pTime`, `oTime` and `seqNum` that `doProcessFrame` uses, time points being counts of
microseconds. -/
structure FrameTimeParams where
  pTime : Int
  oTime : Int
  seqNum : Nat
deriving DecidableEq, Repr

/-- The value-initialised `FrameTimeParams()` that `std::map::operator[]` stores for a key
that is absent: every member is zero. -/
def FrameTimeParams.init : FrameTimeParams := ⟨0, 0, 0⟩

/-- The type of `qFTP`. -/
abbrev TimeMap := List (Int × FrameTimeParams)

namespace TimeMap

/-- The record stored for `key`, if there is one (`std::map::find`). -/
def find (m : TimeMap) (key : Int) : Option FrameTimeParams :=
  match m with
  | [] => none
  | (k, v) :: rest => if k = key then some v else find rest key

/-- The call `qFTP.erase(key)`. -/
def erase (m : TimeMap) (key : Int) : TimeMap :=
  m.filter (fun e => decide (e.1 ≠ key))

/-- The expression `qFTP[key]` read as a value (`std::map::operator[]`): the record it yields
and the map afterwards. A key that is absent is inserted with a value-initialised record. -/
def index (m : TimeMap) (key : Int) : FrameTimeParams × TimeMap :=
  match find m key with
  | some v => (v, m)
  | none => (FrameTimeParams.init, (key, FrameTimeParams.init) :: m)

/-- The statement `qFTP[key] = value`. -/
def assign (m : TimeMap) (key : Int) (value : FrameTimeParams) : TimeMap :=
  (key, value) :: erase m key

/-- The value of `qFTP.size()`. -/
def size (m : TimeMap) : Nat := m.length

/-- An access to the map: `record` is `qFTP[key] = value`, `retrieve` is `qFTP[key]` read as
a value, `release` is `qFTP.erase(key)`. -/
inductive Access where
  | record (key : Int) (value : FrameTimeParams)
  | retrieve (key : Int)
  | release (key : Int)
deriving DecidableEq, Repr

/-- Whether the access is a `record` or a `release` of `key`. -/
def Access.rewrites (key : Int) : Access → Bool
  | Access.record k _ => decide (k = key)
  | Access.retrieve _ => false
  | Access.release k => decide (k = key)

/-- The map after one access. -/
def step (m : TimeMap) : Access → TimeMap
  | Access.record key value => assign m key value
  | Access.retrieve key => (index m key).2
  | Access.release key => erase m key

/-- The map after a sequence of accesses. -/
def run (m : TimeMap) (accesses : List Access) : TimeMap :=
  accesses.foldl step m

end TimeMap

/-- The members of `VideoEncoderX264or5` that the timing bookkeeping of `doProcessFrame`
uses. -/
structure EncoderTimes where
  qFTP : TimeMap
  inPts : Int
  outPts : Int
  dts : Int
deriving DecidableEq, Repr

/-- The members of the destination `Frame` that `doProcessFrame` sets. -/
structure FrameTimes where
  consumed : Bool
  presentationTime : Int
  decodeTime : Int
  originTime : Int
  sequenceNumber : Nat
deriving DecidableEq, Repr

/-- The timing bookkeeping of `doProcessFrame` (from `frameTP.pTime = ...` to the final
`return true`). `org` holds the times and the sequence number of the frame `org`.
`encodeFrame` stands for the virtual method of that name, which the subclasses implement: it
returns its flag and the members as it leaves them. The result is the returned flag, the
members and the destination frame afterwards. -/
def doProcessFrameTimes (encodeFrame : EncoderTimes → Bool × EncoderTimes) (e : EncoderTimes)
    (org : FrameTimeParams) (dst : FrameTimes) : Bool × EncoderTimes × FrameTimes :=
  let frameTP : FrameTimeParams := ⟨org.pTime, org.oTime, org.seqNum⟩
  let e1 := { e with qFTP := TimeMap.assign e.qFTP e.inPts frameTP }
  let r := encodeFrame e1
  if r.1 = false then
    (false, r.2, dst)
  else
    let e2 := r.2
    let dst1 := { dst with consumed := true }
    let a := TimeMap.index e2.qFTP e2.outPts
    let dst2 := { dst1 with presentationTime := a.1.pTime }
    let b := TimeMap.index a.2 e2.dts
    let dst3 := { dst2 with decodeTime := b.1.pTime }
    let c := TimeMap.index b.2 e2.outPts
    let dst4 := { dst3 with originTime := c.1.oTime }
    let d := TimeMap.index c.2 e2.outPts
    let dst5 := { dst4 with sequenceNumber := d.1.seqNum }
    (true, { e2 with qFTP := TimeMap.erase d.2 e2.dts }, dst5)

/-! ## VideoEncoderX264or5: the GOP step and the configuration

The members `gopTime`, `bitrate`, `gop`, `lookahead`, `threads` and `fps` receive `unsigned`
arguments and are embedded as `Nat`; `refTime` and the presentation times are counts of
microseconds. -/

/-- The block `if (gopTime > 0) { ... }` of `doProcessFrame`: the members `forceIntra` and
`refTime` after the block, for a frame with presentation time `pts`. -/
def gopStep (gopTime : Nat) (forceIntra : Bool) (refTime : Int) (pts : Int) : Bool × Int :=
  if gopTime > 0 then
    let refTime1 := if refTime = 0 then pts else refTime
    let diff := refTime1 - pts
    if diff ≤ 0 then
      (true, refTime1 + (gopTime : Int))
    else
      (forceIntra, refTime1)
  else
    (forceIntra, refTime)

/-- Modelled from the spec: the method `encodeFrame` of the subclasses, which consumes the
flag `forceIntra`, is not part of the sources; forcing is a one-shot signal, so every frame
meets the flag cleared. Runs the GOP step over the presentation times of a sequence of frames:
the number of frames on which the step set `forceIntra`, and `refTime` afterwards. -/
def gopRun (gopTime : Nat) : Int → List Int → Nat × Int
  | refTime, [] => (0, refTime)
  | refTime, pts :: rest =>
    let r := gopStep gopTime false refTime pts
    let t := gopRun gopTime r.2 rest
    ((if r.1 then 1 else 0) + t.1, t.2)

/-- The configuration members of `VideoEncoderX264or5` that `configure0` writes; `annexb` is
`outputStreamInfo->video.h264or5.annexb` and `frameTime` the member that `setFrameTime`
sets, in microseconds. -/
structure EncoderConfig where
  bitrate : Nat
  gop : Nat
  lookahead : Nat
  threads : Nat
  bFrames : Int
  annexb : Bool
  preset : String
  fps : Nat
  frameTime : Int
  gopTime : Nat
  needsConfig : Bool
deriving DecidableEq, Repr

/-- Method `configure0`. The constants `VIDEO_DEFAULT_FRAMERATE` and `MIN_GOP_TIME` are
defined outside the sources and are parameters. The result is the returned flag and the
members afterwards. -/
def configure0 (VIDEO_DEFAULT_FRAMERATE MIN_GOP_TIME : Nat) (c : EncoderConfig)
    (bitrate_ fps_ gop_ lookahead_ : Nat) (bFrames_ : Int) (threads_ : Nat) (annexB_ : Bool)
    (preset_ : String) (gopTime_ : Nat) : Bool × EncoderConfig :=
  if bitrate_ ≤ 0 ∨ gop_ ≤ 0 ∨ lookahead_ < 0 ∨ threads_ ≤ 0 ∨ preset_.isEmpty = true then
    (false, c)
  else
    let c1 := { c with
      bitrate := bitrate_, gop := gop_, lookahead := lookahead_, threads := threads_,
      bFrames := bFrames_ }
    let c2 := { c1 with annexb := annexB_, preset := preset_ }
    let c3 :=
      if fps_ ≤ 0 then
        { c2 with fps := VIDEO_DEFAULT_FRAMERATE, frameTime := 0 }
      else
        { c2 with fps := fps_, frameTime := ((1000000 / fps_ : Nat) : Int) }
    let c4 :=
      if gopTime_ > 0 then
        if gopTime_ < MIN_GOP_TIME then
          { c3 with gopTime := MIN_GOP_TIME }
        else
          { c3 with gopTime := gopTime_ }
      else
        { c3 with gopTime := 0 }
    (true, { c4 with needsConfig := true })
/-! ## DashSegmenterVideoSource: decode time and segment duration

The macro `H264_FREQUENCY`, the number of microseconds in a tick, is defined outside the
sources and is a parameter, a positive integer constant. The locals declared `uint32_t` are
reduced modulo `2^32`. The values of type `float` are numbers of the IEEE 754 format
binary32, embedded as the rational numbers they denote: every conversion to `float` and
every operation on `float` values rounds its exact result to the nearest number with a
significand of 24 bits, a tie to the even significand (`toFloat`), as an implementation
that evaluates `float` expressions in their own type does. The exponent range of
the format is not embedded: the values that the two methods compute from a 32-bit
difference and an integer constant of at most 64 bits are 0 or lie between `2^-65` and
`2^64` in magnitude, inside the range of the normal numbers. The comparisons with `0.5` and
`1` are exact. -/

/-- Rounding of a rational number to the nearest integer, a tie to the even one. -/
def roundHalfEven (m : ℚ) : Int :=
  if m - ⌊m⌋ < 1 / 2 then ⌊m⌋
  else if 1 / 2 < m - ⌊m⌋ then ⌊m⌋ + 1
  else if ⌊m⌋ % 2 = 0 then ⌊m⌋
  else ⌊m⌋ + 1

/-- Rounding of a rational number to `float`: the nearest number with a significand of 24
bits, a tie to the even significand. For `x` between `2^e` and `2^(e+1)` the numbers of the
format are the multiples of `2^(e-23)`. -/
def toFloat (x : ℚ) : ℚ :=
  if x = 0 then 0
  else if x < 0 then
    -((roundHalfEven (-x / 2 ^ (Int.log 2 (-x) - 23)) : ℚ) * 2 ^ (Int.log 2 (-x) - 23))
  else
    (roundHalfEven (x / 2 ^ (Int.log 2 x - 23)) : ℚ) * 2 ^ (Int.log 2 x - 23)

/-- A `struct timeval`. -/
structure Timeval where
  tv_sec : Int
  tv_usec : Int
deriving DecidableEq, Repr

/-- The value `t.tv_sec * 1000000 + t.tv_usec`, in microseconds. -/
def Timeval.micros (t : Timeval) : Int :=
  t.tv_sec * 1000000 + t.tv_usec

/-- Conversion of an integer to `uint32_t`. -/
def toUInt32 (x : Int) : Int := x % 2 ^ 32

/-- The members of `DashSegmenterVideoSource` that `decodeTime` and `segmentDuration` use. -/
structure SegmentClock where
  decodeTimeFloat : ℚ
  durationSampleFloat : ℚ
  totalSegmentDuration : Int
deriving DecidableEq

namespace SegmentClock

/-- The value `totalA - totalB` of type `uint32_t` that both methods compute. -/
def delta (a b : Timeval) : Int :=
  toUInt32 (toUInt32 a.micros - toUInt32 b.micros)

/-- Method `decodeTime(a, b)`: the returned value and the members afterwards. -/
def decodeTime (H264_FREQUENCY : Int) (s : SegmentClock) (a b : Timeval) : Int × SegmentClock :=
  let totalA := toUInt32 a.micros
  let totalB := toUInt32 b.micros
  let decodeTime := toUInt32 (Int.tdiv (toUInt32 (totalA - totalB)) H264_FREQUENCY)
  let s1 := { s with
    decodeTimeFloat :=
      toFloat (toFloat ((toUInt32 (totalA - totalB) : Int) : ℚ) /
        toFloat ((H264_FREQUENCY : Int) : ℚ)) }
  let s2 := { s1 with
    decodeTimeFloat := toFloat (s1.decodeTimeFloat - toFloat ((decodeTime : Int) : ℚ)) }
  if s2.decodeTimeFloat ≥ 1 / 2 then
    (toUInt32 (decodeTime + 1), s2)
  else
    (decodeTime, s2)

/-- Method `segmentDuration(a, b)`: the returned value and the members afterwards. -/
def segmentDuration (H264_FREQUENCY : Int) (s : SegmentClock) (a b : Timeval) :
    Int × SegmentClock :=
  let totalA := toUInt32 a.micros
  let totalB := toUInt32 b.micros
  let durationTime := toUInt32 (Int.tdiv (toUInt32 (totalA - totalB)) H264_FREQUENCY)
  let s1 := { s with
    durationSampleFloat :=
      toFloat (toFloat ((toUInt32 (totalA - totalB) : Int) : ℚ) /
        toFloat ((H264_FREQUENCY : Int) : ℚ)) }
  let s2 := { s1 with
    durationSampleFloat :=
      toFloat (s1.durationSampleFloat - toFloat ((durationTime : Int) : ℚ)) }
  let r : Int × SegmentClock :=
    if s2.durationSampleFloat ≥ 1 then
      (toUInt32 (durationTime + 1),
        { s2 with durationSampleFloat := toFloat (s2.durationSampleFloat - 1) })
    else
      (durationTime, s2)
  (r.1, { r.2 with totalSegmentDuration := r.2.totalSegmentDuration + r.1 })

/-- The members after the calls `segmentDuration(t1, t0)`, `segmentDuration(t2, t1)`, ... for
the presentation times `t0, t1, t2, ...` of consecutive frames. -/
def segmentDurations (H264_FREQUENCY : Int) : SegmentClock → Timeval → List Timeval → SegmentClock
  | s, _, [] => s
  | s, previous, current :: rest =>
    segmentDurations H264_FREQUENCY (segmentDuration H264_FREQUENCY s current previous).2
      current rest

end SegmentClock

/-- The `struct timeval` of a time given in microseconds, with `tv_usec` below one second. -/
def Timeval.ofMicros (m : Int) : Timeval :=
  ⟨m / 1000000, m % 1000000⟩

/-- The presentation times of `n` frames that follow a frame at time `t` (in microseconds),
each `step` microseconds after the one before. -/
def framesEvery (step : Int) : Nat → Int → List Timeval
  | 0, _ => []
  | n + 1, t => Timeval.ofMicros (t + step) :: framesEvery step n (t + step)

/-! ## Facts about the embedding's building blocks -/


/-! ### Auxiliary facts -/

theorem cMod_of_lt {a b : Int} (h0 : 0 ≤ a) (h1 : a < b) : cMod a b = a := by
  unfold cMod
  rw [Int.tmod_eq_emod h0 (by omega)]; exact Int.emod_eq_of_lt h0 h1

theorem cMod_of_wrap {a b : Int} (h0 : b ≤ a) (hb : 0 < b) (h1 : a < 2 * b) :
    cMod a b = a - b := by
  unfold cMod
  rw [Int.tmod_eq_emod (by omega) (by omega), Int.emod_eq_sub_self_emod]
  exact Int.emod_eq_of_lt (by omega) (by omega)

theorem memcpy_some {dst src d' : List Byte} {dOff sOff n : Int}
    (h : memcpy dst dOff src sOff n = some d') :
    0 ≤ n ∧ 0 ≤ dOff ∧ dOff + n ≤ dst.length ∧ 0 ≤ sOff ∧ sOff + n ≤ src.length ∧
    d'.length = dst.length ∧
    ∀ k : Nat, d'[k]? =
      if dOff ≤ k ∧ (k : Int) < dOff + n then src[(sOff + k - dOff).toNat]? else dst[k]? := by
  unfold memcpy at h
  split at h
  · rename_i hc
    obtain ⟨h1, h2, h3, h4, h5⟩ := hc
    injection h with h
    subst h
    refine ⟨h1, h2, h3, h4, h5, ?_, ?_⟩
    · simp only [List.length_append, List.length_take, List.length_drop]
      omega
    · intro k
      simp only [List.getElem?_append, List.length_append, List.length_take, List.length_drop,
        List.getElem?_take, List.getElem?_drop]
      split_ifs <;> first
        | omega
        | rfl
        | (congr 1; omega)
  · cases h


theorem memcpy_isSome {dst src : List Byte} {dOff sOff n : Int}
    (h : 0 ≤ n ∧ 0 ≤ dOff ∧ dOff + n ≤ dst.length ∧ 0 ≤ sOff ∧ sOff + n ≤ src.length) :
    ∃ d', memcpy dst dOff src sOff n = some d' := by
  unfold memcpy
  rw [if_pos h]
  exact ⟨_, rfl⟩

theorem forChannels_some {α : Type} {body : Nat → Option α} :
    ∀ {n : Nat} {l : List α}, forChannels body n = some l →
      l.length = n ∧ ∀ i, i < n → l[i]? = body i := by
  intro n
  induction n with
  | zero =>
    intro l h
    simp only [forChannels] at h
    injection h with h
    subst h
    exact ⟨rfl, fun i hi => absurd hi (Nat.not_lt_zero i)⟩
  | succ n ih =>
    intro l h
    simp only [forChannels] at h
    split at h
    · rename_i xs x hxs hx
      injection h with h
      subst h
      obtain ⟨hlen, hget⟩ := ih hxs
      refine ⟨by simp [hlen], ?_⟩
      intro i hi
      rw [List.getElem?_append]
      by_cases hin : i < n
      · rw [if_pos (by omega)]
        exact hget i hin
      · have hieq : i = n := by omega
        subst hieq
        rw [if_neg (by omega), hlen]
        simp [hx]
    · cases h

theorem forChannels_isSome {α : Type} {body : Nat → Option α} :
    ∀ {n : Nat}, (∀ i, i < n → ∃ x, body i = some x) → ∃ l, forChannels body n = some l := by
  intro n
  induction n with
  | zero => intro _; exact ⟨[], rfl⟩
  | succ n ih =>
    intro h
    obtain ⟨xs, hxs⟩ := ih (fun i hi => h i (by omega))
    obtain ⟨x, hx⟩ := h n (by omega)
    exact ⟨xs ++ [x], by simp only [forChannels, hxs, hx]⟩

theorem window_getElem? (d : List Byte) (f c : Int) (j : Nat) :
    (window d f c)[j]? = if j < c.toNat then (d ++ d)[f.toNat + j]? else none := by
  simp only [window, List.getElem?_take, List.getElem?_drop]

theorem window_length {d : List Byte} {f c cap : Int} (hd : (d.length : Int) = cap)
    (hf : f < cap) (hc : c ≤ cap) : ((window d f c).length : Int) = max c 0 := by
  simp only [window, List.length_take, List.length_drop, List.length_append]
  omega

theorem writtenFrom_straight {d d' b : List Byte} {cap r n : Int}
    (hlt : r + n < cap)
    (h : memcpy d r b 0 n = some d') : WrittenFrom d d' b cap r n := by
  obtain ⟨h1, _, _, _, _, hlen, hget⟩ := memcpy_some h
  refine ⟨hlen, ?_⟩
  intro k hk
  rw [hget k]
  split_ifs <;> first
    | omega
    | rfl
    | (congr 1; omega)

theorem writtenFrom_wrapped {d d1 d' b : List Byte} {cap r n : Int}
    (hd : (d.length : Int) = cap) (hn : n ≤ cap)
    (h1 : memcpy d r b 0 (cap - r) = some d1)
    (h2 : memcpy d1 0 b (cap - r) (n - (cap - r)) = some d') : WrittenFrom d d' b cap r n := by
  obtain ⟨_, _, _, _, _, hlen1, hget1⟩ := memcpy_some h1
  obtain ⟨_, _, _, _, _, hlen2, hget2⟩ := memcpy_some h2
  refine ⟨by rw [hlen2, hlen1], ?_⟩
  intro k hk
  rw [hget2 k, hget1 k]
  split_ifs <;> first
    | omega
    | rfl
    | (congr 1; omega)

theorem window_written {d d' b : List Byte} {cap f c r n : Int}
    (hd : (d.length : Int) = cap) (hf0 : 0 ≤ f) (hf : f < cap) (hc0 : 0 ≤ c)
    (hr : r = if f + c < cap then f + c else f + c - cap)
    (hn0 : 0 ≤ n) (hn : n ≤ cap - c)
    (h : WrittenFrom d d' b cap r n) :
    window d' f (c + n) = window d f c ++ b.take n.toNat := by
  obtain ⟨hlen, hget⟩ := h
  have hwl := window_length hd hf (show c ≤ cap by omega)
  apply List.ext_getElem?
  intro j
  rw [List.getElem?_append, window_getElem?, window_getElem?, List.getElem?_append,
    List.getElem?_append, List.getElem?_take]
  by_cases hj : (j : Int) < c + n
  · have hk1 := hget (f.toNat + j)
    have hk2 := hget (f.toNat + j - d'.length)
    split_ifs at hr <;> split_ifs <;> first
      | omega
      | (rw [hk1 (by omega)]; split_ifs <;> first | omega | rfl | (congr 1; omega))
      | (rw [hk2 (by omega)]; split_ifs <;> first | omega | rfl | (congr 1; omega))
  · split_ifs <;> first
      | omega
      | rfl

theorem read_straight {d b b' : List Byte} {cap f n : Int}
    (hd : (d.length : Int) = cap) (hlt : f + n < cap)
    (h : memcpy b 0 d f n = some b') : b'.take n.toNat = window d f n := by
  obtain ⟨_, _, _, _, _, hlen, hget⟩ := memcpy_some h
  apply List.ext_getElem?
  intro j
  rw [window_getElem?, List.getElem?_take, List.getElem?_append, hget j]
  split_ifs <;> first
    | omega
    | rfl
    | (congr 1; omega)

theorem read_wrapped {d b b1 b' : List Byte} {cap f n : Int}
    (hd : (d.length : Int) = cap)
    (h1 : memcpy b 0 d f (cap - f) = some b1)
    (h2 : memcpy b1 (cap - f) d 0 (n - (cap - f)) = some b') :
    b'.take n.toNat = window d f n := by
  obtain ⟨_, _, _, _, _, hlen1, hget1⟩ := memcpy_some h1
  obtain ⟨_, _, _, _, _, hlen2, hget2⟩ := memcpy_some h2
  apply List.ext_getElem?
  intro j
  rw [window_getElem?, List.getElem?_take, List.getElem?_append, hget2 j, hget1 j]
  split_ifs <;> first
    | omega
    | rfl
    | (congr 1; omega)

theorem window_split {d : List Byte} {cap f c n f' : Int}
    (hd : (d.length : Int) = cap) (hf0 : 0 ≤ f) (hf : f < cap) (hc : c ≤ cap)
    (hn0 : 0 ≤ n) (hn : n ≤ c)
    (hf' : f' = if f + n < cap then f + n else f + n - cap) :
    window d f c = window d f n ++ window d f' (c - n) := by
  have hwl := window_length hd hf (show n ≤ cap by omega)
  apply List.ext_getElem?
  intro j
  rw [List.getElem?_append, window_getElem?, window_getElem?, window_getElem?,
    List.getElem?_append, List.getElem?_append]
  split_ifs at hf' <;> split_ifs <;> first
    | omega
    | rfl
    | (congr 1; omega)

theorem forChannels_get {α : Type} {body : Nat → Option α} {n : Nat} {l : List α}
    (h : forChannels body n = some l) {i : Nat} (hi : i < n) :
    ∃ x, body i = some x ∧ l[i]? = some x := by
  obtain ⟨hlen, hget⟩ := forChannels_some h
  have hil : i < l.length := by omega
  exact ⟨l[i], by rw [← hget i hi, List.getElem?_eq_getElem hil], List.getElem?_eq_getElem hil⟩

namespace AudioCircularBuffer

theorem Inv.rear_cases {s : AudioCircularBuffer} (h : Inv s) :
    s.rear = if s.front + s.byteCounter < s.channelMaxLength then s.front + s.byteCounter
      else s.front + s.byteCounter - s.channelMaxLength := by
  have h1 := h.cap_pos; have h2 := h.front_lo; have h3 := h.front_hi
  have h4 := h.count_lo; have h5 := h.count_hi
  rw [h.rear_eq]
  split_ifs with hlt
  · exact cMod_of_lt (by omega) hlt
  · exact cMod_of_wrap (by omega) h1 (by omega)

/-- What a `pushBack` call that returned `true` did, block by block. -/
theorem pushBack_true_blocks {s s' : AudioCircularBuffer} {buffer : List (List Byte)} {n : Int}
    (hinv : Inv s) (h : pushBack s buffer n = some (true, s')) :
    s'.front = s.front ∧ s'.channels = s.channels ∧ s'.bytesPerSample = s.bytesPerSample ∧
    s'.channelMaxLength = s.channelMaxLength ∧
    s'.byteCounter = s.byteCounter + n * s.bytesPerSample ∧
    s'.rear = cMod (s.rear + n * s.bytesPerSample) s.channelMaxLength ∧
    n * s.bytesPerSample ≤ s.channelMaxLength - s.byteCounter ∧
    s'.data.length = s.data.length ∧
    ∀ k : Nat, (k : Int) < s.channels → ∃ d b d', s.data[k]? = some d ∧ buffer[k]? = some b ∧
      s'.data[k]? = some d' ∧ 0 ≤ n * s.bytesPerSample ∧
      WrittenFrom d d' b s.channelMaxLength s.rear (n * s.bytesPerSample) := by
  have hrear := hinv.rear_cases
  obtain ⟨h1, h2, h3, h4, h5, h6, h7, h8⟩ := hinv
  unfold pushBack at h
  simp only at h
  split at h
  · cases h
  · rename_i hfit
    split at h
    · rename_i hstraight
      split at h
      · cases h
      · rename_i data' hdata
        split at h
        · cases h
        have hlen := (forChannels_some hdata).1
        injection h with h
        injection h with _ h
        subst h
        refine ⟨rfl, rfl, rfl, rfl, rfl, rfl, by omega, ?_, ?_⟩
        · simp only [List.length_append, List.length_drop]; omega
        · intro k hk
          obtain ⟨d', hbody, hd'⟩ := forChannels_get hdata (show k < s.channels.toNat by omega)
          split at hbody
          swap
          · cases hbody
          rename_i d b hd hb
          have hcp := hbody
          refine ⟨d, b, d', hd, hb, ?_, (memcpy_some hcp).1, ?_⟩
          · simp only
            rw [List.getElem?_append_left (by omega)]
            exact hd'
          · exact writtenFrom_straight hstraight hcp
    · rename_i hwrap
      split at h
      · cases h
      · rename_i data' hdata
        split at h
        · cases h
        have hlen := (forChannels_some hdata).1
        injection h with h
        injection h with _ h
        subst h
        refine ⟨rfl, rfl, rfl, rfl, rfl, rfl, by omega, ?_, ?_⟩
        · simp only [List.length_append, List.length_drop]; omega
        · intro k hk
          obtain ⟨d', hbody, hd'⟩ := forChannels_get hdata (show k < s.channels.toNat by omega)
          split at hbody
          swap
          · cases hbody
          rename_i d b hd hb
          split at hbody
          swap
          · cases hbody
          rename_i d1 hcp1
          have hcp2 := hbody
          have hc1 := memcpy_some hcp1
          have hc2 := memcpy_some hcp2
          refine ⟨d, b, d', hd, hb, ?_, by omega, ?_⟩
          · simp only
            rw [List.getElem?_append_left (by omega)]
            exact hd'
          · exact writtenFrom_wrapped (h3 k d hd) (by omega)
              hcp1 hcp2

/-- What a `popFront` call that returned `true` did, block by block. -/
theorem popFront_true_blocks {s s' : AudioCircularBuffer} {buffer buffer' : List (List Byte)}
    {n : Int} (hinv : Inv s) (h : popFront s buffer n = some (true, s', buffer')) :
    s'.rear = s.rear ∧ s'.channels = s.channels ∧ s'.bytesPerSample = s.bytesPerSample ∧
    s'.channelMaxLength = s.channelMaxLength ∧ s'.data = s.data ∧
    s'.byteCounter = s.byteCounter - n * s.bytesPerSample ∧
    s'.front = cMod (s.front + n * s.bytesPerSample) s.channelMaxLength ∧
    n * s.bytesPerSample ≤ s.byteCounter ∧
    ∀ k : Nat, (k : Int) < s.channels → ∃ d b', s.data[k]? = some d ∧
      buffer'[k]? = some b' ∧ 0 ≤ n * s.bytesPerSample ∧
      b'.take (n * s.bytesPerSample).toNat = window d s.front (n * s.bytesPerSample) := by
  obtain ⟨h1, h2, h3, h4, h5, h6, h7, h8⟩ := hinv
  unfold popFront at h
  simp only at h
  split at h
  · cases h
  · rename_i hfit
    split at h
    · rename_i hstraight
      split at h
      · cases h
      · rename_i out hout
        split at h
        · cases h
        have hlen := (forChannels_some hout).1
        injection h with h
        injection h with _ h
        injection h with h hb
        subst h hb
        refine ⟨rfl, rfl, rfl, rfl, rfl, rfl, rfl, by omega, ?_⟩
        intro k hk
        obtain ⟨b', hbody, hb'⟩ := forChannels_get hout (show k < s.channels.toNat by omega)
        split at hbody
        swap
        · cases hbody
        rename_i b d hb hd
        refine ⟨d, b', hd, ?_, (memcpy_some hbody).1, ?_⟩
        · rw [List.getElem?_append_left (by omega)]
          exact hb'
        · exact read_straight (h3 k d hd) hstraight hbody
    · rename_i hwrap
      split at h
      · cases h
      · rename_i out hout
        split at h
        · cases h
        have hlen := (forChannels_some hout).1
        injection h with h
        injection h with _ h
        injection h with h hb
        subst h hb
        refine ⟨rfl, rfl, rfl, rfl, rfl, rfl, rfl, by omega, ?_⟩
        intro k hk
        obtain ⟨b', hbody, hb'⟩ := forChannels_get hout (show k < s.channels.toNat by omega)
        split at hbody
        swap
        · cases hbody
        rename_i b d hb hd
        split at hbody
        swap
        · cases hbody
        rename_i b1 hcp1
        have hc1 := memcpy_some hcp1
        have hc2 := memcpy_some hbody
        refine ⟨d, b', hd, ?_, by omega, ?_⟩
        · rw [List.getElem?_append_left (by omega)]
          exact hb'
        · exact read_wrapped (h3 k d hd) hcp1 hbody

/-- A `pushBack` call that returned `true` keeps the invariant and appends the bytes it was
given to the buffered bytes of every channel. -/
theorem pushBack_true {s s' : AudioCircularBuffer} {buffer : List (List Byte)} {n : Int}
    (hinv : Inv s) {i : Nat} (hi : (i : Int) < s.channels)
    (h : pushBack s buffer n = some (true, s')) :
    Inv s' ∧ contents s' i =
      contents s i ++ (buffer.getD i []).take (n * s.bytesPerSample).toNat := by
  obtain ⟨e1, e2, e3, e4, e5, e6, hle, hlen, hblocks⟩ := pushBack_true_blocks hinv h
  have hrear := hinv.rear_cases
  obtain ⟨d, b, d', hd, hb, hd', hn0, hw⟩ := hblocks i hi
  have h1 := hinv.cap_pos; have h2 := hinv.front_lo; have h3 := hinv.front_hi
  have h4 := hinv.count_lo; have h5 := hinv.count_hi
  constructor
  · refine ⟨by rw [e4]; exact h1, by rw [hlen, e2]; exact hinv.data_len, ?_, by rw [e1]; exact h2,
      by rw [e1, e4]; exact h3, by rw [e5]; omega, by rw [e5, e4]; omega, ?_⟩
    · intro k dk hk
      have hklt : k < s'.data.length := by
        rcases Nat.lt_or_ge k s'.data.length with hlt | hge
        · exact hlt
        · rw [List.getElem?_eq_none hge] at hk; cases hk
      have hdl := hinv.data_len
      obtain ⟨dd, bb, dd', hdd, _, hdd', _, hww⟩ := hblocks k (by omega)
      rw [hk] at hdd'
      injection hdd' with hdd'
      subst hdd'
      rw [e4, ← hinv.block_len k dd hdd, hww.1]
    · rw [e6, e1, e5, e4]
      split_ifs at hrear with hc
      · by_cases hc2 : s.front + (s.byteCounter + n * s.bytesPerSample) < s.channelMaxLength
        · rw [cMod_of_lt (by omega) (by omega), cMod_of_lt (by omega) (by omega)]; omega
        · rw [cMod_of_wrap (by omega) h1 (by omega), cMod_of_wrap (by omega) h1 (by omega)]; omega
      · rw [cMod_of_lt (by omega) (by omega), cMod_of_wrap (by omega) h1 (by omega)]; omega
  · unfold contents
    rw [List.getD_eq_getElem?_getD, List.getD_eq_getElem?_getD, List.getD_eq_getElem?_getD,
      hd, hd', hb, e1, e5]
    simp only [Option.getD_some]
    exact window_written (hinv.block_len i d hd) h2 h3 h4 hrear hn0 hle hw

/-- A `popFront` call that returned `true` keeps the invariant and hands out the oldest
buffered bytes of every channel, which leave the buffer. -/
theorem popFront_true {s s' : AudioCircularBuffer} {buffer buffer' : List (List Byte)} {n : Int}
    (hinv : Inv s) {i : Nat} (hi : (i : Int) < s.channels)
    (h : popFront s buffer n = some (true, s', buffer')) :
    Inv s' ∧ contents s i =
      (buffer'.getD i []).take (n * s.bytesPerSample).toNat ++ contents s' i := by
  obtain ⟨e1, e2, e3, e4, e5, e6, e7, hle, hblocks⟩ := popFront_true_blocks hinv h
  have hrear := hinv.rear_cases
  obtain ⟨d, b', hd, hb', hn0, hrd⟩ := hblocks i hi
  have h1 := hinv.cap_pos; have h2 := hinv.front_lo; have h3 := hinv.front_hi
  have h4 := hinv.count_lo; have h5 := hinv.count_hi
  have hfront : s'.front = if s.front + n * s.bytesPerSample < s.channelMaxLength
      then s.front + n * s.bytesPerSample
      else s.front + n * s.bytesPerSample - s.channelMaxLength := by
    rw [e7]
    split_ifs with hc
    · exact cMod_of_lt (by omega) hc
    · exact cMod_of_wrap (by omega) h1 (by omega)
  constructor
  · refine ⟨by rw [e4]; exact h1, by rw [e5, e2]; exact hinv.data_len, ?_,
      by rw [hfront]; split_ifs <;> omega, by rw [hfront, e4]; split_ifs <;> omega,
      by rw [e6]; omega, by rw [e6, e4]; omega, ?_⟩
    · rw [e5, e4]; exact hinv.block_len
    · rw [e1, e6, e4, hfront]
      split_ifs at hrear with hc <;> split_ifs with hc2
      · rw [cMod_of_lt (by omega) (by omega)]; omega
      · omega
      · rw [cMod_of_wrap (by omega) h1 (by omega)]; omega
      · rw [cMod_of_lt (by omega) (by omega)]; omega
  · unfold contents
    rw [List.getD_eq_getElem?_getD, List.getD_eq_getElem?_getD, List.getD_eq_getElem?_getD,
      e5, hd, hb', e6]
    simp only [Option.getD_some]
    rw [hrd]
    exact window_split (hinv.block_len i d hd) h2 h3 h5 hn0 hle hfront

theorem mk0_inv (chNumber chMaxSamples bytesPerSmpl : Nat)
    (hcap : 1 ≤ (mk0 chNumber chMaxSamples bytesPerSmpl).channelMaxLength) :
    Inv (mk0 chNumber chMaxSamples bytesPerSmpl) := by
  simp only [mk0] at hcap ⊢
  generalize toInt32 (((chMaxSamples * bytesPerSmpl) % 2 ^ 32 : Nat) : Int) = cap at hcap ⊢
  refine ⟨?_, ?_, ?_, ?_, ?_, ?_, ?_, ?_⟩
  · show 0 < cap
    omega
  · simp
  · intro k d hk
    simp only at hk
    have hmem := List.getElem?_mem hk
    rw [List.eq_of_mem_replicate hmem, List.length_replicate]
    show ((cap.toNat : Nat) : Int) = cap
    omega
  · show (0 : Int) ≤ 0
    exact le_refl 0
  · show (0 : Int) < cap
    omega
  · show (0 : Int) ≤ 0
    exact le_refl 0
  · show (0 : Int) ≤ cap
    omega
  · show (0 : Int) = cMod (0 + 0) cap
    rw [cMod_of_lt (by omega) (by omega)]; rfl

theorem pushBack_false {s s' : AudioCircularBuffer} {buffer : List (List Byte)} {n : Int}
    (h : pushBack s buffer n = some (false, s')) : s' = s := by
  unfold pushBack at h
  simp only at h
  split at h
  · injection h with h
    injection h with _ h
    exact h.symm
  · split at h <;> split at h <;> first
      | cases h
      | (split at h <;> cases h)

theorem popFront_false {s s' : AudioCircularBuffer} {buffer buffer' : List (List Byte)} {n : Int}
    (h : popFront s buffer n = some (false, s', buffer')) : s' = s ∧ buffer' = buffer := by
  unfold popFront at h
  simp only at h
  split at h
  · injection h with h
    injection h with _ h
    injection h with h1 h2
    exact ⟨h1.symm, h2.symm⟩
  · split at h <;> split at h <;> first
      | cases h
      | (split at h <;> cases h)

theorem runCalls_stream (i : Nat) :
    ∀ (cs : List Call) (s sf : AudioCircularBuffer) (pushed popped : List Byte),
      Inv s → (i : Int) < s.channels → runCalls i s cs = some (sf, pushed, popped) →
      contents s i ++ pushed = popped ++ contents sf i := by
  intro cs
  induction cs with
  | nil =>
    intro s sf pushed popped _ _ h
    simp only [runCalls] at h
    injection h with h
    injection h with h1 h
    injection h with h2 h3
    subst h1 h2 h3
    simp
  | cons c cs ih =>
    intro s sf pushed popped hinv hi h
    cases c with
    | pushBack buffer n =>
      simp only [runCalls] at h
      split at h
      · cases h
      · rename_i ok s' hcall
        split at h
        · cases h
        · rename_i sf' pushed' popped' hrest
          injection h with h
          injection h with h1 h
          injection h with h2 h3
          subst h1 h2 h3
          cases ok with
          | true =>
            obtain ⟨hinv', hc⟩ := pushBack_true hinv hi hcall
            have hch : s'.channels = s.channels := (pushBack_true_blocks hinv hcall).2.1
            have := ih s' sf' pushed' popped' hinv' (by rw [hch]; exact hi) hrest
            simp only [if_true]
            rw [← List.append_assoc, ← hc, this]
          | false =>
            have hs := pushBack_false hcall
            subst hs
            simpa using ih s' sf' pushed' popped' hinv hi hrest
    | popFront buffer n =>
      simp only [runCalls] at h
      split at h
      · cases h
      · rename_i ok s' buffer' hcall
        split at h
        · cases h
        · rename_i sf' pushed' popped' hrest
          injection h with h
          injection h with h1 h
          injection h with h2 h3
          subst h1 h2 h3
          cases ok with
          | true =>
            obtain ⟨hinv', hc⟩ := popFront_true hinv hi hcall
            have hch : s'.channels = s.channels := (popFront_true_blocks hinv hcall).2.1
            have := ih s' sf' pushed' popped' hinv' (by rw [hch]; exact hi) hrest
            simp only [if_true]
            rw [hc, List.append_assoc, this, List.append_assoc]
          | false =>
            obtain ⟨hs, _⟩ := popFront_false hcall
            subst hs
            simpa using ih s' sf' pushed' popped' hinv hi hrest

theorem pushBack_fits {s : AudioCircularBuffer} {buffer : List (List Byte)} {n : Int}
    (hinv : Inv s) (hn0 : 0 ≤ n * s.bytesPerSample)
    (hbuf : ∀ k : Nat, (k : Int) < s.channels →
      ∃ b, buffer[k]? = some b ∧ n * s.bytesPerSample ≤ b.length)
    (hfit : n * s.bytesPerSample ≤ s.channelMaxLength - s.byteCounter) :
    ∃ s', pushBack s buffer n = some (true, s') := by
  have hrear := hinv.rear_cases
  obtain ⟨h1, h2, h3, h4, h5, h6, h7, h8⟩ := hinv
  have hdata : ∀ k : Nat, (k : Int) < s.channels → ∃ d, s.data[k]? = some d ∧
      (d.length : Int) = s.channelMaxLength := by
    intro k hk
    have hkl : k < s.data.length := by omega
    exact ⟨s.data[k], List.getElem?_eq_getElem hkl, h3 k _ (List.getElem?_eq_getElem hkl)⟩
  unfold pushBack
  simp only
  rw [if_neg (by omega)]
  by_cases hstraight : s.rear + n * s.bytesPerSample < s.channelMaxLength
  · rw [if_pos hstraight]
    have hall : ∃ l, forChannels (fun i =>
        match s.data[i]?, buffer[i]? with
        | some d, some b => memcpy d s.rear b 0 (n * s.bytesPerSample)
        | _, _ => none) s.channels.toNat = some l := by
      apply forChannels_isSome
      intro k hk
      obtain ⟨d, hd, hdl⟩ := hdata k (by omega)
      obtain ⟨b, hb, hbl⟩ := hbuf k (by omega)
      simp only [hd, hb]
      exact memcpy_isSome ⟨hn0, by split_ifs at hrear <;> omega, by omega, le_refl 0, by omega⟩
    obtain ⟨l, hl⟩ := hall
    rw [hl]
    simp only
    rw [if_neg (by omega)]
    exact ⟨_, rfl⟩
  · rw [if_neg hstraight]
    have hall : ∃ l, forChannels (fun i =>
        match s.data[i]?, buffer[i]? with
        | some d, some b =>
          match memcpy d s.rear b 0 (s.channelMaxLength - s.rear) with
          | some d1 => memcpy d1 0 b (s.channelMaxLength - s.rear)
              (n * s.bytesPerSample - (s.channelMaxLength - s.rear))
          | none => none
        | _, _ => none) s.channels.toNat = some l := by
      apply forChannels_isSome
      intro k hk
      obtain ⟨d, hd, hdl⟩ := hdata k (by omega)
      obtain ⟨b, hb, hbl⟩ := hbuf k (by omega)
      simp only [hd, hb]
      have hr0 : 0 ≤ s.rear ∧ s.rear < s.channelMaxLength := by split_ifs at hrear <;> omega
      have hfirst : ∃ d1, memcpy d s.rear b 0 (s.channelMaxLength - s.rear) = some d1 :=
        memcpy_isSome ⟨by omega, by omega, by omega, le_refl 0, by omega⟩
      obtain ⟨d1, hd1⟩ := hfirst
      rw [hd1]
      have hl1 := (memcpy_some hd1).2.2.2.2.2.1
      exact memcpy_isSome ⟨by omega, le_refl 0, by omega, by omega, by omega⟩
    obtain ⟨l, hl⟩ := hall
    rw [hl]
    simp only
    rw [if_neg (by omega)]
    exact ⟨_, rfl⟩

end AudioCircularBuffer

/-! ## AudioCircularBuffer: first in, first out -/

namespace AudioCircularBuffer

/-- C1. FIFO round trip of the ring buffer. Take a freshly constructed buffer of capacity
`channelMaxLength ≥ 1` with any number of channels, any sequence of `pushBack` and `popFront`
calls (calls that return `false` may occur and contribute nothing) and any channel `i`.
Then the bytes that the successful `popFront` calls wrote to the output block of channel `i`
are, in order, exactly the first bytes that the successful `pushBack` calls were given for
channel `i`; the pushed bytes not yet popped are the bytes the buffer still holds for that
channel. Wraparounds of `front` and `rear` are covered: nothing bounds the number of calls. -/
theorem fifo_round_trip (chNumber chMaxSamples bytesPerSmpl : Nat) (i : Nat) (calls : List Call)
    (sf : AudioCircularBuffer) (pushed popped : List Byte)
    (hcap : 1 ≤ (mk0 chNumber chMaxSamples bytesPerSmpl).channelMaxLength)
    (hi : i < chNumber)
    (hrun : runCalls i (mk0 chNumber chMaxSamples bytesPerSmpl) calls = some (sf, pushed, popped)) :
    popped <+: pushed ∧ pushed = popped ++ contents sf i := by
  have hinv := mk0_inv chNumber chMaxSamples bytesPerSmpl hcap
  have hch : (i : Int) < (mk0 chNumber chMaxSamples bytesPerSmpl).channels := by
    simp only [mk0]; omega
  have h := runCalls_stream i calls _ sf pushed popped hinv hch hrun
  have hempty : contents (mk0 chNumber chMaxSamples bytesPerSmpl) i = [] := by
    simp [contents, window, mk0]
  rw [hempty, List.nil_append] at h
  exact ⟨⟨contents sf i, h.symm⟩, h⟩

/-- A run on a two-channel buffer of four bytes per channel with a failed `popFront`, a
failed `pushBack` and two wraparounds, observed on channel 1. -/
theorem fifo_round_trip_witness :
    ([5, 6, 15, 16, 17, 18, 25, 26] : List Byte) <+: [5, 6, 15, 16, 17, 18, 25, 26] ∧
    ([5, 6, 15, 16, 17, 18, 25, 26] : List Byte) = [5, 6, 15, 16, 17, 18, 25, 26] ++
      contents ⟨0, 0, 0, 2, 2, 2, 4, [[13, 14, 21, 22], [17, 18, 25, 26]]⟩ 1 :=
  fifo_round_trip 2 2 2 1
    [Call.pushBack [[1, 2, 3, 4], [5, 6, 7, 8]] 1, Call.popFront [[0, 0], [0, 0]] 1,
     Call.popFront [[0, 0], [0, 0]] 1,
     Call.pushBack [[11, 12, 13, 14], [15, 16, 17, 18]] 2, Call.popFront [[0, 0], [0, 0]] 1,
     Call.pushBack [[21, 22, 23, 24], [25, 26, 27, 28]] 2,
     Call.pushBack [[21, 22, 23, 24], [25, 26, 27, 28]] 1,
     Call.popFront [[0, 0, 0, 0], [0, 0, 0, 0]] 2]
    ⟨0, 0, 0, 2, 2, 2, 4, [[13, 14, 21, 22], [17, 18, 25, 26]]⟩
    [5, 6, 15, 16, 17, 18, 25, 26] [5, 6, 15, 16, 17, 18, 25, 26]
    (by decide) (by decide) (by decide)

/-- C2, as the code has it. `pushBack` returns `false` exactly when `bytesRequested =
samplesRequested * bytesPerSample` (the product of the two integers) is strictly greater than
`channelMaxLength - byteCounter`, for every state, so every capacity, and every request. A
request of at most the free space (so also one of exactly the free space) returns `true` on
a buffer of capacity `channelMaxLength >= 1`, provided the call is defined: the buffer is in
a consistent state, the request is not negative and the caller supplies, for every channel,
a block of at least `bytesRequested` bytes. -/
theorem pushBack_false_iff (s : AudioCircularBuffer) (buffer : List (List Byte)) (n : Int) :
    ((∃ s', pushBack s buffer n = some (false, s')) ↔
      n * s.bytesPerSample > s.channelMaxLength - s.byteCounter) ∧
    (Inv s → 0 ≤ n * s.bytesPerSample →
      (∀ k : Nat, (k : Int) < s.channels →
        ∃ b, buffer[k]? = some b ∧ n * s.bytesPerSample ≤ b.length) →
      n * s.bytesPerSample ≤ s.channelMaxLength - s.byteCounter →
      ∃ s', pushBack s buffer n = some (true, s')) := by
  refine ⟨⟨?_, ?_⟩, fun hinv hn0 hbuf hfit => pushBack_fits hinv hn0 hbuf hfit⟩
  · rintro ⟨s', h⟩
    unfold pushBack at h
    simp only at h
    split at h
    · assumption
    · split at h <;> split at h <;> first
        | cases h
        | (split at h <;> cases h)
  · intro h
    refine ⟨s, ?_⟩
    unfold pushBack
    simp only
    rw [if_pos h]

/-- A buffer of four bytes per channel that holds two: a request of three bytes is refused,
a request of exactly the two free bytes is accepted. -/
theorem pushBack_false_iff_witness :
    (∃ s', pushBack ⟨2, 1, 3, 1, 4, 1, 4, [[0, 7, 8, 0]]⟩ [[1, 2, 3]] 3 = some (false, s')) ∧
    (∃ s', pushBack ⟨2, 1, 3, 1, 4, 1, 4, [[0, 7, 8, 0]]⟩ [[1, 2, 3]] 2 = some (true, s')) :=
  ⟨(pushBack_false_iff ⟨2, 1, 3, 1, 4, 1, 4, [[0, 7, 8, 0]]⟩ [[1, 2, 3]] 3).1.2 (by decide),
   (pushBack_false_iff ⟨2, 1, 3, 1, 4, 1, 4, [[0, 7, 8, 0]]⟩ [[1, 2, 3]] 2).2
      ⟨by decide, by decide, by
          intro k d hk
          match k, hk with
          | 0, hk => simp at hk; subst hk; decide,
        by decide, by decide, by decide, by decide, by decide⟩
      (by decide)
      (by
        intro k hk
        have hk0 : k = 0 := by simp at hk; omega
        subst hk0
        exact ⟨[1, 2, 3], rfl, by decide⟩)
      (by decide)⟩

/-- C2 fails as stated. A buffer constructed with capacity 0 is full and empty at once: a
request of 0 bytes equals the free space exactly, is not refused, and then runs into
`% channelMaxLength` with a zero divisor instead of returning `true`. -/
theorem pushBack_false_iff_counterexample :
    (mk0 1 0 1).channelMaxLength = 0 ∧
    0 * (mk0 1 0 1).bytesPerSample =
      (mk0 1 0 1).channelMaxLength - (mk0 1 0 1).byteCounter ∧
    pushBack (mk0 1 0 1) [[]] 0 = none := by
  decide

/-- C3. Failure is atomic. A `pushBack` call that returns `false` leaves the buffer (`front`,
`rear`, `byteCounter` and every channel's stored bytes) as it was; a `popFront` call that
returns `false` leaves the buffer and the caller's output blocks as they were. `pushBack`
returns `false` whenever the request exceeds the free space, `popFront` whenever it exceeds
`byteCounter`. -/
theorem failure_atomic (s : AudioCircularBuffer) (buffer : List (List Byte)) (n : Int) :
    (∀ s', pushBack s buffer n = some (false, s') → s' = s) ∧
    (∀ s' buffer', popFront s buffer n = some (false, s', buffer') → s' = s ∧ buffer' = buffer) ∧
    (n * s.bytesPerSample > s.channelMaxLength - s.byteCounter →
      pushBack s buffer n = some (false, s)) ∧
    (n * s.bytesPerSample > s.byteCounter → popFront s buffer n = some (false, s, buffer)) := by
  refine ⟨fun s' h => pushBack_false h, fun s' buffer' h => popFront_false h, ?_, ?_⟩
  · intro h
    unfold pushBack
    simp only
    rw [if_pos h]
  · intro h
    unfold popFront
    simp only
    rw [if_pos h]

/-- A buffer of four bytes per channel that holds two: `pushBack` of three bytes and
`popFront` of three bytes both fail and change nothing. -/
theorem failure_atomic_witness :
    pushBack ⟨2, 1, 3, 1, 4, 1, 4, [[0, 7, 8, 0]]⟩ [[1, 2, 3]] 3 =
      some (false, ⟨2, 1, 3, 1, 4, 1, 4, [[0, 7, 8, 0]]⟩) ∧
    popFront ⟨2, 1, 3, 1, 4, 1, 4, [[0, 7, 8, 0]]⟩ [[1, 2, 3]] 3 =
      some (false, ⟨2, 1, 3, 1, 4, 1, 4, [[0, 7, 8, 0]]⟩, [[1, 2, 3]]) :=
  ⟨(failure_atomic ⟨2, 1, 3, 1, 4, 1, 4, [[0, 7, 8, 0]]⟩ [[1, 2, 3]] 3).2.2.1 (by decide),
   (failure_atomic ⟨2, 1, 3, 1, 4, 1, 4, [[0, 7, 8, 0]]⟩ [[1, 2, 3]] 3).2.2.2 (by decide)⟩

end AudioCircularBuffer

/-! ## FrameQueue: facts about the embedding -/

theorem cMod_nonneg {a b : Int} (ha : 0 ≤ a) : 0 ≤ cMod a b :=
  Int.tmod_nonneg b ha

theorem cMod_lt {a b : Int} (hb : 0 < b) : cMod a b < b :=
  Int.tmod_lt_of_pos a hb

namespace FrameQueue

theorem slots_getElem? (q : FrameQueue) (j : Nat) :
    (slots q)[j]? = if j < q.elements.toNat
      then some (if q.front + j < q.max then q.front + j else q.front + j - q.max)
      else none := by
  unfold slots
  rw [List.getElem?_map]
  by_cases hj : j < q.elements.toNat
  · rw [if_pos hj, List.getElem?_range hj]
    rfl
  · rw [if_neg hj, List.getElem?_eq_none (by simp; omega)]
    rfl

theorem slots_length (q : FrameQueue) : (slots q).length = q.elements.toNat := by
  simp [slots]

theorem addFrame_inv {q : FrameQueue} (h : Inv q) (hroom : q.elements < q.max) :
    Inv (addFrame q) := by
  obtain ⟨h1, h2, h3, h4, h5, h6⟩ := h
  refine ⟨h1, h2, h3, by simp only [addFrame]; omega, by simp only [addFrame]; omega, ?_⟩
  simp only [addFrame]
  rw [h6]
  split_ifs <;> first
    | omega
    | (rw [cMod_of_lt (by omega) (by omega)]; omega)
    | (rw [cMod_of_wrap (by omega) (by omega) (by omega)]; omega)

theorem removeFrame_inv {q : FrameQueue} (h : Inv q) (hsome : 0 < q.elements) :
    Inv (removeFrame q) := by
  obtain ⟨h1, h2, h3, h4, h5, h6⟩ := h
  have hf : cMod (q.front + 1) q.max =
      if q.front + 1 < q.max then q.front + 1 else q.front + 1 - q.max := by
    split_ifs
    · exact cMod_of_lt (by omega) (by omega)
    · exact cMod_of_wrap (by omega) (by omega) (by omega)
  refine ⟨h1, ?_, ?_, by simp only [removeFrame]; omega, by simp only [removeFrame]; omega, ?_⟩
  · simp only [removeFrame]; rw [hf]; split_ifs <;> omega
  · simp only [removeFrame]; rw [hf]; split_ifs <;> omega
  · simp only [removeFrame]
    rw [h6, hf]
    split_ifs <;> omega

theorem slots_addFrame {q : FrameQueue} (h : Inv q) (hroom : q.elements < q.max) :
    slots (addFrame q) = slots q ++ [q.rear] := by
  obtain ⟨h1, h2, h3, h4, h5, h6⟩ := h
  apply List.ext_getElem?
  intro j
  rw [List.getElem?_append, slots_length, slots_getElem?, slots_getElem?]
  simp only [addFrame]
  by_cases hj : j < q.elements.toNat
  · rw [if_pos (by omega), if_pos hj, if_pos hj]
  · rw [if_neg hj]
    by_cases hj2 : j = q.elements.toNat
    · rw [if_pos (by omega), hj2, Nat.sub_self, h6]
      simp only [List.getElem?_cons_zero]
      congr 1
      split_ifs <;> omega
    · rw [if_neg (by omega)]
      rw [List.getElem?_eq_none (by simp; omega)]

theorem slots_removeFrame {q : FrameQueue} (h : Inv q) (hsome : 0 < q.elements) :
    slots q = q.front :: slots (removeFrame q) := by
  obtain ⟨h1, h2, h3, h4, h5, _⟩ := h
  have hf : (q.front + 1 < q.max ∧ cMod (q.front + 1) q.max = q.front + 1) ∨
      (¬ q.front + 1 < q.max ∧ cMod (q.front + 1) q.max = q.front + 1 - q.max) := by
    by_cases hw : q.front + 1 < q.max
    · exact Or.inl ⟨hw, cMod_of_lt (by omega) (by omega)⟩
    · exact Or.inr ⟨hw, cMod_of_wrap (by omega) (by omega) (by omega)⟩
  apply List.ext_getElem?
  intro j
  cases j with
  | zero =>
    rw [slots_getElem?, if_pos (by omega)]
    simp only [List.getElem?_cons_zero]
    congr 1
    split_ifs <;> omega
  | succ j =>
    rw [List.getElem?_cons_succ, slots_getElem?, slots_getElem?]
    simp only [removeFrame]
    by_cases hj : j + 1 < q.elements.toNat
    · rw [if_pos hj, if_pos (show j < (q.elements - 1).toNat by omega)]
      congr 1
      push_cast
      rcases hf with ⟨_, hf⟩ | ⟨_, hf⟩ <;> rw [hf] <;> split_ifs <;> omega
    · rw [if_neg hj, if_neg (show ¬ j < (q.elements - 1).toNat by omega)]

theorem frameToRead_fields (ticksPerMs now : Int) (updatedTime : Int → Int) (q : FrameQueue) :
    (frameToRead ticksPerMs now updatedTime q).2.front = q.front ∧
    (frameToRead ticksPerMs now updatedTime q).2.rear = q.rear ∧
    (frameToRead ticksPerMs now updatedTime q).2.elements = q.elements ∧
    (frameToRead ticksPerMs now updatedTime q).2.max = q.max ∧
    (frameToRead ticksPerMs now updatedTime q).2.delay = q.delay := by
  unfold frameToRead
  split_ifs <;> exact ⟨rfl, rfl, rfl, rfl, rfl⟩

theorem frameToRead_true_iff (ticksPerMs now : Int) (updatedTime : Int → Int) (q : FrameQueue) :
    (frameToRead ticksPerMs now updatedTime q).1 = true ↔
      0 < q.elements ∧ q.delay < Int.tdiv (now - updatedTime q.front) ticksPerMs := by
  unfold frameToRead
  split_ifs with he
  · simp only [Bool.false_eq_true, false_iff, not_and]
    intro h; omega
  · simp only [gt_iff_lt, decide_eq_true_eq]
    constructor
    · intro h; exact ⟨by omega, h⟩
    · intro h; exact h.2

theorem getFront_fields (ticksPerMs now : Int) (updatedTime : Int → Int) (q : FrameQueue) :
    (getFront ticksPerMs now updatedTime q).2.front = q.front ∧
    (getFront ticksPerMs now updatedTime q).2.rear = q.rear ∧
    (getFront ticksPerMs now updatedTime q).2.elements = q.elements ∧
    (getFront ticksPerMs now updatedTime q).2.max = q.max ∧
    (getFront ticksPerMs now updatedTime q).2.delay = q.delay := by
  unfold getFront
  simp only
  split_ifs <;> exact frameToRead_fields ticksPerMs now updatedTime q

theorem getFront_eq (ticksPerMs now : Int) (updatedTime : Int → Int) (q : FrameQueue) :
    (getFront ticksPerMs now updatedTime q).1 =
      if 0 < q.elements ∧ q.delay < Int.tdiv (now - updatedTime q.front) ticksPerMs
      then some q.front else none := by
  have hiff := frameToRead_true_iff ticksPerMs now updatedTime q
  have hfld := (frameToRead_fields ticksPerMs now updatedTime q).1
  unfold getFront
  simp only
  by_cases hr : (frameToRead ticksPerMs now updatedTime q).1 = true
  · rw [if_pos hr, if_pos (hiff.1 hr), hfld]
  · rw [if_neg hr, if_neg (fun h => hr (hiff.2 h))]

theorem getFront_some {ticksPerMs now : Int} {updatedTime : Int → Int} {q : FrameQueue}
    {slot : Int} (h : (getFront ticksPerMs now updatedTime q).1 = some slot) :
    slot = q.front ∧ 0 < q.elements := by
  rw [getFront_eq] at h
  split_ifs at h with hc
  · injection h with h
    exact ⟨h.symm, hc.1⟩

theorem inv_of_fields {q q' : FrameQueue} (h : Inv q) (h1 : q'.front = q.front)
    (h2 : q'.rear = q.rear) (h3 : q'.elements = q.elements) (h4 : q'.max = q.max) : Inv q' := by
  obtain ⟨a1, a2, a3, a4, a5, a6⟩ := h
  exact ⟨by rw [h4]; exact a1, by rw [h1]; exact a2, by rw [h1, h4]; exact a3,
    by rw [h3]; exact a4, by rw [h3, h4]; exact a5, by rw [h1, h2, h3, h4]; exact a6⟩

theorem slots_of_fields {q q' : FrameQueue} (h1 : q'.front = q.front)
    (h3 : q'.elements = q.elements) (h4 : q'.max = q.max) : slots q' = slots q := by
  unfold slots
  rw [h1, h3, h4]

theorem runCalls_inv (ticksPerMs : Int) :
    ∀ (cs : List Call) (r r' : Run), Run.Inv r → runCalls ticksPerMs r cs = some r' →
      Run.Inv r' := by
  intro cs
  induction cs with
  | nil =>
    intro r r' hinv h
    simp only [runCalls] at h
    injection h with h
    subst h
    exact hinv
  | cons c cs ih =>
    intro r r' hinv h
    obtain ⟨hq, hst, hw, hr⟩ := hinv
    cases c with
    | getRear =>
      simp only [runCalls] at h
      refine ih _ r' ?_ h
      refine ⟨hq, hst, ?_, hr⟩
      intro slot hslot
      simp only [getRear] at hslot
      split_ifs at hslot with hfull
      injection hslot with hslot
      exact ⟨hslot.symm, show r.queue.elements < r.queue.max by omega⟩
    | addFrame =>
      simp only [runCalls] at h
      split at h
      · cases h
      · rename_i slot hslot
        obtain ⟨hs1, hs2⟩ := hw slot hslot
        refine ih _ r' ?_ h
        refine ⟨addFrame_inv hq hs2, ?_, ?_, ?_⟩
        · simp only
          rw [slots_addFrame hq hs2, hst, hs1, List.append_assoc]
        · intro slot' hslot'
          cases hslot'
        · intro slot' hslot'
          obtain ⟨hr1, hr2⟩ := hr slot' hslot'
          exact ⟨hr1, by simp only [addFrame]; omega⟩
    | getFront now updatedTime =>
      simp only [runCalls] at h
      obtain ⟨f1, f2, f3, f4, _⟩ := getFront_fields ticksPerMs now updatedTime r.queue
      refine ih _ r' ?_ h
      refine ⟨inv_of_fields hq f1 f2 f3 f4, ?_, ?_, ?_⟩
      · simp only
        rw [slots_of_fields f1 f3 f4]
        exact hst
      · intro slot hslot
        simp only
        rw [f2, f3, f4]
        exact hw slot hslot
      · intro slot hslot
        simp only
        rw [f1, f3]
        exact getFront_some hslot
    | removeFrame =>
      simp only [runCalls] at h
      split at h
      · cases h
      · rename_i slot hslot
        obtain ⟨hs1, hs2⟩ := hr slot hslot
        refine ih _ r' ?_ h
        refine ⟨removeFrame_inv hq hs2, ?_, ?_, ?_⟩
        · simp only
          rw [hst, slots_removeFrame hq hs2, hs1, List.append_assoc]
          rfl
        · intro slot' hslot'
          obtain ⟨hw1, hw2⟩ := hw slot' hslot'
          exact ⟨hw1, by simp only [removeFrame]; omega⟩
        · intro slot' hslot'
          cases hslot'

end FrameQueue

/-! ## Truncated division -/

theorem tdiv_le_of_le_mul {x d t : Int} (ht : 0 < t) (h : x ≤ d * t) : Int.tdiv x t ≤ d := by
  rcases Int.le_total 0 x with hx | hx
  · rw [Int.tdiv_eq_ediv hx (Int.le_of_lt ht)]
    exact Int.ediv_le_of_le_mul ht h
  · have hneg : Int.tdiv x t = -((-x) / t) := by
      rw [← Int.tdiv_eq_ediv (by omega) (Int.le_of_lt ht), Int.neg_tdiv, Int.neg_neg]
    rw [hneg]
    have h2 : -d ≤ (-x) / t := Int.le_ediv_of_mul_le ht (by rw [Int.neg_mul]; omega)
    omega

theorem lt_tdiv_of_mul_le {x d t : Int} (ht : 0 < t) (h : (d + 1) * t ≤ x) :
    d < Int.tdiv x t := by
  rcases Int.le_total 0 x with hx | hx
  · rw [Int.tdiv_eq_ediv hx (Int.le_of_lt ht)]
    have := Int.le_ediv_of_mul_le ht h
    omega
  · have hneg : Int.tdiv x t = -((-x) / t) := by
      rw [← Int.tdiv_eq_ediv (by omega) (Int.le_of_lt ht), Int.neg_tdiv, Int.neg_neg]
    rw [hneg]
    have hexp : (d + 1) * t = d * t + t := by rw [Int.add_mul, Int.one_mul]
    have h2 : (-x) / t < -d := Int.ediv_lt_of_lt_mul ht (by rw [Int.neg_mul]; omega)
    omega

theorem lt_tdiv_iff {x d t : Int} (ht : 0 < t) (hd : 0 ≤ d) :
    d < Int.tdiv x t ↔ (d + 1) * t ≤ x := by
  constructor
  · intro h
    rcases lt_or_ge x 0 with hx | hx
    · have hneg : Int.tdiv x t = -((-x) / t) := by
        rw [← Int.tdiv_eq_ediv (by omega) (Int.le_of_lt ht), Int.neg_tdiv, Int.neg_neg]
      have : 0 ≤ (-x) / t := Int.ediv_nonneg (by omega) (Int.le_of_lt ht)
      omega
    · rw [Int.tdiv_eq_ediv hx (Int.le_of_lt ht)] at h
      exact (Int.le_ediv_iff_mul_le ht).1 (by omega)
  · exact lt_tdiv_of_mul_le ht

/-! ## FrameQueue: order of commits, forced access, read readiness -/

namespace FrameQueue

/-- C4. The queue keeps the order of commits. Start from an empty queue of capacity
`max ≥ 1` and take any sequence of `getRear`, `addFrame`, `getFront` and `removeFrame` calls
in which `addFrame` is only called after `getRear` returned a slot and `removeFrame` only
after `getFront` returned a slot. A slot counts as handed out by `getRear` when `addFrame`
commits it and as handed out by `getFront` when `removeFrame` releases it. Then the `k`-th
slot handed out by `getFront` is the `k`-th slot handed out by `getRear`, for every `k`. -/
theorem fifo_commits (ticksPerMs : Int) (q : FrameQueue) (calls : List Call) (r : Run)
    (hmax : 1 ≤ q.max) (hempty : q.elements = 0) (hfront : 0 ≤ q.front ∧ q.front < q.max)
    (hrear : q.rear = q.front)
    (hrun : runCalls ticksPerMs ⟨q, none, none, [], []⟩ calls = some r) :
    r.read <+: r.written ∧ ∀ (k : Nat) (slot : Int), r.read[k]? = some slot →
      r.written[k]? = some slot := by
  have hq : Inv q := by
    refine ⟨hmax, hfront.1, hfront.2, by omega, by omega, ?_⟩
    rw [if_pos (by omega)]; omega
  have hinv0 : Run.Inv ⟨q, none, none, [], []⟩ := by
    refine ⟨hq, ?_, ?_, ?_⟩
    · simp [slots, hempty]
    · intro slot h; cases h
    · intro slot h; cases h
  have hinv := runCalls_inv ticksPerMs calls _ r hinv0 hrun
  have hpre : r.read <+: r.written := ⟨slots r.queue, hinv.stream.symm⟩
  refine ⟨hpre, ?_⟩
  intro k slot hk
  have hlt : k < r.read.length := by
    rcases Nat.lt_or_ge k r.read.length with hlt | hge
    · exact hlt
    · rw [List.getElem?_eq_none hge] at hk; cases hk
  rw [hinv.stream, List.getElem?_append_left hlt]
  exact hk

/-- A run on a queue of two slots that starts at slot 1: the queue fills up, a frame is
not readable at the instant of its update, and the indices wrap around. -/
theorem fifo_commits_witness :
    ([1, 0, 1] : List Int) <+: [1, 0, 1] ∧ ∀ (k : Nat) (slot : Int),
      ([1, 0, 1] : List Int)[k]? = some slot → ([1, 0, 1] : List Int)[k]? = some slot :=
  fifo_commits 1000 ⟨1, 1, 0, 2, 0, 0, 0⟩
    [Call.getRear, Call.addFrame, Call.getRear, Call.addFrame, Call.getRear,
     Call.getFront 5000 (fun _ => 5000), Call.getFront 7000 (fun _ => 5000), Call.removeFrame,
     Call.getRear, Call.addFrame, Call.getFront 9000 (fun _ => 5000), Call.removeFrame,
     Call.getFront 9000 (fun _ => 5000), Call.removeFrame]
    ⟨⟨0, 0, 0, 2, 0, 9000, 4⟩, none, none, [1, 0, 1], [1, 0, 1]⟩
    (by decide) (by decide) (by decide) (by decide) (by decide)

theorem iterate_addFrame (q : FrameQueue) (hmax : 1 ≤ q.max) (hrear : 0 ≤ q.rear)
    (hlt : q.rear < q.max) :
    ∀ n : Nat, (addFrame^[n] q).elements = q.elements + n ∧ (addFrame^[n] q).max = q.max ∧
      0 ≤ (addFrame^[n] q).rear ∧ (addFrame^[n] q).rear < q.max := by
  intro n
  induction n with
  | zero =>
    exact ⟨by simp, rfl, hrear, hlt⟩
  | succ n ih =>
    obtain ⟨h1, h2, h3, h4⟩ := ih
    rw [Function.iterate_succ_apply']
    simp only [addFrame]
    refine ⟨by rw [h1]; push_cast; omega, h2, cMod_nonneg (by omega), ?_⟩
    rw [h2]
    exact cMod_lt (by omega)

/-- C5. In a queue of capacity `N ≥ 1`, after `N` calls of `addFrame` from the empty queue
and no `removeFrame`, `getRear` returns `NULL`, and `forceGetRear` ends (for every bound of
at least two evaluations of its loop condition) and returns a slot, which `getRear` then
offers for writing, after one call to `flush`, which is at most `N` calls. -/
theorem forceGetRear_after_fill (q : FrameQueue) (N fuel : Nat) (hN : 1 ≤ N)
    (hmax : q.max = N) (hempty : q.elements = 0) (hrear : 0 ≤ q.rear ∧ q.rear < q.max)
    (hfuel : 2 ≤ fuel) :
    getRear (addFrame^[N] q) = none ∧
    ∃ (slot : Int) (q' : FrameQueue) (flushes : Nat),
      forceGetRear fuel (addFrame^[N] q) = some (slot, q', flushes) ∧ flushes ≤ N ∧
      getRear q' = some slot := by
  obtain ⟨h1, h2, h3, h4⟩ := iterate_addFrame q (by omega) hrear.1 hrear.2 N
  have hfull : (addFrame^[N] q).elements = (addFrame^[N] q).max := by rw [h1, h2]; omega
  have hnone : getRear (addFrame^[N] q) = none := by
    unfold getRear
    rw [if_pos (by omega)]
  have hflush : getRear (flush (addFrame^[N] q)) =
      some (cMod ((addFrame^[N] q).rear + ((addFrame^[N] q).max - 1)) (addFrame^[N] q).max) := by
    unfold flush
    rw [if_pos hfull]
    unfold getRear
    simp only
    rw [if_neg (by omega)]
  refine ⟨hnone, _, flush (addFrame^[N] q), 1, ?_, hN, hflush⟩
  obtain ⟨fuel', rfl⟩ : ∃ fuel', fuel = fuel' + 2 := ⟨fuel - 2, by omega⟩
  simp only [forceGetRear, hnone, hflush]

/-- A queue of three slots whose empty window starts at slot 2. -/
theorem forceGetRear_after_fill_witness :
    getRear (addFrame^[3] ⟨0, 2, 0, 3, 0, 0, 0⟩) = none ∧
    ∃ (slot : Int) (q' : FrameQueue) (flushes : Nat),
      forceGetRear 2 (addFrame^[3] ⟨0, 2, 0, 3, 0, 0, 0⟩) = some (slot, q', flushes) ∧
      flushes ≤ 3 ∧ getRear q' = some slot :=
  forceGetRear_after_fill ⟨0, 2, 0, 3, 0, 0, 0⟩ 3 2 (by decide) (by decide) (by decide)
    (by decide) (by decide)

/-- C6, as the code has it. For a queue that is not empty, `getFront` returns the front
frame exactly when the time elapsed since the update of the front frame, truncated to whole
milliseconds, is strictly greater than `delay`. So it returns `NULL` whenever at most `delay`
milliseconds have elapsed, and the front frame whenever at least `delay + 1` milliseconds
have elapsed; for `delay ≥ 0` these are all the cases in which it returns the frame. -/
theorem getFront_ready_iff (ticksPerMs now : Int) (updatedTime : Int → Int) (q : FrameQueue)
    (hne : 0 < q.elements) (htick : 1 ≤ ticksPerMs) :
    ((getFront ticksPerMs now updatedTime q).1 = some q.front ↔
      q.delay < Int.tdiv (now - updatedTime q.front) ticksPerMs) ∧
    (now - updatedTime q.front ≤ q.delay * ticksPerMs →
      (getFront ticksPerMs now updatedTime q).1 = none) ∧
    ((q.delay + 1) * ticksPerMs ≤ now - updatedTime q.front →
      (getFront ticksPerMs now updatedTime q).1 = some q.front) ∧
    (0 ≤ q.delay → ((getFront ticksPerMs now updatedTime q).1 = some q.front ↔
      (q.delay + 1) * ticksPerMs ≤ now - updatedTime q.front)) := by
  have hiff : (getFront ticksPerMs now updatedTime q).1 = some q.front ↔
      q.delay < Int.tdiv (now - updatedTime q.front) ticksPerMs := by
    rw [getFront_eq]
    by_cases hc : q.delay < Int.tdiv (now - updatedTime q.front) ticksPerMs
    · rw [if_pos (And.intro hne hc)]
      exact ⟨fun _ => hc, fun _ => rfl⟩
    · rw [if_neg (fun h => hc h.2)]
      exact ⟨fun h => (by cases h), fun h => absurd h hc⟩
  refine ⟨hiff, ?_, ?_, ?_⟩
  · intro h
    have hle := tdiv_le_of_le_mul (show 0 < ticksPerMs by omega) h
    rw [getFront_eq, if_neg (fun hc => by omega)]
  · intro h
    exact hiff.2 (lt_tdiv_of_mul_le (by omega) h)
  · intro hd
    rw [hiff]
    exact lt_tdiv_iff (by omega) hd

/-- A clock of 1000 ticks per millisecond and a delay of 5 ms: `NULL` after 5 ms, the front
frame after 6 ms. -/
theorem getFront_ready_iff_witness :
    (getFront 1000 5000 (fun _ => 0) ⟨0, 1, 1, 4, 5, 0, 0⟩).1 = none ∧
    (getFront 1000 6000 (fun _ => 0) ⟨0, 1, 1, 4, 5, 0, 0⟩).1 = some 0 :=
  ⟨(getFront_ready_iff 1000 5000 (fun _ => 0) ⟨0, 1, 1, 4, 5, 0, 0⟩ (by decide)
      (by decide)).2.1 (by decide),
   (getFront_ready_iff 1000 6000 (fun _ => 0) ⟨0, 1, 1, 4, 5, 0, 0⟩ (by decide)
      (by decide)).2.2.1 (by decide)⟩

/-- C6 fails as stated. With a clock of 1000 ticks per millisecond and a delay of 5 ms, the
queue holds a frame updated at time 0; at time 5900, when 5.9 ms (strictly more than the
delay) have elapsed, `getFront` still returns `NULL`. -/
theorem getFront_ready_counterexample :
    0 < (⟨0, 1, 1, 4, 5, 0, 0⟩ : FrameQueue).elements ∧
    (5900 : Int) - 0 > (⟨0, 1, 1, 4, 5, 0, 0⟩ : FrameQueue).delay * 1000 ∧
    (getFront 1000 5900 (fun _ => 0) ⟨0, 1, 1, 4, 5, 0, 0⟩).1 = none := by
  decide

/-- C7, as the code has it. With `delay == 0`, `getFront` on a queue that is not empty
returns the front frame exactly when at least one whole millisecond has elapsed since the
update of the front frame; in particular it returns `NULL` at the instant of the update. -/
theorem getFront_zero_delay (ticksPerMs now : Int) (updatedTime : Int → Int) (q : FrameQueue)
    (hdelay : q.delay = 0) (hne : 0 < q.elements) (htick : 1 ≤ ticksPerMs) :
    ((getFront ticksPerMs now updatedTime q).1 = some q.front ↔
      ticksPerMs ≤ now - updatedTime q.front) ∧
    (now = updatedTime q.front → (getFront ticksPerMs now updatedTime q).1 = none) := by
  have hiff : (getFront ticksPerMs now updatedTime q).1 = some q.front ↔
      ticksPerMs ≤ now - updatedTime q.front := by
    rw [getFront_eq, hdelay]
    have h : 0 < Int.tdiv (now - updatedTime q.front) ticksPerMs ↔
        (0 + 1) * ticksPerMs ≤ now - updatedTime q.front :=
      lt_tdiv_iff (by omega) (le_refl 0)
    rw [Int.zero_add, Int.one_mul] at h
    by_cases hc : ticksPerMs ≤ now - updatedTime q.front
    · rw [if_pos (And.intro hne (h.2 hc))]
      exact ⟨fun _ => hc, fun _ => rfl⟩
    · rw [if_neg (fun hh => hc (h.1 hh.2))]
      exact ⟨fun hh => (by cases hh), fun hh => absurd hh hc⟩
  refine ⟨hiff, ?_⟩
  intro hnow
  rw [getFront_eq, hdelay, hnow, Int.sub_self]
  rw [if_neg]
  rintro ⟨_, hlt⟩
  have : Int.tdiv 0 ticksPerMs ≤ 0 := tdiv_le_of_le_mul (by omega) (by omega)
  omega

/-- A clock of 1000 ticks per millisecond and a delay of 0: the frame updated at time 7000
is returned at time 8000. -/
theorem getFront_zero_delay_witness :
    (getFront 1000 8000 (fun _ => 7000) ⟨0, 1, 1, 4, 0, 0, 0⟩).1 = some 0 :=
  (getFront_zero_delay 1000 8000 (fun _ => 7000) ⟨0, 1, 1, 4, 0, 0, 0⟩ rfl (by decide)
    (by decide)).1.2 (by decide)

/-- C7 fails as stated. With a delay of 0 the queue holds a frame updated at time 7000; at
that same instant `getFront` returns `NULL`. -/
theorem getFront_zero_delay_counterexample :
    (⟨0, 1, 1, 4, 0, 0, 0⟩ : FrameQueue).delay = 0 ∧
    0 < (⟨0, 1, 1, 4, 0, 0, 0⟩ : FrameQueue).elements ∧
    (getFront 1000 7000 (fun _ => 7000) ⟨0, 1, 1, 4, 0, 0, 0⟩).1 = none := by
  decide

theorem flush_inv {q : FrameQueue} (h : Inv q) : Inv (flush q) := by
  obtain ⟨h1, h2, h3, h4, h5, h6⟩ := h
  unfold flush
  split_ifs with hfull
  · refine ⟨h1, h2, h3, by simp only; omega, by simp only; omega, ?_⟩
    simp only
    rw [h6, if_neg (by omega)]
    by_cases hz : q.front = 0
    · rw [cMod_of_lt (by omega) (by omega)]
      split_ifs <;> omega
    · rw [cMod_of_wrap (by omega) (by omega) (by omega)]
      split_ifs <;> omega
  · exact ⟨h1, h2, h3, h4, h5, h6⟩

theorem runOps_inv :
    ∀ (ops : List Op) (q q' : FrameQueue) (last last' : Option Int), Inv q →
      runOps (q, last) ops = some (q', last') → Inv q' := by
  intro ops
  induction ops with
  | nil =>
    intro q q' last last' hinv h
    simp only [runOps] at h
    injection h with h
    injection h with h1 h2
    subst h1
    exact hinv
  | cons op ops ih =>
    intro q q' last last' hinv h
    cases op with
    | addFrame =>
      simp only [runOps] at h
      split at h
      · cases h
      · rename_i slot hslot
        simp only [getRear] at hslot
        split_ifs at hslot with hfull
        exact ih _ q' _ last' (addFrame_inv hinv (by omega)) h
    | removeFrame =>
      simp only [runOps] at h
      split_ifs at h with hne
      exact ih _ q' _ last' (removeFrame_inv hinv hne) h
    | flush =>
      simp only [runOps] at h
      exact ih _ q' _ last' (flush_inv hinv) h

theorem runOps_last :
    ∀ (ops : List Op) (q q' : FrameQueue) (last last' : Option Int), Inv q → Op.flush ∉ ops →
      (∀ slot, last = some slot → slot = if q.rear = 0 then q.max - 1 else q.rear - 1) →
      runOps (q, last) ops = some (q', last') →
      ∀ slot, last' = some slot → slot = if q'.rear = 0 then q'.max - 1 else q'.rear - 1 := by
  intro ops
  induction ops with
  | nil =>
    intro q q' last last' _ _ hlast h
    simp only [runOps] at h
    injection h with h
    injection h with h1 h2
    subst h1 h2
    exact hlast
  | cons op ops ih =>
    intro q q' last last' hinv hnf hlast h
    have hnf' : Op.flush ∉ ops := fun hm => hnf (List.mem_cons_of_mem _ hm)
    cases op with
    | addFrame =>
      simp only [runOps] at h
      split at h
      · cases h
      · rename_i slot hslot
        simp only [getRear] at hslot
        split_ifs at hslot with hfull
        injection hslot with hslot
        refine ih _ q' _ last' (addFrame_inv hinv (by omega)) hnf' ?_ h
        intro slot' hslot'
        injection hslot' with hslot'
        obtain ⟨h1, h2, h3, h4, h5, h6⟩ := hinv
        have hr : 0 ≤ q.rear ∧ q.rear < q.max := by rw [h6]; split_ifs <;> omega
        simp only [addFrame]
        by_cases hw : q.rear + 1 < q.max
        · rw [cMod_of_lt (by omega) hw, if_neg (by omega)]; omega
        · rw [cMod_of_wrap (by omega) (by omega) (by omega), if_pos (by omega)]; omega
    | removeFrame =>
      simp only [runOps] at h
      split_ifs at h with hne
      exact ih _ q' _ last' (removeFrame_inv hinv hne) hnf' hlast h
    | flush =>
      exact absurd (List.mem_cons_self _ _) hnf

/-- C8, as the code has it. Take an empty queue of capacity `max ≥ 1`, a history of
`addFrame`, `removeFrame` and `flush` calls (`addFrame` only when `getRear` offers a slot,
`removeFrame` only when a frame is held) and suppose the queue is empty afterwards. Then
`forceGetFront` does not return `NULL`: it returns the slot at index `(front - 1) mod max`.
When the history has no `flush` call, that slot is the slot of the latest `addFrame`. -/
theorem forceGetFront_empty (ticksPerMs now : Int) (updatedTime : Int → Int)
    (q0 q : FrameQueue) (ops : List Op) (last : Option Int)
    (hmax : 1 ≤ q0.max) (hempty0 : q0.elements = 0)
    (hfront0 : 0 ≤ q0.front ∧ q0.front < q0.max) (hrear0 : q0.rear = q0.front)
    (hrun : runOps (q0, none) ops = some (q, last)) (hempty : q.elements = 0) :
    (forceGetFront ticksPerMs now updatedTime q).1 = some ((q.front - 1) % q.max) ∧
    (Op.flush ∉ ops → ∀ slot, last = some slot → slot = (q.front - 1) % q.max) := by
  have hq0 : Inv q0 := by
    refine ⟨hmax, hfront0.1, hfront0.2, by omega, by omega, ?_⟩
    rw [if_pos (by omega)]; omega
  have hq := runOps_inv ops q0 q none last hq0 hrun
  obtain ⟨h1, h2, h3, h4, h5, h6⟩ := hq
  have hrear : q.rear = q.front := by rw [h6, if_pos (by omega)]; omega
  have hmod : (q.front - 1) % q.max = if q.front = 0 then q.max - 1 else q.front - 1 := by
    split_ifs with hz
    · rw [← Int.add_emod_self, Int.emod_eq_of_lt (by omega) (by omega)]; omega
    · exact Int.emod_eq_of_lt (by omega) (by omega)
  constructor
  · unfold forceGetFront
    simp only
    have hnone : (getFront ticksPerMs now updatedTime q).1 = none := by
      rw [getFront_eq, if_neg (fun hc => by omega)]
    obtain ⟨f1, _, _, f4, _⟩ := getFront_fields ticksPerMs now updatedTime q
    rw [hnone]
    simp only [getOldie]
    rw [f1, f4, hmod]
    split_ifs with hz
    · have hc : cMod (q.front + (q.max - 1)) q.max = q.front + (q.max - 1) :=
        cMod_of_lt (by omega) (by omega)
      rw [hc]; congr 1; omega
    · have hc : cMod (q.front + (q.max - 1)) q.max = q.front + (q.max - 1) - q.max :=
        cMod_of_wrap (by omega) (by omega) (by omega)
      rw [hc]; congr 1; omega
  · intro hnf slot hslot
    have := runOps_last ops q0 q none last hq0 hnf (fun s hs => by cases hs) hrun slot hslot
    rw [this, hmod, hrear]

/-- A queue of two slots after two commits and two releases. -/
theorem forceGetFront_empty_witness :
    (forceGetFront 1000 0 (fun _ => 0) ⟨0, 0, 0, 2, 0, 0, 0⟩).1 = some ((0 - 1) % 2) ∧
    (1 : Int) = (0 - 1) % 2 :=
  ⟨(forceGetFront_empty 1000 0 (fun _ => 0) ⟨0, 0, 0, 2, 0, 0, 0⟩ ⟨0, 0, 0, 2, 0, 0, 0⟩
      [Op.addFrame, Op.addFrame, Op.removeFrame, Op.removeFrame] (some 1)
      (by decide) (by decide) (by decide) (by decide) (by decide) (by decide)).1,
   (forceGetFront_empty 1000 0 (fun _ => 0) ⟨0, 0, 0, 2, 0, 0, 0⟩ ⟨0, 0, 0, 2, 0, 0, 0⟩
      [Op.addFrame, Op.addFrame, Op.removeFrame, Op.removeFrame] (some 1)
      (by decide) (by decide) (by decide) (by decide) (by decide) (by decide)).2
      (by decide) 1 rfl⟩

/-- C8 fails as stated. In a queue of two slots, after `addFrame`, `addFrame`, `flush`,
`removeFrame` the queue is empty and the latest `addFrame` committed slot 1, but
`forceGetFront` returns slot 0. -/
theorem forceGetFront_flush_counterexample :
    runOps (⟨0, 0, 0, 2, 0, 0, 0⟩, none)
      [Op.addFrame, Op.addFrame, Op.flush, Op.removeFrame] =
      some (⟨1, 1, 0, 2, 0, 0, 0⟩, some 1) ∧
    (⟨1, 1, 0, 2, 0, 0, 0⟩ : FrameQueue).elements = 0 ∧
    (forceGetFront 1000 0 (fun _ => 0) ⟨1, 1, 0, 2, 0, 0, 0⟩).1 = some 0 := by
  decide

end FrameQueue

/-! ## Timing records: facts about the embedding -/

namespace TimeMap

theorem find_erase_self (m : TimeMap) (key : Int) : find (erase m key) key = none := by
  induction m with
  | nil => rfl
  | cons e rest ih =>
    obtain ⟨k, v⟩ := e
    unfold erase at ih ⊢
    rw [List.filter_cons]
    by_cases hk : k = key
    · simp only [hk, ne_eq, not_true_eq_false, decide_False, Bool.false_eq_true, if_false]
      exact ih
    · simp only [ne_eq, hk, not_false_eq_true, decide_True, if_true, find]
      exact ih

theorem find_erase_other (m : TimeMap) {key other : Int} (h : other ≠ key) :
    find (erase m other) key = find m key := by
  induction m with
  | nil => rfl
  | cons e rest ih =>
    obtain ⟨k, v⟩ := e
    unfold erase at ih ⊢
    rw [List.filter_cons]
    by_cases hk : k = other
    · have hkk : k ≠ key := by rw [hk]; exact h
      simp only [hk, ne_eq, not_true_eq_false, decide_False, Bool.false_eq_true, if_false, find,
        h]
      exact ih
    · simp only [ne_eq, hk, not_false_eq_true, decide_True, if_true, find]
      rw [ih]

theorem find_assign_self (m : TimeMap) (key : Int) (value : FrameTimeParams) :
    find (assign m key value) key = some value := by
  simp [assign, find]

theorem find_assign_other (m : TimeMap) {key other : Int} (value : FrameTimeParams)
    (h : other ≠ key) : find (assign m other value) key = find m key := by
  simp only [assign, find, h, if_false]
  exact find_erase_other m h

theorem find_index (m : TimeMap) (key other : Int) (h : find m key ≠ none ∨ other ≠ key) :
    find (index m other).2 key = find m key := by
  unfold index
  cases hf : find m other with
  | some v => rfl
  | none =>
    simp only [find]
    have hne : other ≠ key := by
      rcases h with h | h
      · intro heq; rw [heq] at hf; exact h hf
      · exact h
    rw [if_neg hne]

theorem index_of_find {m : TimeMap} {key : Int} {value : FrameTimeParams}
    (h : find m key = some value) : index m key = (value, m) := by
  unfold index
  rw [h]

theorem find_step (m : TimeMap) (key : Int) (value : FrameTimeParams) (a : Access)
    (hm : find m key = some value) (ha : a.rewrites key = false) :
    find (step m a) key = some value := by
  cases a with
  | record k v =>
    simp only [Access.rewrites, decide_eq_false_iff_not] at ha
    simp only [step]
    rw [find_assign_other m v ha]
    exact hm
  | retrieve k =>
    simp only [step]
    rw [find_index m key k (Or.inl (by rw [hm]; exact Option.some_ne_none value))]
    exact hm
  | release k =>
    simp only [Access.rewrites, decide_eq_false_iff_not] at ha
    simp only [step]
    rw [find_erase_other m ha]
    exact hm

theorem find_run (key : Int) (value : FrameTimeParams) :
    ∀ (accesses : List Access) (m : TimeMap), find m key = some value →
      (∀ a ∈ accesses, a.rewrites key = false) → find (run m accesses) key = some value := by
  intro accesses
  induction accesses with
  | nil => intro m hm _; exact hm
  | cons a rest ih =>
    intro m hm hall
    simp only [run, List.foldl_cons]
    exact ih (step m a) (find_step m key value a hm (hall a (List.mem_cons_self _ _)))
      (fun b hb => hall b (List.mem_cons_of_mem _ hb))

end TimeMap

/-! ## Timing records: round trip and lookup misses -/

namespace TimeMap

/-- C9. Round trip of a timing record. After `qFTP[i] = r`, followed by any sequence of
further accesses that neither record nor release index `i` (records and releases of other
indices, and lookups of any index), the lookup `qFTP[i]` yields a record equal to `r` in its
three fields, and leaves the map as it is. -/
theorem record_retrieve (m : TimeMap) (i : Int) (r : FrameTimeParams)
    (accesses : List Access) (h : ∀ a ∈ accesses, a.rewrites i = false) :
    (index (run (assign m i r) accesses) i).1 = r ∧
    (index (run (assign m i r) accesses) i).1.pTime = r.pTime ∧
    (index (run (assign m i r) accesses) i).1.oTime = r.oTime ∧
    (index (run (assign m i r) accesses) i).1.seqNum = r.seqNum ∧
    (index (run (assign m i r) accesses) i).2 = run (assign m i r) accesses := by
  have hfind := find_run i r accesses (assign m i r) (find_assign_self m i r) h
  have hidx := index_of_find hfind
  rw [hidx]
  exact ⟨rfl, rfl, rfl, rfl, rfl⟩

/-- Index 3 is recorded over an older record; then index 4 is recorded, index 9 is looked
up and missed, index 2 is released and index 4 is recorded again. -/
theorem record_retrieve_witness :
    (index (run (assign [(2, ⟨1, 1, 1⟩), (3, ⟨5, 5, 5⟩)] 3 ⟨10, 20, 30⟩)
      [Access.record 4 ⟨7, 8, 9⟩, Access.retrieve 9, Access.release 2,
       Access.record 4 ⟨0, 0, 0⟩]) 3).1 = ⟨10, 20, 30⟩ :=
  (record_retrieve [(2, ⟨1, 1, 1⟩), (3, ⟨5, 5, 5⟩)] 3 ⟨10, 20, 30⟩
    [Access.record 4 ⟨7, 8, 9⟩, Access.retrieve 9, Access.release 2,
     Access.record 4 ⟨0, 0, 0⟩] (by decide)).1

/-- C10, as the code has it. The lookup `qFTP[key]` that `doProcessFrame` uses does not
signal a miss. For a key without an entry, which is the case for a key that was released and
for every key of the empty map, it yields the value-initialised record, whose members are
zero, and adds an entry for the key, so that the map grows by one. -/
theorem retrieve_miss (m : TimeMap) (key : Int) :
    (find m key = none →
      (index m key).1 = FrameTimeParams.init ∧
      find (index m key).2 key = some FrameTimeParams.init ∧
      size (index m key).2 = size m + 1) ∧
    find (erase m key) key = none ∧ find ([] : TimeMap) key = none := by
  refine ⟨?_, find_erase_self m key, rfl⟩
  intro h
  unfold index
  rw [h]
  exact ⟨rfl, by simp [find], rfl⟩

/-- A lookup of index 6 in a map that holds index 2 only. -/
theorem retrieve_miss_witness :
    (index [(2, ⟨1, 1, 1⟩)] 6).1 = FrameTimeParams.init ∧
    find (index [(2, ⟨1, 1, 1⟩)] 6).2 6 = some FrameTimeParams.init ∧
    size (index [(2, ⟨1, 1, 1⟩)] 6).2 = size [(2, ⟨1, 1, 1⟩)] + 1 :=
  (retrieve_miss [(2, ⟨1, 1, 1⟩)] 6).1 (by decide)

end TimeMap

/-- C10 fails as stated. Index 5 was never recorded; the lookup yields the value-initialised
record and adds an entry for index 5. In `doProcessFrame`, when the encoder reports display
index 5 and decode index 0 for the first frame, the call returns `true`, the destination
frame gets presentation time 0, origin time 0 and sequence number 0, and the entry that was
made up for index 5 stays in the map. -/
theorem retrieve_miss_counterexample :
    TimeMap.find [] 5 = none ∧
    (TimeMap.index [] 5).1 = FrameTimeParams.init ∧
    TimeMap.find (TimeMap.index [] 5).2 5 = some FrameTimeParams.init ∧
    doProcessFrameTimes (fun e => (true, { e with outPts := 5, dts := 0 })) ⟨[], 0, 0, 0⟩
      ⟨100, 200, 7⟩ ⟨false, 1, 1, 1, 1⟩ =
      (true, ⟨[(5, FrameTimeParams.init)], 0, 5, 0⟩, ⟨true, 0, 100, 0, 0⟩) := by
  decide

/-! ## The GOP step -/

theorem gopStep_anchored {gopTime : Nat} (forceIntra : Bool) {refTime : Int} (pts : Int)
    (hQ : 0 < gopTime) (href : 0 < refTime) :
    gopStep gopTime forceIntra refTime pts =
      if refTime ≤ pts then (true, refTime + (gopTime : Int)) else (forceIntra, refTime) := by
  unfold gopStep
  simp only [gt_iff_lt, hQ, if_true]
  rw [if_neg (show ¬ refTime = 0 by omega)]
  by_cases h : refTime ≤ pts
  · rw [if_pos (show refTime - pts ≤ 0 by omega), if_pos h]
  · rw [if_neg (show ¬ refTime - pts ≤ 0 by omega), if_neg h]

theorem gopStep_unset {gopTime : Nat} (forceIntra : Bool) (pts : Int) (hQ : 0 < gopTime) :
    gopStep gopTime forceIntra 0 pts = (true, pts + (gopTime : Int)) := by
  unfold gopStep
  simp only [gt_iff_lt, hQ, if_true, sub_self, le_refl]

/-- From a reference that is set, the reference after the run is the reference before it
plus one quantum for every forced frame, and the forced frame before the last one found the
reference at or below its presentation time. -/
theorem gopRun_upper {gopTime : Nat} (hQ : 0 < gopTime) (bound : Int) :
    ∀ (frames : List Int) (refTime : Int), 0 < refTime → (∀ x ∈ frames, x ≤ bound) →
      (gopRun gopTime refTime frames).2 =
        refTime + (gopTime : Int) * ((gopRun gopTime refTime frames).1 : Int) ∧
      (1 ≤ (gopRun gopTime refTime frames).1 →
        refTime + (gopTime : Int) * (((gopRun gopTime refTime frames).1 : Int) - 1) ≤ bound) := by
  intro frames
  induction frames with
  | nil =>
    intro refTime _ _
    simp [gopRun]
  | cons p rest ih =>
    intro refTime href hb
    have hp : p ≤ bound := hb p (List.mem_cons_self _ _)
    have hrest : ∀ x ∈ rest, x ≤ bound := fun x hx => hb x (List.mem_cons_of_mem _ hx)
    simp only [gopRun]
    rw [gopStep_anchored false p hQ href]
    by_cases hle : refTime ≤ p
    · rw [if_pos hle]
      simp only [if_true]
      obtain ⟨h1, h2⟩ := ih (refTime + (gopTime : Int)) (by omega) hrest
      generalize (gopRun gopTime (refTime + (gopTime : Int)) rest).1 = c at h1 h2
      generalize (gopRun gopTime (refTime + (gopTime : Int)) rest).2 = r at h1
      refine ⟨?_, ?_⟩
      · rw [h1]; push_cast; ring
      · intro _
        rcases Nat.eq_zero_or_pos c with hc | hc
        · subst hc
          simp only [Nat.add_zero, Nat.cast_one, sub_self, mul_zero, add_zero]
          omega
        · have := h2 hc
          have e : refTime + (gopTime : Int) * (((1 + c : Nat) : Int) - 1) =
              refTime + (gopTime : Int) + (gopTime : Int) * ((c : Int) - 1) := by
            push_cast; ring
          rw [e]; exact this
    · rw [if_neg hle]
      simp only [Bool.false_eq_true, if_false, Nat.zero_add]
      exact ih refTime href hrest

/-- When every frame is at most one quantum later than the frame before it, the reference
stays ahead of the latest frame. -/
theorem gopRun_lower {gopTime : Nat} (hQ : 0 < gopTime) :
    ∀ (frames : List Int) (previous refTime : Int), 0 < refTime → previous < refTime →
      List.Chain (fun x y => y ≤ x + (gopTime : Int)) previous frames →
      frames.getLastD previous < (gopRun gopTime refTime frames).2 := by
  intro frames
  induction frames with
  | nil =>
    intro previous refTime _ hlt _
    simpa [gopRun] using hlt
  | cons p rest ih =>
    intro previous refTime href hlt hchain
    rw [List.chain_cons] at hchain
    obtain ⟨hgap, hchain⟩ := hchain
    simp only [gopRun]
    rw [gopStep_anchored false p hQ href]
    have hlast : (p :: rest).getLastD previous = rest.getLastD p := by
      cases rest <;> simp [List.getLastD]
    rw [hlast]
    by_cases hle : refTime ≤ p
    · rw [if_pos hle]
      exact ih p (refTime + (gopTime : Int)) (by omega) (by omega) hchain
    · rw [if_neg hle]
      exact ih p refTime href (by omega) hchain

theorem chain_lt_le_last :
    ∀ (rest : List Int) (first : Int), List.Chain (fun x y => x < y) first rest →
      first ≤ rest.getLastD first ∧ ∀ x ∈ rest, x ≤ rest.getLastD first := by
  intro rest
  induction rest with
  | nil => intro first _; simp
  | cons p rest ih =>
    intro first hchain
    rw [List.chain_cons] at hchain
    obtain ⟨hlt, hchain⟩ := hchain
    obtain ⟨h1, h2⟩ := ih p hchain
    have hlast : (p :: rest).getLastD first = rest.getLastD p := by
      cases rest <;> simp [List.getLastD]
    rw [hlast]
    refine ⟨by omega, ?_⟩
    intro x hx
    rcases List.mem_cons.1 hx with hx | hx
    · rw [hx]; exact h1
    · exact h2 x hx

/-- C11, as the code has it. For every quantum `gopTime > 0` and every first frame, observed
while the reference is unset (zero), the GOP step anchors the reference at the presentation
time of the frame and, the difference then being zero, sets `forceIntra` and advances the
reference to the presentation time plus one quantum. -/
theorem gopStep_first_frame (gopTime : Nat) (forceIntra : Bool) (pts : Int)
    (hQ : 0 < gopTime) :
    gopStep gopTime forceIntra 0 pts = (true, pts + (gopTime : Int)) := by
  unfold gopStep
  rw [if_pos hQ]
  simp only [if_true, sub_self, le_refl]

/-- A quantum of 1000 and a first frame at 5000. -/
theorem gopStep_first_frame_witness : gopStep 1000 false 0 5000 = (true, 5000 + 1000) :=
  gopStep_first_frame 1000 false 5000 (by decide)

/-- C11 fails as stated. With a quantum of 1000 and the reference unset, the first frame, at
presentation time 5000, finds `forceIntra` cleared and leaves it set; the reference is 6000
afterwards, not 5000. -/
theorem gopStep_first_frame_counterexample :
    (gopStep 1000 false 0 5000).1 = true ∧ (gopStep 1000 false 0 5000).2 ≠ 5000 := by
  decide

/-- C12, as the code has it. Take a quantum `Q > 0` and a strictly increasing sequence of
presentation times that are not negative, processed from the unset reference, and let `D` be
the last time minus the first. The number of frames on which the GOP step sets `forceIntra`
is at least 1 and at most `floor(D / Q) + 1`. When every frame is at most `Q` later than the
frame before it, the number is exactly `floor(D / Q) + 1`, one more than `floor(D / Q)`. -/
theorem gopRun_count (gopTime : Nat) (first : Int) (rest : List Int) (hQ : 0 < gopTime)
    (hfirst : 0 ≤ first) (hinc : List.Chain (fun x y => x < y) first rest) :
    1 ≤ (gopRun gopTime 0 (first :: rest)).1 ∧
    ((gopRun gopTime 0 (first :: rest)).1 : Int) ≤
      (rest.getLastD first - first) / (gopTime : Int) + 1 ∧
    (List.Chain (fun x y => y ≤ x + (gopTime : Int)) first rest →
      ((gopRun gopTime 0 (first :: rest)).1 : Int) =
        (rest.getLastD first - first) / (gopTime : Int) + 1) := by
  obtain ⟨hfl, hall⟩ := chain_lt_le_last rest first hinc
  have hQ' : (0 : Int) < (gopTime : Int) := by exact_mod_cast hQ
  have hstep := gopStep_unset false first hQ
  have hrun : gopRun gopTime 0 (first :: rest) =
      (1 + (gopRun gopTime (first + (gopTime : Int)) rest).1,
        (gopRun gopTime (first + (gopTime : Int)) rest).2) := by
    simp only [gopRun, hstep, if_true]
  rw [hrun]
  obtain ⟨h1, h2⟩ := gopRun_upper hQ (rest.getLastD first) rest (first + (gopTime : Int))
    (by omega) hall
  have hupper : (((1 + (gopRun gopTime (first + (gopTime : Int)) rest).1 : Nat)) : Int) ≤
      (rest.getLastD first - first) / (gopTime : Int) + 1 := by
    push_cast
    rcases Nat.eq_zero_or_pos (gopRun gopTime (first + (gopTime : Int)) rest).1 with hc | hc
    · rw [hc]
      have : 0 ≤ (rest.getLastD first - first) / (gopTime : Int) :=
        Int.ediv_nonneg (by omega) (by omega)
      simp only [Nat.cast_zero, add_zero]
      omega
    · have h3 := h2 hc
      have h4 : ((gopRun gopTime (first + (gopTime : Int)) rest).1 : Int) ≤
          (rest.getLastD first - first) / (gopTime : Int) := by
        apply Int.le_ediv_of_mul_le hQ'
        have e : (gopTime : Int) * (((gopRun gopTime (first + (gopTime : Int)) rest).1 : Int) - 1)
            = ((gopRun gopTime (first + (gopTime : Int)) rest).1 : Int) * (gopTime : Int)
              - (gopTime : Int) := by ring
        rw [e] at h3
        omega
      omega
  refine ⟨by simp only; omega, hupper, ?_⟩
  intro hgap
  have hlow := gopRun_lower hQ rest first (first + (gopTime : Int)) (by omega) (by omega) hgap
  rw [h1] at hlow
  have h5 : (rest.getLastD first - first) / (gopTime : Int) <
      ((gopRun gopTime (first + (gopTime : Int)) rest).1 : Int) + 1 := by
    apply Int.ediv_lt_of_lt_mul hQ'
    have e : (((gopRun gopTime (first + (gopTime : Int)) rest).1 : Int) + 1) * (gopTime : Int) =
        (gopTime : Int) * ((gopRun gopTime (first + (gopTime : Int)) rest).1 : Int)
          + (gopTime : Int) := by ring
    rw [e]
    omega
  push_cast at hupper ⊢
  omega

/-- A quantum of 1000 and frames every 400 to 600 from 5000 to 7100: three forced frames,
and `floor(2100 / 1000) + 1 = 3`. -/
theorem gopRun_count_witness :
    ((gopRun 1000 0 [5000, 5400, 5900, 6000, 6500, 7100]).1 : Int) =
      ([5400, 5900, 6000, 6500, 7100].getLastD 5000 - 5000) / ((1000 : Nat) : Int) + 1 :=
  (gopRun_count 1000 5000 [5400, 5900, 6000, 6500, 7100] (by decide) (by decide)
    (by simp)).2.2 (by simp)

/-- C12 fails as stated. With a quantum of 1000, the frames at 5000 and 15000 span 10000 and
`floor(10000 / 1000) = 10`, but only 2 frames are forced: the reference advances by one
quantum per frame. The start at a negative time shows the other restriction: the reference
passes through zero and is anchored again, so that the frames at -1000, -999 and -998, which
span 2, force 2 frames while `floor(2 / 1000) = 0`. -/
theorem gopRun_count_counterexample :
    (gopRun 1000 0 [5000, 15000]).1 = 2 ∧ ((15000 : Int) - 5000) / 1000 = 10 ∧
    (gopRun 1000 0 [-1000, -999, -998]).1 = 2 ∧ ((-998 : Int) - (-1000)) / 1000 = 0 := by
  decide

/-- C13. The GOP step for a frame with presentation time `pts`, where `ref` is the
reference after anchoring (`pts` when the stored reference is zero, the stored reference
otherwise). When `gopTime > 0` and `ref - pts <= 0`, the step sets `forceIntra` and leaves
the reference at `ref` plus one quantum. In every other case `forceIntra` is left as it was
and the reference is not advanced: it is `ref` when `gopTime > 0`, and the stored reference,
untouched, when `gopTime == 0`. For `gopTime > 0` the reference is advanced exactly when
`ref - pts <= 0`. -/
theorem gopStep_cases (gopTime : Nat) (forceIntra : Bool) (refTime pts : Int) :
    ((0 < gopTime ∧ (if refTime = 0 then pts else refTime) - pts ≤ 0) →
      gopStep gopTime forceIntra refTime pts =
        (true, (if refTime = 0 then pts else refTime) + (gopTime : Int))) ∧
    (¬ (0 < gopTime ∧ (if refTime = 0 then pts else refTime) - pts ≤ 0) →
      gopStep gopTime forceIntra refTime pts =
        (forceIntra, if 0 < gopTime then (if refTime = 0 then pts else refTime) else refTime)) ∧
    (gopTime = 0 → gopStep gopTime forceIntra refTime pts = (forceIntra, refTime)) ∧
    (0 < gopTime →
      ((gopStep gopTime forceIntra refTime pts).2 =
          (if refTime = 0 then pts else refTime) + (gopTime : Int) ↔
        (if refTime = 0 then pts else refTime) - pts ≤ 0)) := by
  refine ⟨?_, ?_, ?_, ?_⟩
  · rintro ⟨hQ, hd⟩
    unfold gopStep
    simp only [gt_iff_lt, hQ, if_true]
    rw [if_pos hd]
  · intro hn
    unfold gopStep
    by_cases hQ : 0 < gopTime
    · have hd : ¬ (if refTime = 0 then pts else refTime) - pts ≤ 0 := fun h => hn ⟨hQ, h⟩
      simp only [gt_iff_lt, hQ, if_true]
      rw [if_neg hd]
    · simp only [gt_iff_lt, hQ, if_false]
  · intro h0
    unfold gopStep
    simp only [gt_iff_lt, h0, Nat.lt_irrefl, if_false]
  · intro hQ
    have hQ' : (0 : Int) < (gopTime : Int) := by exact_mod_cast hQ
    unfold gopStep
    simp only [gt_iff_lt, hQ, if_true]
    by_cases hd : (if refTime = 0 then pts else refTime) - pts ≤ 0
    · rw [if_pos hd]
      exact ⟨fun _ => hd, fun _ => rfl⟩
    · rw [if_neg hd]
      constructor
      · intro h
        simp only at h
        omega
      · intro h
        exact absurd h hd

/-- A quantum of 1000 and a reference of 6000: the frame at 6000 is forced and the reference
becomes 7000; the frame at 5999 is not forced. -/
theorem gopStep_cases_witness :
    gopStep 1000 false 6000 6000 = (true, 7000) ∧ gopStep 1000 false 6000 5999 = (false, 6000) :=
  ⟨(gopStep_cases 1000 false 6000 6000).1 (by decide),
   (gopStep_cases 1000 false 6000 5999).2.1 (by decide)⟩

/-! ## The configuration -/

/-- C14. Invalid configurations are rejected atomically. `configure0` returns `false` when
`bitrate_` is 0, `gop_` is 0, `threads_` is 0 or `preset_` is empty, and only then; whenever
it returns `false`, every configuration member (bitrate, gop, lookahead, threads, bFrames,
annexb, preset, fps, frame time, gopTime, needsConfig) has the value it had before. -/
theorem configure0_invalid (VIDEO_DEFAULT_FRAMERATE MIN_GOP_TIME : Nat) (c : EncoderConfig)
    (bitrate_ fps_ gop_ lookahead_ : Nat) (bFrames_ : Int) (threads_ : Nat) (annexB_ : Bool)
    (preset_ : String) (gopTime_ : Nat) :
    ((bitrate_ = 0 ∨ gop_ = 0 ∨ threads_ = 0 ∨ preset_.isEmpty = true) →
      configure0 VIDEO_DEFAULT_FRAMERATE MIN_GOP_TIME c bitrate_ fps_ gop_ lookahead_ bFrames_
        threads_ annexB_ preset_ gopTime_ = (false, c)) ∧
    ((configure0 VIDEO_DEFAULT_FRAMERATE MIN_GOP_TIME c bitrate_ fps_ gop_ lookahead_ bFrames_
        threads_ annexB_ preset_ gopTime_).1 = false →
      (configure0 VIDEO_DEFAULT_FRAMERATE MIN_GOP_TIME c bitrate_ fps_ gop_ lookahead_ bFrames_
        threads_ annexB_ preset_ gopTime_).2 = c ∧
      (bitrate_ = 0 ∨ gop_ = 0 ∨ threads_ = 0 ∨ preset_.isEmpty = true)) := by
  have hcond : (bitrate_ ≤ 0 ∨ gop_ ≤ 0 ∨ lookahead_ < 0 ∨ threads_ ≤ 0 ∨
      preset_.isEmpty = true) ↔
      (bitrate_ = 0 ∨ gop_ = 0 ∨ threads_ = 0 ∨ preset_.isEmpty = true) := by
    constructor
    · rintro (h | h | h | h | h)
      · exact Or.inl (by omega)
      · exact Or.inr (Or.inl (by omega))
      · omega
      · exact Or.inr (Or.inr (Or.inl (by omega)))
      · exact Or.inr (Or.inr (Or.inr h))
    · rintro (h | h | h | h)
      · exact Or.inl (by omega)
      · exact Or.inr (Or.inl (by omega))
      · exact Or.inr (Or.inr (Or.inr (Or.inl (by omega))))
      · exact Or.inr (Or.inr (Or.inr (Or.inr h)))
  constructor
  · intro h
    unfold configure0
    rw [if_pos (hcond.2 h)]
  · intro h
    unfold configure0 at h ⊢
    by_cases hc : bitrate_ ≤ 0 ∨ gop_ ≤ 0 ∨ lookahead_ < 0 ∨ threads_ ≤ 0 ∨
        preset_.isEmpty = true
    · rw [if_pos hc]
      exact ⟨rfl, hcond.1 hc⟩
    · rw [if_neg hc] at h
      simp at h

/-- A call with `threads_` 0 and a call with an empty `preset_`, on a valid configuration. -/
theorem configure0_invalid_witness :
    configure0 25 1000 ⟨2000, 25, 3, 4, 2, true, "fast", 25, 40000, 0, false⟩
      3000 30 50 5 0 0 false "slow" 2000 =
      (false, ⟨2000, 25, 3, 4, 2, true, "fast", 25, 40000, 0, false⟩) ∧
    configure0 25 1000 ⟨2000, 25, 3, 4, 2, true, "fast", 25, 40000, 0, false⟩
      3000 30 50 5 0 8 false "" 2000 =
      (false, ⟨2000, 25, 3, 4, 2, true, "fast", 25, 40000, 0, false⟩) :=
  ⟨(configure0_invalid 25 1000 ⟨2000, 25, 3, 4, 2, true, "fast", 25, 40000, 0, false⟩
      3000 30 50 5 0 0 false "slow" 2000).1 (by decide),
   (configure0_invalid 25 1000 ⟨2000, 25, 3, 4, 2, true, "fast", 25, 40000, 0, false⟩
      3000 30 50 5 0 8 false "" 2000).1 (by decide)⟩

/-! ## Rounding to `float` -/

theorem roundHalfEven_near (m : ℚ) : |(roundHalfEven m : ℚ) - m| ≤ 1 / 2 := by
  have h0 := Int.floor_le m
  have h1 := Int.lt_floor_add_one m
  unfold roundHalfEven
  rw [abs_le]
  split_ifs <;> push_cast <;> constructor <;> linarith

theorem roundHalfEven_intCast (n : Int) : roundHalfEven (n : ℚ) = n := by
  unfold roundHalfEven
  rw [Int.floor_intCast]
  simp

/-- The value of `roundHalfEven` from the integer part of its argument. -/
theorem roundHalfEven_eval {m : ℚ} {f : Int} (h0 : (f : ℚ) ≤ m) (h1 : m < (f : ℚ) + 1) :
    roundHalfEven m =
      if m - f < 1 / 2 then f
      else if 1 / 2 < m - f then f + 1
      else if f % 2 = 0 then f
      else f + 1 := by
  have hf : ⌊m⌋ = f := Int.floor_eq_iff.2 ⟨h0, h1⟩
  unfold roundHalfEven
  rw [hf]

theorem two_zpow_pos (e : Int) : (0 : ℚ) < 2 ^ e := zpow_pos (by norm_num) e

theorem ulp_eq (e : Int) : (2 : ℚ) ^ (e - 23) = 2 ^ e / 2 ^ 23 := by
  rw [zpow_sub₀ (by norm_num)]
  norm_num

theorem two_zpow_succ (e : Int) : (2 : ℚ) ^ (e + 1) = 2 ^ e * 2 := by
  rw [zpow_add_one₀ (by norm_num)]

theorem log_eq_of_binade {x : ℚ} {e : Int} (h1 : (2 : ℚ) ^ e ≤ x) (h2 : x < 2 ^ (e + 1)) :
    Int.log 2 x = e := by
  have hx : 0 < x := lt_of_lt_of_le (two_zpow_pos e) h1
  have a : e ≤ Int.log 2 x :=
    (Int.zpow_le_iff_le_log (R := ℚ) (b := 2) (by norm_num) hx).1 (by simpa using h1)
  have b : Int.log 2 x < e + 1 :=
    (Int.lt_zpow_iff_log_lt (R := ℚ) (b := 2) (by norm_num) hx).1 (by simpa using h2)
  omega

theorem binade_of_pos {x : ℚ} (hx : 0 < x) :
    (2 : ℚ) ^ Int.log 2 x ≤ x ∧ x < 2 ^ (Int.log 2 x + 1) := by
  have a := Int.zpow_log_le_self (R := ℚ) (b := 2) (by norm_num) hx
  have b := Int.lt_zpow_succ_log_self (R := ℚ) (b := 2) (by norm_num) x
  exact ⟨by simpa using a, by simpa using b⟩

theorem toFloat_zero : toFloat 0 = 0 := by
  unfold toFloat
  rw [if_pos rfl]

/-- The value of `toFloat` on a number between `2^e` and `2^(e+1)`. -/
theorem toFloat_of_binade {x : ℚ} {e : Int} (h1 : (2 : ℚ) ^ e ≤ x) (h2 : x < 2 ^ (e + 1)) :
    toFloat x = (roundHalfEven (x / 2 ^ (e - 23)) : ℚ) * 2 ^ (e - 23) := by
  have hx : 0 < x := lt_of_lt_of_le (two_zpow_pos e) h1
  unfold toFloat
  rw [if_neg (ne_of_gt hx), if_neg (not_lt.2 (le_of_lt hx)), log_eq_of_binade h1 h2]

theorem int_le_of_cast_sub_half {a N : Int} {m : ℚ} (h : (a : ℚ) ≤ m)
    (hN : |(N : ℚ) - m| ≤ 1 / 2) : a ≤ N := by
  have h1 := (abs_le.1 hN).1
  have h2 : ((a - 1 : Int) : ℚ) < (N : ℚ) := by push_cast; linarith
  have h3 : a - 1 < N := by exact_mod_cast h2
  omega

theorem int_le_of_cast_add_half {a N : Int} {m : ℚ} (h : m ≤ (a : ℚ))
    (hN : |(N : ℚ) - m| ≤ 1 / 2) : N ≤ a := by
  have h1 := (abs_le.1 hN).2
  have h2 : (N : ℚ) < ((a + 1 : Int) : ℚ) := by push_cast; linarith
  have h3 : N < a + 1 := by exact_mod_cast h2
  omega

/-- Rounding to `float`, spelled out: the result is a multiple `N * 2^(e-23)` with a
significand `N` of 24 bits, at most half a unit in the last place away. -/
theorem toFloat_spec {x : ℚ} {e : Int} (h1 : (2 : ℚ) ^ e ≤ x) (h2 : x < 2 ^ (e + 1)) :
    ∃ N : Int, toFloat x = (N : ℚ) * 2 ^ (e - 23) ∧
      |(N : ℚ) - x / 2 ^ (e - 23)| ≤ 1 / 2 ∧ 2 ^ 23 ≤ N ∧ N ≤ 2 ^ 24 := by
  have hp := two_zpow_pos e
  have hg := two_zpow_pos (e - 23)
  have hnear := roundHalfEven_near (x / 2 ^ (e - 23))
  have hlo : ((2 ^ 23 : Int) : ℚ) ≤ x / 2 ^ (e - 23) := by
    rw [le_div_iff₀ hg, ulp_eq]
    have key : (2 : ℚ) ^ 23 * (2 ^ e / 2 ^ 23) = 2 ^ e := by field_simp
    push_cast
    linarith
  have hhi : x / 2 ^ (e - 23) ≤ ((2 ^ 24 : Int) : ℚ) := by
    rw [div_le_iff₀ hg, ulp_eq]
    have key : (2 : ℚ) ^ 24 * (2 ^ e / 2 ^ 23) = 2 ^ e * 2 := by field_simp; ring
    rw [two_zpow_succ] at h2
    push_cast
    linarith
  exact ⟨roundHalfEven (x / 2 ^ (e - 23)), toFloat_of_binade h1 h2, hnear,
    int_le_of_cast_sub_half hlo hnear, int_le_of_cast_add_half hhi hnear⟩

theorem toFloat_nonneg {x : ℚ} (hx : 0 ≤ x) : 0 ≤ toFloat x := by
  rcases eq_or_lt_of_le hx with h | h
  · rw [← h, toFloat_zero]
  · obtain ⟨hb1, hb2⟩ := binade_of_pos h
    obtain ⟨N, hN, _, hlo, _⟩ := toFloat_spec hb1 hb2
    rw [hN]
    have : (0 : ℚ) ≤ (N : ℚ) := by exact_mod_cast (show (0 : Int) ≤ N by omega)
    exact mul_nonneg this (le_of_lt (two_zpow_pos _))

/-- Rounding to `float` does not go below a power of two. -/
theorem le_toFloat_of_zpow_le {x : ℚ} {j : Int} (h : (2 : ℚ) ^ j ≤ x) : (2 : ℚ) ^ j ≤ toFloat x := by
  have hx : 0 < x := lt_of_lt_of_le (two_zpow_pos j) h
  obtain ⟨hb1, hb2⟩ := binade_of_pos hx
  obtain ⟨N, hN, _, hlo, _⟩ := toFloat_spec hb1 hb2
  have hje : j ≤ Int.log 2 x :=
    (Int.zpow_le_iff_le_log (R := ℚ) (b := 2) (by norm_num) hx).1 (by simpa using h)
  rw [hN, ulp_eq]
  have h23 : ((2 ^ 23 : Int) : ℚ) ≤ (N : ℚ) := by exact_mod_cast hlo
  push_cast at h23
  have hmono : (2 : ℚ) ^ j ≤ 2 ^ Int.log 2 x := zpow_le_zpow_right₀ (by norm_num) hje
  have hp := two_zpow_pos (Int.log 2 x)
  calc (2 : ℚ) ^ j ≤ 2 ^ Int.log 2 x := hmono
    _ = 2 ^ 23 * (2 ^ Int.log 2 x / 2 ^ 23) := by field_simp
    _ ≤ (N : ℚ) * (2 ^ Int.log 2 x / 2 ^ 23) :=
        mul_le_mul_of_nonneg_right h23 (le_of_lt (div_pos hp (by norm_num)))

/-- Rounding to `float` stays below a power of two that is more than half a unit in the
last place away. -/
theorem toFloat_lt_zpow {x : ℚ} {j : Int} (h0 : 0 ≤ x) (h : x ≤ 2 ^ j - 2 ^ (j - 24)) :
    toFloat x < 2 ^ j := by
  have hj := two_zpow_pos j
  have hj24 := two_zpow_pos (j - 24)
  rcases eq_or_lt_of_le h0 with h' | hx
  · rw [← h', toFloat_zero]; exact hj
  · obtain ⟨hb1, hb2⟩ := binade_of_pos hx
    obtain ⟨N, hN, hnear, _, _⟩ := toFloat_spec hb1 hb2
    have hej : Int.log 2 x < j :=
      (Int.lt_zpow_iff_log_lt (R := ℚ) (b := 2) (by norm_num) hx).1 (by simpa using (by linarith : x < 2 ^ j))
    have hg := two_zpow_pos (Int.log 2 x - 23)
    have hmono : (2 : ℚ) ^ (Int.log 2 x - 23) ≤ 2 ^ (j - 24) :=
      zpow_le_zpow_right₀ (by norm_num) (by omega)
    have hup := (abs_le.1 hnear).2
    have hNx : (N : ℚ) * 2 ^ (Int.log 2 x - 23) ≤ x + 2 ^ (Int.log 2 x - 23) / 2 := by
      have := mul_le_mul_of_nonneg_right hup (le_of_lt hg)
      have e : x / 2 ^ (Int.log 2 x - 23) * 2 ^ (Int.log 2 x - 23) = x := by field_simp
      nlinarith
    rw [hN]
    linarith

theorem toFloat_exact_lt (n j : Int) (h0 : 0 < n) (h1 : n < 2 ^ 24) :
    toFloat ((n : ℚ) * 2 ^ j) = (n : ℚ) * 2 ^ j := by
  have hn0 : (0 : ℚ) < (n : ℚ) := by exact_mod_cast h0
  have hn1 : (n : ℚ) < 2 ^ 24 := by exact_mod_cast h1
  have hj := two_zpow_pos j
  have hx : (0 : ℚ) < (n : ℚ) * 2 ^ j := mul_pos hn0 hj
  obtain ⟨hb1, hb2⟩ := binade_of_pos hx
  have hlt : (n : ℚ) * 2 ^ j < 2 ^ (24 + j) := by
    rw [zpow_add₀ (by norm_num)]
    exact mul_lt_mul_of_pos_right (by rw [zpow_ofNat]; exact hn1) hj
  have he : Int.log 2 ((n : ℚ) * 2 ^ j) < 24 + j :=
    (Int.lt_zpow_iff_log_lt (R := ℚ) (b := 2) (by norm_num) hx).1 (by simpa using hlt)
  obtain ⟨t, ht⟩ : ∃ t : Nat, (t : Int) = j - (Int.log 2 ((n : ℚ) * 2 ^ j) - 23) :=
    ⟨(j - (Int.log 2 ((n : ℚ) * 2 ^ j) - 23)).toNat, by omega⟩
  have hdiv : (n : ℚ) * 2 ^ j / 2 ^ (Int.log 2 ((n : ℚ) * 2 ^ j) - 23) =
      ((n * 2 ^ t : Int) : ℚ) := by
    rw [mul_div_assoc, ← zpow_sub₀ (by norm_num), ← ht, zpow_natCast]
    push_cast
    rfl
  rw [toFloat_of_binade hb1 hb2, hdiv, roundHalfEven_intCast]
  push_cast
  rw [mul_assoc, ← zpow_natCast, ht, ← zpow_add₀ (by norm_num)]
  congr 2
  ring

/-- A number with a significand of 24 bits is a `float`. -/
theorem toFloat_exact (n j : Int) (h0 : 0 ≤ n) (h1 : n ≤ 2 ^ 24) :
    toFloat ((n : ℚ) * 2 ^ j) = (n : ℚ) * 2 ^ j := by
  rcases eq_or_lt_of_le h0 with h | h
  · rw [← h]; simp [toFloat_zero]
  · rcases eq_or_lt_of_le h1 with h' | h'
    · have e : (n : ℚ) * 2 ^ j = ((2 ^ 23 : Int) : ℚ) * 2 ^ (j + 1) := by
        rw [h', zpow_add_one₀ (by norm_num)]
        push_cast
        ring
      rw [e]
      exact toFloat_exact_lt (2 ^ 23) (j + 1) (by norm_num) (by norm_num)
    · exact toFloat_exact_lt n j h h'

/-- An integer of at most 24 bits is a `float`. -/
theorem toFloat_intCast (n : Int) (h0 : 0 ≤ n) (h1 : n ≤ 2 ^ 24) : toFloat (n : ℚ) = n := by
  have := toFloat_exact n 0 h0 h1
  simpa using this

/-- An integer of at most 24 bits over a power of two is a `float`. -/
theorem toFloat_div_pow (n : Int) (d : Nat) (h0 : 0 ≤ n) (h1 : n ≤ 2 ^ 24) :
    toFloat ((n : ℚ) / 2 ^ d) = (n : ℚ) / 2 ^ d := by
  have := toFloat_exact n (-(d : Int)) h0 h1
  rw [zpow_neg, zpow_natCast, ← div_eq_mul_inv] at this
  exact this

/-- Rounding to `float` twice is rounding once. -/
theorem toFloat_toFloat {x : ℚ} (hx : 0 ≤ x) : toFloat (toFloat x) = toFloat x := by
  rcases eq_or_lt_of_le hx with h | h
  · rw [← h, toFloat_zero, toFloat_zero]
  · obtain ⟨hb1, hb2⟩ := binade_of_pos h
    obtain ⟨N, hN, _, hlo, hhi⟩ := toFloat_spec hb1 hb2
    rw [hN]
    exact toFloat_exact N _ (by omega) hhi

/-- Rounding to `float` on the numbers from 1 up to `2^24`: the result is `N / 2^d` for an
integer `N` at most half a unit away from `x * 2^d`, where `2^23 <= x * 2^d < 2^24`. -/
theorem toFloat_grid {x : ℚ} (h1 : 1 ≤ x) (h2 : x < 2 ^ 24) :
    ∃ (d : Nat) (N : Int), d ≤ 23 ∧ toFloat x = (N : ℚ) / 2 ^ d ∧
      |(N : ℚ) - x * 2 ^ d| ≤ 1 / 2 ∧ (2 : ℚ) ^ 23 ≤ x * 2 ^ d ∧ x * 2 ^ d < 2 ^ 24 := by
  have hx : 0 < x := by linarith
  obtain ⟨hb1, hb2⟩ := binade_of_pos hx
  have he0 : 0 ≤ Int.log 2 x :=
    (Int.zpow_le_iff_le_log (R := ℚ) (b := 2) (by norm_num) hx).1 (by simpa using h1)
  have he1 : Int.log 2 x < 24 :=
    (Int.lt_zpow_iff_log_lt (R := ℚ) (b := 2) (by norm_num) hx).1
      (by rw [zpow_ofNat]; simpa using h2)
  obtain ⟨N, hN, hnear, _, _⟩ := toFloat_spec hb1 hb2
  obtain ⟨d, hd⟩ : ∃ d : Nat, (d : Int) = 23 - Int.log 2 x :=
    ⟨(23 - Int.log 2 x).toNat, by omega⟩
  have hg : (2 : ℚ) ^ (Int.log 2 x - 23) = (2 ^ d)⁻¹ := by
    rw [← zpow_natCast, hd, ← zpow_neg]
    congr 1
    ring
  have hD : (0 : ℚ) < 2 ^ d := by positivity
  rw [hg] at hN hnear
  rw [div_inv_eq_mul] at hnear
  have hp := two_zpow_pos (Int.log 2 x)
  have hpe : (2 : ℚ) ^ Int.log 2 x * 2 ^ d = 2 ^ 23 := by
    rw [← zpow_natCast, hd, ← zpow_add₀ (by norm_num)]
    have : Int.log 2 x + (23 - Int.log 2 x) = 23 := by ring
    rw [this]
    norm_num
  refine ⟨d, N, by omega, by rw [hN, div_eq_mul_inv], hnear, ?_, ?_⟩
  · rw [← hpe]
    exact mul_le_mul_of_nonneg_right hb1 (le_of_lt hD)
  · have : (2 : ℚ) ^ 24 = 2 ^ (Int.log 2 x + 1) * 2 ^ d := by
      rw [two_zpow_succ, mul_right_comm, hpe]
      norm_num
    rw [this]
    exact mul_lt_mul_of_pos_right hb2 hD

/-! ## The quotient of two 24-bit integers in `float` -/

theorem grid_lower {N k D T d ρ : Int} (hT : 0 < T) (hD : 0 < D)
    (hB : 2 * d * D ≤ 2 * N * T + T) (hE : d = T * k + ρ) (hρ0 : 0 ≤ ρ) : k * D ≤ N := by
  by_contra hcon
  have h1 : N + 1 ≤ k * D := by omega
  have h2 : (N + 1) * T ≤ k * D * T := Int.mul_le_mul_of_nonneg_right h1 (le_of_lt hT)
  have h3 : 0 ≤ ρ * D := Int.mul_nonneg hρ0 (le_of_lt hD)
  subst hE
  nlinarith

theorem grid_upper {N k D T d ρ : Int} (hT : 0 < T) (hD : 0 < D)
    (hA : 2 * N * T ≤ 2 * d * D + T) (hC : 2 ^ 23 * T ≤ d * D) (hd : d < 2 ^ 24)
    (hE : d = T * k + ρ) (hρ1 : ρ < T) : N < (k + 1) * D := by
  by_contra hcon
  have h1 : (k + 1) * D ≤ N := by omega
  have h2 : (k + 1) * D * T ≤ N * T := Int.mul_le_mul_of_nonneg_right h1 (le_of_lt hT)
  have h3 : 0 ≤ (T - 1 - ρ) * D := Int.mul_nonneg (by omega) (le_of_lt hD)
  have h4 : 0 ≤ (2 ^ 24 - 1 - d) * D := Int.mul_nonneg (by omega) (le_of_lt hD)
  subst hE
  nlinarith

theorem grid_half {N k D' T d ρ : Int} (hT : 0 < T) (hD : 0 < D')
    (hA : 2 * N * T ≤ 2 * d * (2 * D') + T) (hB : 2 * d * (2 * D') ≤ 2 * N * T + T)
    (hC : 2 ^ 23 * T ≤ d * (2 * D')) (hd : d < 2 ^ 23)
    (hE : d = T * k + ρ) (hρ1 : ρ < T) :
    2 * D' ≤ 2 * (N - k * (2 * D')) ↔ T ≤ 2 * ρ := by
  constructor
  · intro h
    by_contra hcon
    have h1 : 2 * ρ + 1 ≤ T := by omega
    have h3 : 0 ≤ (T - 1 - 2 * ρ) * D' := Int.mul_nonneg (by omega) (le_of_lt hD)
    have h4 : 0 ≤ (2 ^ 23 - 1 - d) * D' := Int.mul_nonneg (by omega) (le_of_lt hD)
    have h5 : (D' + 2 * k * D') * T ≤ N * T :=
      Int.mul_le_mul_of_nonneg_right (by linarith) (le_of_lt hT)
    subst hE
    nlinarith
  · intro h
    by_contra hcon
    have h1 : N + 1 ≤ D' + 2 * k * D' := by
      have : N - k * (2 * D') < D' := by omega
      linarith
    have h2 : (N + 1) * T ≤ (D' + 2 * k * D') * T :=
      Int.mul_le_mul_of_nonneg_right h1 (le_of_lt hT)
    have h3 : 0 ≤ (2 * ρ - T) * D' := Int.mul_nonneg (by omega) (le_of_lt hD)
    subst hE
    nlinarith

/-- The tick duration in `float`: itself up to `2^24`, and at least `2^24` above. -/
theorem toFloat_tick {T : Int} (hT : 0 < T) :
    (T ≤ 2 ^ 24 ∧ toFloat (T : ℚ) = T) ∨ (2 ^ 24 < T ∧ (2 : ℚ) ^ 24 ≤ toFloat (T : ℚ)) := by
  rcases le_or_lt T (2 ^ 24) with h | h
  · exact Or.inl ⟨h, toFloat_intCast T (by omega) h⟩
  · refine Or.inr ⟨h, ?_⟩
    have h1 : (2 : ℚ) ^ (24 : Int) ≤ (T : ℚ) := by
      rw [zpow_ofNat]
      exact_mod_cast le_of_lt h
    have := le_toFloat_of_zpow_le h1
    rw [zpow_ofNat] at this
    exact this

/-- The remainder that both methods compute, for a time difference `d` below `2^24`
microseconds that is less than a tick: the `float` quotient itself, below 1. -/
theorem remainder_below_tick {d T : Int} (hd0 : 0 ≤ d) (hd1 : d < 2 ^ 24) (hdT : d < T) :
    toFloat (toFloat (toFloat (d : ℚ) / toFloat (T : ℚ)) - toFloat ((0 : Int) : ℚ)) =
      toFloat ((d : ℚ) / toFloat (T : ℚ)) ∧
    0 ≤ toFloat ((d : ℚ) / toFloat (T : ℚ)) ∧ toFloat ((d : ℚ) / toFloat (T : ℚ)) < 1 ∧
    (d < 2 ^ 23 → (1 / 2 ≤ toFloat ((d : ℚ) / toFloat (T : ℚ)) ↔ T ≤ 2 * d)) := by
  have hT : 0 < T := by omega
  have hTq : (0 : ℚ) < (T : ℚ) := by exact_mod_cast hT
  have hdq0 : (0 : ℚ) ≤ (d : ℚ) := by exact_mod_cast hd0
  have hdq1 : (d : ℚ) ≤ 2 ^ 24 - 1 := by
    have : ((d : Int) : ℚ) ≤ ((2 ^ 24 - 1 : Int) : ℚ) := by exact_mod_cast (show d ≤ 2 ^ 24 - 1 by omega)
    push_cast at this
    linarith
  have hdTq : (d : ℚ) + 1 ≤ (T : ℚ) := by exact_mod_cast (show d + 1 ≤ T by omega)
  have hF : (0 : ℚ) < toFloat (T : ℚ) ∧ (d : ℚ) / toFloat (T : ℚ) ≤ 1 - 1 / 2 ^ 24 := by
    rcases toFloat_tick hT with ⟨h, e⟩ | ⟨h, e⟩
    · rw [e]
      refine ⟨hTq, ?_⟩
      rw [div_le_iff₀ hTq]
      have hT24 : (T : ℚ) ≤ 2 ^ 24 := by exact_mod_cast h
      nlinarith
    · have hpos : (0 : ℚ) < toFloat (T : ℚ) := lt_of_lt_of_le (by norm_num) e
      refine ⟨hpos, ?_⟩
      rw [div_le_iff₀ hpos]
      nlinarith
  obtain ⟨hFpos, hx1⟩ := hF
  have hx0 : (0 : ℚ) ≤ (d : ℚ) / toFloat (T : ℚ) := div_nonneg hdq0 (le_of_lt hFpos)
  have hlt1 : toFloat ((d : ℚ) / toFloat (T : ℚ)) < 1 := by
    have := toFloat_lt_zpow (j := 0) hx0 (by
      rw [zpow_zero, show (0 : Int) - 24 = -24 by norm_num, zpow_neg, zpow_ofNat]
      rw [one_div] at hx1
      exact hx1)
    simpa using this
  refine ⟨?_, toFloat_nonneg hx0, hlt1, ?_⟩
  · rw [toFloat_intCast d hd0 (by omega)]
    simp only [Int.cast_zero, toFloat_zero, sub_zero]
    exact toFloat_toFloat hx0
  · intro hd23
    have hdq23 : (d : ℚ) ≤ 2 ^ 23 - 1 := by
      have : ((d : Int) : ℚ) ≤ ((2 ^ 23 - 1 : Int) : ℚ) := by
        exact_mod_cast (show d ≤ 2 ^ 23 - 1 by omega)
      push_cast at this
      linarith
    constructor
    · intro hhalf
      by_contra hcon
      have h2 : 2 * (d : ℚ) + 1 ≤ (T : ℚ) := by exact_mod_cast (show 2 * d + 1 ≤ T by omega)
      have hx2 : (d : ℚ) / toFloat (T : ℚ) ≤ 1 / 2 - 1 / 2 ^ 25 := by
        rcases toFloat_tick hT with ⟨h, e⟩ | ⟨h, e⟩
        · rw [e, div_le_iff₀ hTq]
          have hT24 : (T : ℚ) ≤ 2 ^ 24 := by exact_mod_cast h
          nlinarith
        · rw [div_le_iff₀ hFpos]
          nlinarith
      have := toFloat_lt_zpow (j := -1) hx0 (by
        rw [show (-1 : Int) - 24 = -25 by norm_num, zpow_neg, zpow_neg, zpow_one, zpow_ofNat]
        rw [one_div, one_div] at hx2
        exact hx2)
      rw [zpow_neg, zpow_one] at this
      rw [one_div] at hhalf
      exact absurd hhalf (not_le.2 this)
    · intro hle
      have hT24 : T ≤ 2 ^ 24 := by omega
      rw [toFloat_intCast T (by omega) hT24]
      have h2 : (T : ℚ) ≤ 2 * (d : ℚ) := by exact_mod_cast hle
      have hx2 : (2 : ℚ) ^ (-1 : Int) ≤ (d : ℚ) / (T : ℚ) := by
        rw [zpow_neg, zpow_one, le_div_iff₀ hTq]
        linarith
      have := le_toFloat_of_zpow_le hx2
      rw [zpow_neg, zpow_one] at this
      rw [one_div]
      exact this

/-- The remainder that both methods compute, for a time difference `d` below `2^24`
microseconds of at least one tick `T`: the `float` quotient minus the integer quotient,
computed without an error, in `[0, 1)`. -/
theorem remainder_above_tick {d T : Int} (hT : 0 < T) (hTd : T ≤ d) (hd1 : d < 2 ^ 24) :
    toFloat (toFloat (toFloat (d : ℚ) / toFloat (T : ℚ)) - toFloat ((d / T : Int) : ℚ)) =
      toFloat ((d : ℚ) / (T : ℚ)) - ((d / T : Int) : ℚ) ∧
    0 ≤ toFloat ((d : ℚ) / (T : ℚ)) - ((d / T : Int) : ℚ) ∧
    toFloat ((d : ℚ) / (T : ℚ)) - ((d / T : Int) : ℚ) < 1 ∧
    (d < 2 ^ 23 →
      (1 / 2 ≤ toFloat ((d : ℚ) / (T : ℚ)) - ((d / T : Int) : ℚ) ↔ T ≤ 2 * (d % T))) := by
  have hTq : (0 : ℚ) < (T : ℚ) := by exact_mod_cast hT
  have hd0 : 0 ≤ d := by omega
  have hk0 : 0 ≤ d / T := Int.ediv_nonneg hd0 (by omega)
  have hk1 : d / T ≤ d := Int.ediv_le_self T hd0
  have hE : d = T * (d / T) + d % T := (Int.ediv_add_emod d T).symm
  have hρ0 : 0 ≤ d % T := Int.emod_nonneg d (by omega)
  have hρ1 : d % T < T := Int.emod_lt_of_pos d hT
  have hx1 : (1 : ℚ) ≤ (d : ℚ) / (T : ℚ) := by
    rw [le_div_iff₀ hTq, one_mul]
    exact_mod_cast hTd
  have hx2 : (d : ℚ) / (T : ℚ) < 2 ^ 24 := by
    rw [div_lt_iff₀ hTq]
    have h1 : (d : ℚ) < 2 ^ 24 := by exact_mod_cast hd1
    have h2 : (1 : ℚ) ≤ (T : ℚ) := by exact_mod_cast hT
    nlinarith
  obtain ⟨dd, N, hdd, hq, hnear, hlo, hhi⟩ := toFloat_grid hx1 hx2
  have hDq : (0 : ℚ) < 2 ^ dd := by positivity
  have hD : (0 : Int) < 2 ^ dd := by positivity
  have hD23 : (2 : Int) ^ dd ≤ 2 ^ 23 := pow_le_pow_right₀ (by norm_num) hdd
  have hmul : (d : ℚ) / (T : ℚ) * 2 ^ dd * (T : ℚ) = (d : ℚ) * 2 ^ dd := by field_simp
  obtain ⟨hn1, hn2⟩ := abs_le.1 hnear
  have hA : 2 * N * T ≤ 2 * d * 2 ^ dd + T := by
    have h := mul_le_mul_of_nonneg_right hn2 (le_of_lt hTq)
    have : ((2 * N * T : Int) : ℚ) ≤ ((2 * d * 2 ^ dd + T : Int) : ℚ) := by
      push_cast
      nlinarith
    exact_mod_cast this
  have hB : 2 * d * 2 ^ dd ≤ 2 * N * T + T := by
    have h := mul_le_mul_of_nonneg_right hn1 (le_of_lt hTq)
    have : ((2 * d * 2 ^ dd : Int) : ℚ) ≤ ((2 * N * T + T : Int) : ℚ) := by
      push_cast
      nlinarith
    exact_mod_cast this
  have hC : 2 ^ 23 * T ≤ d * 2 ^ dd := by
    have h := mul_le_mul_of_nonneg_right hlo (le_of_lt hTq)
    have : ((2 ^ 23 * T : Int) : ℚ) ≤ ((d * 2 ^ dd : Int) : ℚ) := by
      push_cast
      nlinarith
    exact_mod_cast this
  have hlow : d / T * 2 ^ dd ≤ N := grid_lower hT hD hB hE hρ0
  have hupp : N < (d / T + 1) * 2 ^ dd := grid_upper hT hD hA hC hd1 hE hρ1
  have hsub : toFloat ((d : ℚ) / (T : ℚ)) - ((d / T : Int) : ℚ) =
      ((N - d / T * 2 ^ dd : Int) : ℚ) / 2 ^ dd := by
    rw [hq]
    push_cast
    field_simp
    ring
  have hn0 : 0 ≤ N - d / T * 2 ^ dd := by omega
  have hnD : N - d / T * 2 ^ dd < 2 ^ dd := by
    have : (d / T + 1) * 2 ^ dd = d / T * 2 ^ dd + 2 ^ dd := by ring
    omega
  refine ⟨?_, ?_, ?_, ?_⟩
  · rw [toFloat_intCast d hd0 (by omega), toFloat_intCast T (by omega) (by omega),
      toFloat_intCast (d / T) hk0 (by omega), hsub]
    exact toFloat_div_pow _ dd hn0 (by omega)
  · rw [hsub]
    exact div_nonneg (by exact_mod_cast hn0) (le_of_lt hDq)
  · rw [hsub, div_lt_one hDq]
    exact_mod_cast hnD
  · intro hd23
    have hdd1 : 1 ≤ dd := by
      by_contra hcon
      have h0 : dd = 0 := by omega
      rw [h0, pow_zero, mul_one] at hC
      have hT1 : 1 ≤ T := hT
      nlinarith
    obtain ⟨d', hd'⟩ : ∃ d' : Nat, dd = d' + 1 := ⟨dd - 1, by omega⟩
    have hpow : (2 : Int) ^ dd = 2 * 2 ^ d' := by rw [hd', pow_succ]; ring
    have hD' : (0 : Int) < 2 ^ d' := by positivity
    rw [hpow] at hA hB hC
    have key := grid_half hT hD' hA hB hC hd23 hE hρ1
    rw [← hpow] at key
    rw [← key, hsub, le_div_iff₀ hDq]
    constructor
    · intro h
      have h' : ((2 ^ dd : Int) : ℚ) ≤ ((2 * (N - d / T * 2 ^ dd) : Int) : ℚ) := by
        push_cast at h ⊢
        linarith
      have hz : (2 : Int) ^ dd ≤ 2 * (N - d / T * 2 ^ dd) := by exact_mod_cast h'
      omega
    · intro h
      have h' : (2 : Int) ^ dd ≤ 2 * (N - d / T * 2 ^ dd) := by omega
      have hz : ((2 ^ dd : Int) : ℚ) ≤ ((2 * (N - d / T * 2 ^ dd) : Int) : ℚ) := by
        exact_mod_cast h'
      push_cast at hz ⊢
      linarith

/-! ## Decode time and segment duration: facts about the embedding -/

theorem toUInt32_range (x : Int) : 0 ≤ toUInt32 x ∧ toUInt32 x < 2 ^ 32 := by
  unfold toUInt32
  exact ⟨Int.emod_nonneg x (by norm_num), Int.emod_lt_of_pos x (by norm_num)⟩

theorem toUInt32_of_range {x : Int} (h0 : 0 ≤ x) (h1 : x < 2 ^ 32) : toUInt32 x = x := by
  unfold toUInt32
  exact Int.emod_eq_of_lt h0 h1

/-- The remainder that both methods compute for a time difference `d` below `2^24`
microseconds: the `float` quotient minus the integer quotient, computed without an error,
in `[0, 1)`; below `2^23` it is at least 1/2 exactly when the remainder of the integer
division is at least half a tick. -/
theorem remainder_spec {d T : Int} (hT : 0 < T) (hd0 : 0 ≤ d) (hd1 : d < 2 ^ 24) :
    toFloat (toFloat (toFloat (d : ℚ) / toFloat (T : ℚ)) - toFloat ((d / T : Int) : ℚ)) =
      toFloat ((d : ℚ) / toFloat (T : ℚ)) - ((d / T : Int) : ℚ) ∧
    0 ≤ toFloat ((d : ℚ) / toFloat (T : ℚ)) - ((d / T : Int) : ℚ) ∧
    toFloat ((d : ℚ) / toFloat (T : ℚ)) - ((d / T : Int) : ℚ) < 1 ∧
    (d < 2 ^ 23 →
      (1 / 2 ≤ toFloat ((d : ℚ) / toFloat (T : ℚ)) - ((d / T : Int) : ℚ) ↔
        T ≤ 2 * (d % T))) := by
  rcases lt_or_le d T with h | h
  · have hq : d / T = 0 := Int.ediv_eq_zero_of_lt hd0 h
    have hr : d % T = d := Int.emod_eq_of_lt hd0 h
    rw [hq, hr]
    simp only [Int.cast_zero, sub_zero]
    have := remainder_below_tick hd0 hd1 h
    simp only [Int.cast_zero] at this
    exact this
  · have hTf : toFloat (T : ℚ) = T := toFloat_intCast T (by omega) (by omega)
    have := remainder_above_tick hT h hd1
    rw [hTf] at this ⊢
    exact this

namespace SegmentClock

theorem delta_range (a b : Timeval) : 0 ≤ delta a b ∧ delta a b < 2 ^ 32 :=
  toUInt32_range _

/-- The difference of the truncated totals is the true difference when that is less than
`2^32` microseconds. -/
theorem delta_eq {a b : Timeval} (h0 : 0 ≤ a.micros - b.micros)
    (h1 : a.micros - b.micros < 2 ^ 32) : delta a b = a.micros - b.micros := by
  unfold delta toUInt32
  rw [← Int.sub_emod]
  exact Int.emod_eq_of_lt h0 h1

theorem quotient_range {d T : Int} (hd0 : 0 ≤ d) (hd1 : d < 2 ^ 32) (hT : 0 < T) :
    toUInt32 (Int.tdiv d T) = d / T ∧ 0 ≤ d / T ∧ d / T ≤ d := by
  have hq0 : 0 ≤ d / T := Int.ediv_nonneg hd0 (by omega)
  have hq1 : d / T ≤ d := Int.ediv_le_self T hd0
  rw [Int.tdiv_eq_ediv hd0 (by omega)]
  exact ⟨toUInt32_of_range hq0 (by omega), hq0, hq1⟩

/-- The fractional part of the exact quotient. -/
theorem fraction_eq (d : Int) {T : Int} (hT : 0 < T) :
    ((d : Int) : ℚ) / ((T : Int) : ℚ) - (((d / T : Int)) : ℚ) = (((d % T : Int)) : ℚ) / ((T : Int) : ℚ) := by
  have hT' : ((T : Int) : ℚ) ≠ 0 := by
    have : (0 : ℚ) < ((T : Int) : ℚ) := by exact_mod_cast hT
    exact ne_of_gt this
  have h : (d : ℚ) = (T : ℚ) * ((d / T : Int) : ℚ) + ((d % T : Int) : ℚ) := by
    exact_mod_cast (Int.ediv_add_emod d T).symm
  field_simp
  rw [h]
  ring

theorem fraction_lt_one (d : Int) {T : Int} (hT : 0 < T) :
    0 ≤ (((d % T : Int)) : ℚ) / ((T : Int) : ℚ) ∧ (((d % T : Int)) : ℚ) / ((T : Int) : ℚ) < 1 := by
  have hT' : (0 : ℚ) < ((T : Int) : ℚ) := by exact_mod_cast hT
  have h0 : (0 : ℚ) ≤ ((d % T : Int) : ℚ) := by exact_mod_cast Int.emod_nonneg d (by omega)
  have h1 : ((d % T : Int) : ℚ) < ((T : Int) : ℚ) := by exact_mod_cast Int.emod_lt_of_pos d hT
  exact ⟨div_nonneg h0 (le_of_lt hT'), (div_lt_one hT').2 h1⟩

theorem fraction_half_iff (d : Int) {T : Int} (hT : 0 < T) :
    (((d % T : Int)) : ℚ) / ((T : Int) : ℚ) ≥ 1 / 2 ↔ T ≤ 2 * (d % T) := by
  have hT' : (0 : ℚ) < ((T : Int) : ℚ) := by exact_mod_cast hT
  rw [ge_iff_le, div_le_div_iff₀ (by norm_num) hT']
  constructor
  · intro h
    have h2 : ((T : Int) : ℚ) ≤ ((2 * (d % T) : Int) : ℚ) := by push_cast; linarith
    exact_mod_cast h2
  · intro h
    have h2 : ((T : Int) : ℚ) ≤ ((2 * (d % T) : Int) : ℚ) := by exact_mod_cast h
    push_cast at h2
    linarith

/-- Method `decodeTime` from the integer quotient `k` and the `float` remainder `r`. -/
theorem decodeTime_of_remainder (T : Int) (s : SegmentClock) (a b : Timeval) {k : Int} {r : ℚ}
    (hk : toUInt32 (Int.tdiv (delta a b) T) = k)
    (hr : toFloat (toFloat (toFloat (delta a b : ℚ) / toFloat (T : ℚ)) - toFloat (k : ℚ)) = r) :
    decodeTime T s a b =
      if r ≥ 1 / 2 then (toUInt32 (k + 1), { s with decodeTimeFloat := r })
      else (k, { s with decodeTimeFloat := r }) := by
  subst hk
  subst hr
  rfl

/-- Method `segmentDuration` from the integer quotient `k` and the `float` remainder `r`. -/
theorem segmentDuration_of_remainder (T : Int) (s : SegmentClock) (a b : Timeval) {k : Int}
    {r : ℚ} (hk : toUInt32 (Int.tdiv (delta a b) T) = k)
    (hr : toFloat (toFloat (toFloat (delta a b : ℚ) / toFloat (T : ℚ)) - toFloat (k : ℚ)) = r) :
    segmentDuration T s a b =
      if r ≥ 1 then
        (toUInt32 (k + 1),
          { s with
            durationSampleFloat := toFloat (r - 1)
            totalSegmentDuration := s.totalSegmentDuration + toUInt32 (k + 1) })
      else
        (k, { s with
          durationSampleFloat := r
          totalSegmentDuration := s.totalSegmentDuration + k }) := by
  subst hk
  subst hr
  unfold segmentDuration delta
  simp only
  split_ifs <;> rfl

/-- What `segmentDuration` returns and stores for times less than `2^24` microseconds
apart. -/
theorem segmentDuration_eq (T : Int) (s : SegmentClock) (a b : Timeval) (hT : 0 < T)
    (hd : delta a b < 2 ^ 24) :
    segmentDuration T s a b =
      (delta a b / T,
        { s with
          durationSampleFloat :=
            toFloat ((delta a b : ℚ) / toFloat (T : ℚ)) - ((delta a b / T : Int) : ℚ)
          totalSegmentDuration := s.totalSegmentDuration + delta a b / T }) := by
  obtain ⟨hd0, hd1⟩ := delta_range a b
  obtain ⟨hq, _, _⟩ := quotient_range hd0 hd1 hT
  obtain ⟨he, _, hlt, _⟩ := remainder_spec hT hd0 hd
  rw [segmentDuration_of_remainder T s a b hq he, if_neg (not_le.2 hlt)]

/-- What `decodeTime` returns and stores for times less than `2^23` microseconds apart. -/
theorem decodeTime_eq (T : Int) (s : SegmentClock) (a b : Timeval) (hT : 0 < T)
    (hd : delta a b < 2 ^ 23) :
    decodeTime T s a b =
      (if T ≤ 2 * (delta a b % T) then delta a b / T + 1 else delta a b / T,
        { s with
          decodeTimeFloat :=
            toFloat ((delta a b : ℚ) / toFloat (T : ℚ)) - ((delta a b / T : Int) : ℚ) }) := by
  obtain ⟨hd0, hd1⟩ := delta_range a b
  obtain ⟨hq, hq0, hq1⟩ := quotient_range hd0 hd1 hT
  obtain ⟨he, _, _, hhalf⟩ := remainder_spec hT hd0 (by omega)
  have hhalf' := hhalf hd
  rw [decodeTime_of_remainder T s a b hq he]
  by_cases hc : T ≤ 2 * (delta a b % T)
  · rw [if_pos (hhalf'.2 hc), if_pos hc, toUInt32_of_range (by omega) (by omega)]
  · rw [if_neg (fun h => hc (hhalf'.1 h)), if_neg hc]

/-- The remainder for times exactly one tick apart. -/
theorem unit_remainder {T : Int} (hT : 0 < T) :
    toFloat (toFloat (toFloat (T : ℚ) / toFloat (T : ℚ)) - toFloat ((1 : Int) : ℚ)) = 0 := by
  have hF : toFloat (T : ℚ) ≠ 0 := by
    rcases toFloat_tick hT with ⟨_, e⟩ | ⟨_, e⟩
    · rw [e]
      exact_mod_cast (show T ≠ 0 by omega)
    · exact ne_of_gt (lt_of_lt_of_le (by norm_num) e)
  have h1 : toFloat ((1 : Int) : ℚ) = ((1 : Int) : ℚ) := toFloat_intCast 1 (by norm_num) (by norm_num)
  rw [div_self hF, h1]
  rw [Int.cast_one] at h1 ⊢
  rw [h1, sub_self, toFloat_zero]

/-- Rounding to `float` of an odd integer of 25 bits: a tie, which goes to the even
significand. -/
theorem toFloat_odd (n : Int) (h1 : 2 ^ 23 ≤ n) (h2 : n < 2 ^ 24) :
    toFloat ((2 * n + 1 : Int) : ℚ) = if n % 2 = 0 then ((2 * n : Int) : ℚ)
      else ((2 * n + 2 : Int) : ℚ) := by
  have hn1 : ((2 ^ 23 : Int) : ℚ) ≤ (n : ℚ) := by exact_mod_cast h1
  have hn2 : (n : ℚ) ≤ ((2 ^ 24 - 1 : Int) : ℚ) := by
    exact_mod_cast (show n ≤ 2 ^ 24 - 1 by omega)
  push_cast at hn1 hn2
  have hb1 : (2 : ℚ) ^ (24 : Int) ≤ ((2 * n + 1 : Int) : ℚ) := by
    rw [zpow_ofNat]; push_cast; linarith
  have hb2 : ((2 * n + 1 : Int) : ℚ) < (2 : ℚ) ^ ((24 : Int) + 1) := by
    rw [show (24 : Int) + 1 = 25 by norm_num, zpow_ofNat]; push_cast; norm_num; linarith
  have hu : (2 : ℚ) ^ ((24 : Int) - 23) = 2 := by
    rw [show (24 : Int) - 23 = 1 by norm_num, zpow_one]
  have hm0 : (n : ℚ) ≤ ((2 * n + 1 : Int) : ℚ) / 2 := by push_cast; linarith
  have hm1 : ((2 * n + 1 : Int) : ℚ) / 2 < (n : ℚ) + 1 := by push_cast; linarith
  have hfrac : ((2 * n + 1 : Int) : ℚ) / 2 - (n : ℚ) = 1 / 2 := by push_cast; ring
  rw [toFloat_of_binade hb1 hb2, hu, roundHalfEven_eval hm0 hm1, hfrac,
    if_neg (lt_irrefl _), if_neg (lt_irrefl _)]
  split_ifs <;> push_cast <;> ring

end SegmentClock

/-! ## Decode time and segment duration -/

namespace SegmentClock

/-- C15. Unit tick. For two presentation times whose difference is exactly one tick duration
`H264_FREQUENCY` (a positive value of 32 bits), `decodeTime` returns 1 and `segmentDuration`
returns 1, whatever the members held before, and the remainders `decodeTimeFloat` and
`durationSampleFloat` are 0 afterwards, also after both calls in a row. -/
theorem unit_tick (T : Int) (s : SegmentClock) (a b : Timeval) (hT : 0 < T)
    (hT32 : T < 2 ^ 32) (hd : a.micros - b.micros = T) :
    (decodeTime T s a b).1 = 1 ∧ (decodeTime T s a b).2.decodeTimeFloat = 0 ∧
    (segmentDuration T s a b).1 = 1 ∧ (segmentDuration T s a b).2.durationSampleFloat = 0 ∧
    (segmentDuration T (decodeTime T s a b).2 a b).2.decodeTimeFloat = 0 ∧
    (segmentDuration T (decodeTime T s a b).2 a b).2.durationSampleFloat = 0 := by
  have hdelta : delta a b = T := by rw [delta_eq (by omega) (by omega)]; exact hd
  have hk : toUInt32 (Int.tdiv (delta a b) T) = 1 := by
    rw [hdelta, (quotient_range (le_of_lt hT) hT32 hT).1]
    exact Int.ediv_self (by omega)
  have hr : toFloat (toFloat (toFloat (delta a b : ℚ) / toFloat (T : ℚ)) -
      toFloat ((1 : Int) : ℚ)) = 0 := by
    rw [hdelta]
    exact unit_remainder hT
  rw [segmentDuration_of_remainder T (decodeTime T s a b).2 a b hk hr,
    segmentDuration_of_remainder T s a b hk hr, decodeTime_of_remainder T s a b hk hr]
  rw [if_neg (by norm_num), if_neg (by norm_num)]
  exact ⟨rfl, rfl, rfl, rfl, rfl, rfl⟩

/-- A tick of 90000 microseconds and the times 10.09 s and 10 s. -/
theorem unit_tick_witness :
    (decodeTime 90000 ⟨3 / 4, 1 / 4, 7⟩ ⟨10, 90000⟩ ⟨10, 0⟩).1 = 1 ∧
    (segmentDuration 90000 ⟨3 / 4, 1 / 4, 7⟩ ⟨10, 90000⟩ ⟨10, 0⟩).1 = 1 :=
  ⟨(unit_tick 90000 ⟨3 / 4, 1 / 4, 7⟩ ⟨10, 90000⟩ ⟨10, 0⟩ (by decide) (by decide)
      (by decide)).1,
   (unit_tick 90000 ⟨3 / 4, 1 / 4, 7⟩ ⟨10, 90000⟩ ⟨10, 0⟩ (by decide) (by decide)
      (by decide)).2.2.1⟩

theorem ofMicros_micros (m : Int) : (Timeval.ofMicros m).micros = m := by
  unfold Timeval.ofMicros Timeval.micros
  simp only
  have := Int.ediv_add_emod m 1000000
  omega

theorem framesEvery_length (step : Int) : ∀ (n : Nat) (t : Int),
    (framesEvery step n t).length = n := by
  intro n
  induction n with
  | zero => intro t; rfl
  | succ n ih => intro t; simp [framesEvery, ih]

/-- Calls of `segmentDuration` on frames that are `d` microseconds apart, `d` below `2^24`,
add `floor(d / T)` each to `totalSegmentDuration`. -/
theorem segmentDurations_every (T d : Int) (hT : 0 < T) (hd0 : 0 ≤ d) (hd1 : d < 2 ^ 24) :
    ∀ (n : Nat) (t : Int) (s : SegmentClock),
      (segmentDurations T s (Timeval.ofMicros t) (framesEvery d n t)).totalSegmentDuration =
        s.totalSegmentDuration + (n : Int) * (d / T) := by
  intro n
  induction n with
  | zero =>
    intro t s
    simp [framesEvery, segmentDurations]
  | succ n ih =>
    intro t s
    simp only [framesEvery, segmentDurations]
    rw [ih (t + d)]
    have hdelta : delta (Timeval.ofMicros (t + d)) (Timeval.ofMicros t) = d := by
      rw [delta_eq] <;> rw [ofMicros_micros, ofMicros_micros] <;> omega
    rw [segmentDuration_eq T s _ _ hT (by rw [hdelta]; exact hd1), hdelta]
    push_cast
    ring

/-- C16 fails on the code. With a tick of 90000 microseconds, 1000 calls of
`segmentDuration` on frames that are 135000 microseconds (1.5 ticks) apart, from zero
remainder and zero total, leave `totalSegmentDuration` at 1000, while 1500 ticks have
elapsed: the total is 500 ticks behind, not less than 2. -/
theorem segmentDurations_drift :
    (segmentDurations 90000 ⟨0, 0, 0⟩ (Timeval.ofMicros 0)
      (framesEvery 135000 1000 0)).totalSegmentDuration = 1000 ∧
    (framesEvery 135000 1000 0).length = 1000 ∧
    (2 : ℚ) ≤ |(3 / 2 : ℚ) * 1000 - 1000| := by
  refine ⟨?_, framesEvery_length 135000 1000 0, ?_⟩
  · rw [segmentDurations_every 90000 135000 (by decide) (by decide) (by decide) 1000 0]
    decide
  · norm_num

/-- C17, as the code has it. `decodeTime` rounds the tick count half up when the times are
less than `2^23` microseconds apart: for times `a >= b` with `delta = a - b` less than
`2^23` microseconds and a tick duration `T > 0`, it returns `floor(delta / T) + 1` when the
fractional part of the exact quotient `delta / T` is at least 1/2 and `floor(delta / T)`
otherwise, which is `floor((2 * delta + T) / (2 * T))`, whatever the members held before the
call. -/
theorem decodeTime_round (T : Int) (s : SegmentClock) (a b : Timeval) (hT : 0 < T)
    (h0 : 0 ≤ a.micros - b.micros) (h1 : a.micros - b.micros < 2 ^ 23) :
    (decodeTime T s a b).1 =
      (if (((a.micros - b.micros : Int)) : ℚ) / ((T : Int) : ℚ)
          - ((((a.micros - b.micros) / T : Int)) : ℚ) ≥ 1 / 2
        then (a.micros - b.micros) / T + 1 else (a.micros - b.micros) / T) ∧
    (decodeTime T s a b).1 = (2 * (a.micros - b.micros) + T) / (2 * T) := by
  have hdelta : delta a b = a.micros - b.micros := delta_eq h0 (by omega)
  rw [decodeTime_eq T s a b hT (by rw [hdelta]; exact h1), hdelta]
  generalize a.micros - b.micros = d
  have hhalf := fraction_half_iff d hT
  rw [← fraction_eq d hT] at hhalf
  have hr := Int.emod_lt_of_pos d hT
  have hr0 := Int.emod_nonneg d (show T ≠ 0 by omega)
  have hrec := Int.ediv_add_emod d T
  have hfloor : (2 * d + T) / (2 * T) = if T ≤ 2 * (d % T) then d / T + 1 else d / T := by
    have e : 2 * d + T = (2 * (d % T) + T) + (2 * T) * (d / T) := by
      have : 2 * d = 2 * (T * (d / T) + d % T) := by rw [hrec]
      rw [this]; ring
    rw [e, Int.add_mul_ediv_left _ _ (show (2 * T) ≠ 0 by omega)]
    split_ifs with hc
    · have : (2 * (d % T) + T) / (2 * T) = 1 := by
        rw [show 2 * (d % T) + T = (2 * (d % T) - T) + 2 * T by ring,
          Int.add_ediv_of_dvd_right (dvd_refl _), Int.ediv_self (by omega),
          Int.ediv_eq_zero_of_lt (by omega) (by omega)]
        rfl
      rw [this]; ring
    · have : (2 * (d % T) + T) / (2 * T) = 0 :=
        Int.ediv_eq_zero_of_lt (by omega) (by omega)
      rw [this]; ring
  refine ⟨?_, ?_⟩
  · simp only
    by_cases hc : T ≤ 2 * (d % T)
    · rw [if_pos hc, if_pos (hhalf.2 hc)]
    · rw [if_neg hc, if_neg (fun h => hc (hhalf.1 h))]
  · simp only
    rw [hfloor]

/-- A tick of 1000 microseconds: 2.5 ticks give 3, whatever the remainder was. -/
theorem decodeTime_round_witness :
    (decodeTime 1000 ⟨3 / 4, 1 / 4, 7⟩ ⟨5, 2500⟩ ⟨5, 0⟩).1 =
      (2 * ((⟨5, 2500⟩ : Timeval).micros - (⟨5, 0⟩ : Timeval).micros) + 1000) / (2 * 1000) :=
  (decodeTime_round 1000 ⟨3 / 4, 1 / 4, 7⟩ ⟨5, 2500⟩ ⟨5, 0⟩ (by decide) (by decide)
    (by decide)).2

/-- C17 fails as stated. With a tick of 1000 microseconds, `a` at 16.777499 s and `b` at 0,
the difference 16777499 is not a `float`: the conversion gives 16777500, the `float`
quotient is 16777.5, the remainder is 0.5 and `decodeTime` returns 16778, while the exact
quotient 16777.499 rounds half up to 16777. With a tick of 16777217 microseconds and times
`2^23` = 8388608 microseconds apart, the tick converts to 16777216, the `float` quotient is
0.5 and `decodeTime` returns 1, while the exact quotient is below 1/2 and rounds to 0. -/
theorem decodeTime_round_counterexample :
    ((⟨0, 0⟩ : Timeval).micros ≤ (⟨16, 777499⟩ : Timeval).micros ∧
      (decodeTime 1000 ⟨0, 0, 0⟩ ⟨16, 777499⟩ ⟨0, 0⟩).1 = 16778 ∧
      (2 * ((⟨16, 777499⟩ : Timeval).micros - (⟨0, 0⟩ : Timeval).micros) + 1000) / (2 * 1000)
        = 16777) ∧
    ((⟨0, 0⟩ : Timeval).micros ≤ (⟨8, 388608⟩ : Timeval).micros ∧
      (decodeTime 16777217 ⟨0, 0, 0⟩ ⟨8, 388608⟩ ⟨0, 0⟩).1 = 1 ∧
      (2 * ((⟨8, 388608⟩ : Timeval).micros - (⟨0, 0⟩ : Timeval).micros) + 16777217) /
        (2 * 16777217) = 0) := by
  refine ⟨⟨by decide, ?_, by decide⟩, ⟨by decide, ?_, by decide⟩⟩
  · have hk : toUInt32 (Int.tdiv (delta ⟨16, 777499⟩ ⟨0, 0⟩) 1000) = 16777 := by decide
    have hd : delta ⟨16, 777499⟩ ⟨0, 0⟩ = 2 * 8388749 + 1 := by decide
    have hr : toFloat (toFloat (toFloat (delta ⟨16, 777499⟩ ⟨0, 0⟩ : ℚ) /
        toFloat ((1000 : Int) : ℚ)) - toFloat ((16777 : Int) : ℚ)) = 1 / 2 := by
      rw [hd, toFloat_odd 8388749 (by decide) (by decide), if_neg (by decide),
        toFloat_intCast 1000 (by decide) (by decide),
        toFloat_intCast 16777 (by decide) (by decide)]
      have e1 : ((2 * 8388749 + 2 : Int) : ℚ) / ((1000 : Int) : ℚ) = ((33555 : Int) : ℚ) / 2 ^ 1 := by
        norm_num
      have e2 : ((33555 : Int) : ℚ) / 2 ^ 1 - ((16777 : Int) : ℚ) = ((1 : Int) : ℚ) / 2 ^ 1 := by
        norm_num
      rw [e1, toFloat_div_pow 33555 1 (by decide) (by decide), e2,
        toFloat_div_pow 1 1 (by decide) (by decide)]
      norm_num
    rw [decodeTime_of_remainder 1000 _ _ _ hk hr, if_pos (le_refl _)]
    decide
  · have hk : toUInt32 (Int.tdiv (delta ⟨8, 388608⟩ ⟨0, 0⟩) 16777217) = 0 := by decide
    have hd : delta ⟨8, 388608⟩ ⟨0, 0⟩ = 8388608 := by decide
    have hT : (16777217 : Int) = 2 * 8388608 + 1 := by decide
    have hr : toFloat (toFloat (toFloat (delta ⟨8, 388608⟩ ⟨0, 0⟩ : ℚ) /
        toFloat ((16777217 : Int) : ℚ)) - toFloat ((0 : Int) : ℚ)) = 1 / 2 := by
      rw [hd, hT, toFloat_odd 8388608 (by decide) (by decide), if_pos (by decide),
        toFloat_intCast 8388608 (by decide) (by decide),
        toFloat_intCast 0 (by decide) (by decide)]
      have e1 : ((8388608 : Int) : ℚ) / ((2 * 8388608 : Int) : ℚ) = ((1 : Int) : ℚ) / 2 ^ 1 := by
        norm_num
      have e2 : ((1 : Int) : ℚ) / 2 ^ 1 - ((0 : Int) : ℚ) = ((1 : Int) : ℚ) / 2 ^ 1 := by
        norm_num
      rw [e1, toFloat_div_pow 1 1 (by decide) (by decide), e2,
        toFloat_div_pow 1 1 (by decide) (by decide)]
      norm_num
    rw [decodeTime_of_remainder 16777217 _ _ _ hk hr, if_pos (le_refl _)]
    decide

/-- C20, as the code has it. The carry branch of `segmentDuration` is not taken when the
times are less than `2^24` microseconds apart. For times `a >= b` with `delta = a - b` less
than `2^24` microseconds and a tick duration `T > 0`, the remainder that the method stores
is the one that the subtraction leaves, the `float` quotient minus `floor(delta / T)`; it
lies in `[0, 1)`, so the test `>= 1` fails and nothing is subtracted from it. The method
returns `floor(delta / T)` and adds that value to `totalSegmentDuration`, whatever the
members held before the call. -/
theorem segmentDuration_floor (T : Int) (s : SegmentClock) (a b : Timeval) (hT : 0 < T)
    (h0 : 0 ≤ a.micros - b.micros) (h1 : a.micros - b.micros < 2 ^ 24) :
    (segmentDuration T s a b).2.durationSampleFloat =
      toFloat (toFloat (toFloat ((a.micros - b.micros : Int) : ℚ) / toFloat ((T : Int) : ℚ))
        - toFloat ((((a.micros - b.micros) / T : Int)) : ℚ)) ∧
    0 ≤ (segmentDuration T s a b).2.durationSampleFloat ∧
    (segmentDuration T s a b).2.durationSampleFloat < 1 ∧
    (segmentDuration T s a b).1 = (a.micros - b.micros) / T ∧
    (segmentDuration T s a b).2.totalSegmentDuration =
      s.totalSegmentDuration + (a.micros - b.micros) / T ∧
    (∀ s' : SegmentClock, (segmentDuration T s' a b).1 = (segmentDuration T s a b).1 ∧
      (segmentDuration T s' a b).2.durationSampleFloat =
        (segmentDuration T s a b).2.durationSampleFloat) := by
  have hdelta : delta a b = a.micros - b.micros := delta_eq h0 (by omega)
  have hd : delta a b < 2 ^ 24 := by rw [hdelta]; exact h1
  obtain ⟨he, hr0, hr1, _⟩ := remainder_spec hT h0 h1
  refine ⟨?_, ?_, ?_, ?_, ?_, ?_⟩
  · rw [segmentDuration_eq T s a b hT hd, hdelta, he]
  · rw [segmentDuration_eq T s a b hT hd, hdelta]; exact hr0
  · rw [segmentDuration_eq T s a b hT hd, hdelta]; exact hr1
  · rw [segmentDuration_eq T s a b hT hd, hdelta]
  · rw [segmentDuration_eq T s a b hT hd, hdelta]
  · intro s'
    rw [segmentDuration_eq T s a b hT hd, segmentDuration_eq T s' a b hT hd]
    exact ⟨rfl, rfl⟩

/-- A tick of 1000 microseconds and times 1.5 ticks apart: the method returns 1. -/
theorem segmentDuration_floor_witness :
    (segmentDuration 1000 ⟨3 / 4, 9 / 10, 5⟩ ⟨5, 1500⟩ ⟨5, 0⟩).1 =
      ((⟨5, 1500⟩ : Timeval).micros - (⟨5, 0⟩ : Timeval).micros) / 1000 :=
  (segmentDuration_floor 1000 ⟨3 / 4, 9 / 10, 5⟩ ⟨5, 1500⟩ ⟨5, 0⟩ (by decide) (by decide)
    (by decide)).2.2.2.1

/-- C20 fails as stated. With a tick of 90000 microseconds, `a` at 16.829999 s and `b` at
0, the difference 16829999 is not a `float`: the conversion gives 16830000, the `float`
quotient is 187, the remainder after the subtraction of 186 is 1, the carry branch runs and
`segmentDuration` returns 187 and leaves the remainder 0, while `floor(delta / T)` is 186.
With a tick of 16777217 microseconds and times `2^24` = 16777216 microseconds apart, the
tick converts to 16777216, the `float` quotient is 1, the carry branch runs and the method
returns 1, while `floor(delta / T)` is 0. -/
theorem segmentDuration_floor_counterexample :
    ((⟨0, 0⟩ : Timeval).micros ≤ (⟨16, 829999⟩ : Timeval).micros ∧
      (segmentDuration 90000 ⟨0, 0, 0⟩ ⟨16, 829999⟩ ⟨0, 0⟩).1 = 187 ∧
      (segmentDuration 90000 ⟨0, 0, 0⟩ ⟨16, 829999⟩ ⟨0, 0⟩).2.durationSampleFloat = 0 ∧
      ((⟨16, 829999⟩ : Timeval).micros - (⟨0, 0⟩ : Timeval).micros) / 90000 = 186) ∧
    ((⟨0, 0⟩ : Timeval).micros ≤ (⟨16, 777216⟩ : Timeval).micros ∧
      (segmentDuration 16777217 ⟨0, 0, 0⟩ ⟨16, 777216⟩ ⟨0, 0⟩).1 = 1 ∧
      ((⟨16, 777216⟩ : Timeval).micros - (⟨0, 0⟩ : Timeval).micros) / 16777217 = 0) := by
  refine ⟨⟨by decide, ?_⟩, ⟨by decide, ?_, by decide⟩⟩
  · have hk : toUInt32 (Int.tdiv (delta ⟨16, 829999⟩ ⟨0, 0⟩) 90000) = 186 := by decide
    have hd : delta ⟨16, 829999⟩ ⟨0, 0⟩ = 2 * 8414999 + 1 := by decide
    have hr : toFloat (toFloat (toFloat (delta ⟨16, 829999⟩ ⟨0, 0⟩ : ℚ) /
        toFloat ((90000 : Int) : ℚ)) - toFloat ((186 : Int) : ℚ)) = 1 := by
      rw [hd, toFloat_odd 8414999 (by decide) (by decide), if_neg (by decide),
        toFloat_intCast 90000 (by decide) (by decide),
        toFloat_intCast 186 (by decide) (by decide)]
      have e1 : ((2 * 8414999 + 2 : Int) : ℚ) / ((90000 : Int) : ℚ) = ((187 : Int) : ℚ) := by
        norm_num
      have e2 : ((187 : Int) : ℚ) - ((186 : Int) : ℚ) = ((1 : Int) : ℚ) := by
        norm_num
      rw [e1, toFloat_intCast 187 (by decide) (by decide), e2,
        toFloat_intCast 1 (by decide) (by decide)]
      norm_num
    rw [segmentDuration_of_remainder 90000 _ _ _ hk hr, if_pos (le_refl _)]
    refine ⟨by decide, ?_, by decide⟩
    show toFloat ((1 : ℚ) - 1) = 0
    rw [sub_self, toFloat_zero]
  · have hk : toUInt32 (Int.tdiv (delta ⟨16, 777216⟩ ⟨0, 0⟩) 16777217) = 0 := by decide
    have hd : delta ⟨16, 777216⟩ ⟨0, 0⟩ = 16777216 := by decide
    have hT : (16777217 : Int) = 2 * 8388608 + 1 := by decide
    have hr : toFloat (toFloat (toFloat (delta ⟨16, 777216⟩ ⟨0, 0⟩ : ℚ) /
        toFloat ((16777217 : Int) : ℚ)) - toFloat ((0 : Int) : ℚ)) = 1 := by
      rw [hd, hT, toFloat_odd 8388608 (by decide) (by decide), if_pos (by decide),
        toFloat_intCast 16777216 (by decide) (by decide),
        toFloat_intCast 0 (by decide) (by decide)]
      have e1 : ((16777216 : Int) : ℚ) / ((2 * 8388608 : Int) : ℚ) = ((1 : Int) : ℚ) := by
        norm_num
      have e2 : ((1 : Int) : ℚ) - ((0 : Int) : ℚ) = ((1 : Int) : ℚ) := by
        norm_num
      rw [e1, toFloat_intCast 1 (by decide) (by decide), e2,
        toFloat_intCast 1 (by decide) (by decide)]
      norm_num
    rw [segmentDuration_of_remainder 16777217 _ _ _ hk hr, if_pos (le_refl _)]
    decide

end SegmentClock

/-! ## AudioCircularBuffer: the state invariant -/

namespace AudioCircularBuffer

/-- The members after a `pushBack` call that returned `true`; with at least one channel the
copies were made, so the request was not negative. -/
theorem pushBack_true_fields {s s' : AudioCircularBuffer} {buffer : List (List Byte)} {n : Int}
    (h : pushBack s buffer n = some (true, s')) :
    s'.front = s.front ∧ s'.channelMaxLength = s.channelMaxLength ∧
    s'.byteCounter = s.byteCounter + n * s.bytesPerSample ∧
    s'.rear = cMod (s.rear + n * s.bytesPerSample) s.channelMaxLength ∧
    n * s.bytesPerSample ≤ s.channelMaxLength - s.byteCounter ∧
    (1 ≤ s.channels → 0 ≤ n * s.bytesPerSample) := by
  unfold pushBack at h
  simp only at h
  split at h
  · cases h
  · rename_i hfit
    split at h
    · split at h
      · cases h
      · rename_i data' hdata
        split at h
        · cases h
        injection h with h
        injection h with _ h
        subst h
        refine ⟨rfl, rfl, rfl, rfl, by omega, ?_⟩
        intro hch
        obtain ⟨d', hbody, _⟩ := forChannels_get hdata (show 0 < s.channels.toNat by omega)
        split at hbody
        swap
        · cases hbody
        exact (memcpy_some hbody).1
    · split at h
      · cases h
      · rename_i data' hdata
        split at h
        · cases h
        injection h with h
        injection h with _ h
        subst h
        refine ⟨rfl, rfl, rfl, rfl, by omega, ?_⟩
        intro hch
        obtain ⟨d', hbody, _⟩ := forChannels_get hdata (show 0 < s.channels.toNat by omega)
        split at hbody
        swap
        · cases hbody
        split at hbody
        swap
        · cases hbody
        rename_i d1 hcp1
        have hc1 := (memcpy_some hcp1).1
        have hc2 := (memcpy_some hbody).1
        omega

/-- The members after a `popFront` call that returned `true`. -/
theorem popFront_true_fields {s s' : AudioCircularBuffer} {buffer buffer' : List (List Byte)}
    {n : Int} (h : popFront s buffer n = some (true, s', buffer')) :
    s'.rear = s.rear ∧ s'.channelMaxLength = s.channelMaxLength ∧
    s'.byteCounter = s.byteCounter - n * s.bytesPerSample ∧
    s'.front = cMod (s.front + n * s.bytesPerSample) s.channelMaxLength ∧
    n * s.bytesPerSample ≤ s.byteCounter ∧
    (1 ≤ s.channels → 0 ≤ n * s.bytesPerSample) := by
  unfold popFront at h
  simp only at h
  split at h
  · cases h
  · rename_i hfit
    split at h
    · split at h
      · cases h
      · rename_i out hout
        split at h
        · cases h
        injection h with h
        injection h with _ h
        injection h with h hb
        subst h hb
        refine ⟨rfl, rfl, rfl, rfl, by omega, ?_⟩
        intro hch
        obtain ⟨b', hbody, _⟩ := forChannels_get hout (show 0 < s.channels.toNat by omega)
        split at hbody
        swap
        · cases hbody
        exact (memcpy_some hbody).1
    · split at h
      · cases h
      · rename_i out hout
        split at h
        · cases h
        injection h with h
        injection h with _ h
        injection h with h hb
        subst h hb
        refine ⟨rfl, rfl, rfl, rfl, by omega, ?_⟩
        intro hch
        obtain ⟨b', hbody, _⟩ := forChannels_get hout (show 0 < s.channels.toNat by omega)
        split at hbody
        swap
        · cases hbody
        split at hbody
        swap
        · cases hbody
        rename_i b1 hcp1
        have hc1 := (memcpy_some hcp1).1
        have hc2 := (memcpy_some hbody).1
        omega

theorem cMod_eq_emod {a b : Int} (ha : 0 ≤ a) (hb : 0 < b) : cMod a b = a % b := by
  unfold cMod
  exact Int.tmod_eq_emod ha (by omega)

/-- C18, as the code has it. For every capacity `channelMaxLength >= 1` the freshly
constructed buffer satisfies `0 <= byteCounter <= channelMaxLength`,
`0 <= front < channelMaxLength`, `0 <= rear < channelMaxLength` and
`rear = (front + byteCounter) mod channelMaxLength`, and these relations are kept by every
`pushBack` and `popFront` call, whether it returns `true` or `false`, whose request
`samplesRequested * bytesPerSample` is not negative. -/
theorem state_invariant :
    (∀ chNumber chMaxSamples bytesPerSmpl : Nat,
      1 ≤ (mk0 chNumber chMaxSamples bytesPerSmpl).channelMaxLength →
      StateInv (mk0 chNumber chMaxSamples bytesPerSmpl)) ∧
    (∀ (s s' : AudioCircularBuffer) (buffer : List (List Byte)) (n : Int) (ok : Bool),
      StateInv s → 0 ≤ n * s.bytesPerSample →
      pushBack s buffer n = some (ok, s') → StateInv s') ∧
    (∀ (s s' : AudioCircularBuffer) (buffer buffer' : List (List Byte)) (n : Int) (ok : Bool),
      StateInv s → 0 ≤ n * s.bytesPerSample →
      popFront s buffer n = some (ok, s', buffer') → StateInv s') := by
  refine ⟨?_, ?_, ?_⟩
  · intro chNumber chMaxSamples bytesPerSmpl hcap
    simp only [mk0] at hcap
    simp only [StateInv, mk0]
    refine ⟨le_refl 0, by omega, le_refl 0, by omega, le_refl 0, by omega, ?_⟩
    simp
  · intro s s' buffer n ok hinv hn0 h
    cases ok with
    | false => rw [pushBack_false h]; exact hinv
    | true =>
      obtain ⟨e1, e2, e3, e4, hle, hpos⟩ := pushBack_true_fields h
      obtain ⟨h1, h2, h3, h4, h5, h6, h7⟩ := hinv
      have hcap : 0 < s.channelMaxLength := by omega
      have hrear : s'.rear = (s.front + (s.byteCounter + n * s.bytesPerSample)) %
          s.channelMaxLength := by
        rw [e4, cMod_eq_emod (by omega) hcap, h7, Int.emod_add_emod, Int.add_assoc]
      unfold StateInv
      rw [e1, e2, e3]
      refine ⟨by omega, by omega, h3, h4, ?_, ?_, hrear⟩
      · rw [hrear]; exact Int.emod_nonneg _ (by omega)
      · rw [hrear]; exact Int.emod_lt_of_pos _ hcap
  · intro s s' buffer buffer' n ok hinv hn0 h
    cases ok with
    | false => rw [(popFront_false h).1]; exact hinv
    | true =>
      obtain ⟨e1, e2, e3, e4, hle, hpos⟩ := popFront_true_fields h
      obtain ⟨h1, h2, h3, h4, h5, h6, h7⟩ := hinv
      have hcap : 0 < s.channelMaxLength := by omega
      have hfront : s'.front = (s.front + n * s.bytesPerSample) % s.channelMaxLength := by
        rw [e4, cMod_eq_emod (by omega) hcap]
      unfold StateInv
      rw [e1, e2, e3]
      refine ⟨by omega, by omega, ?_, ?_, h5, h6, ?_⟩
      · rw [hfront]; exact Int.emod_nonneg _ (by omega)
      · rw [hfront]; exact Int.emod_lt_of_pos _ hcap
      · rw [hfront, Int.emod_add_emod, h7]
        congr 1
        ring

/-- A buffer of four bytes per channel that holds two, from offset 1 on: a `pushBack` of two
bytes wraps `rear` around and keeps the relations. -/
theorem state_invariant_witness :
    StateInv ⟨4, 1, 1, 1, 4, 1, 4, [[2, 7, 8, 1]]⟩ :=
  state_invariant.2.1 ⟨2, 1, 3, 1, 4, 1, 4, [[0, 7, 8, 0]]⟩ ⟨4, 1, 1, 1, 4, 1, 4, [[2, 7, 8, 1]]⟩
    [[1, 2, 3]] 2 true (by unfold StateInv; decide) (by decide) (by decide)

/-- C18 fails as stated. A buffer constructed with no channel and a capacity of four bytes
accepts `pushBack` with a request of -1 sample: no copy is made, the call returns `true`,
and `byteCounter` and `rear` are -1 afterwards, so `0 <= byteCounter` and `0 <= rear` are
lost. -/
theorem state_invariant_counterexample :
    1 ≤ (mk0 0 4 1).channelMaxLength ∧
    StateInv (mk0 0 4 1) ∧
    pushBack (mk0 0 4 1) [] (-1) = some (true, ⟨-1, 0, -1, 0, 4, 1, 4, []⟩) ∧
    ¬ StateInv ⟨-1, 0, -1, 0, 4, 1, 4, []⟩ := by
  unfold StateInv
  decide

end AudioCircularBuffer

/-! ## FrameQueue: the state invariant -/

namespace FrameQueue

/-- C19 fails on the code. `addFrame` and `removeFrame` count without a check: in a queue of
one slot, a second `addFrame` leaves `elements` at 2, above `max`, and `removeFrame` on the
empty queue leaves `elements` at -1. -/
theorem unchecked_elements :
    (addFrame (addFrame ⟨0, 0, 0, 1, 0, 0, 0⟩)).elements = 2 ∧
    (addFrame (addFrame ⟨0, 0, 0, 1, 0, 0, 0⟩)).max = 1 ∧
    (removeFrame ⟨0, 0, 0, 1, 0, 0, 0⟩).elements = -1 := by
  decide

end FrameQueue

/-! ## The 32-bit totals -/

namespace SegmentClock

/-- C21. The wraparound of the 32-bit totals does not harm the time difference. For times
`a >= b` whose true difference `d = (a.tv_sec * 1000000 + a.tv_usec) - (b.tv_sec * 1000000 +
b.tv_usec)` is less than `2^32` microseconds, the value `totalA - totalB` that `decodeTime`
and `segmentDuration` compute from the totals reduced modulo `2^32` is `d`, however large
the totals themselves are. -/
theorem wraparound_harmless (a b : Timeval) (h0 : 0 ≤ a.micros - b.micros)
    (h1 : a.micros - b.micros < 2 ^ 32) :
    toUInt32 (toUInt32 a.micros - toUInt32 b.micros) = a.micros - b.micros ∧
    delta a b = a.micros - b.micros := by
  have hwrap : toUInt32 (toUInt32 a.micros - toUInt32 b.micros) = a.micros - b.micros := by
    unfold toUInt32
    rw [← Int.sub_emod]
    exact Int.emod_eq_of_lt h0 h1
  exact ⟨hwrap, hwrap⟩

/-- Two times about 1.7 * 10^15 microseconds after the epoch, far above `2^32`, that are
1000.25 s apart. -/
theorem wraparound_harmless_witness :
    2 ^ 32 ≤ (⟨1699999000, 0⟩ : Timeval).micros ∧
    toUInt32 (toUInt32 (⟨1700000000, 250000⟩ : Timeval).micros
      - toUInt32 (⟨1699999000, 0⟩ : Timeval).micros) =
      (⟨1700000000, 250000⟩ : Timeval).micros - (⟨1699999000, 0⟩ : Timeval).micros ∧
    (⟨1700000000, 250000⟩ : Timeval).micros - (⟨1699999000, 0⟩ : Timeval).micros = 1000250000 :=
  ⟨by decide,
   (wraparound_harmless ⟨1700000000, 250000⟩ ⟨1699999000, 0⟩ (by decide) (by decide)).1,
   by decide⟩

end SegmentClock

end LiveMedia
